import Mathlib

/-!
# OliveScript: a verification development for the compiler and bytecode VM

This file is a shallow embedding, in Lean 4, of the parts of the OliveScript
implementation (an AST-to-bytecode compiler in `src/codegen.rs` and a bytecode
virtual machine in `src/interpreter/mod.rs`, `src/interpreter/object.rs`,
`src/interpreter/garbage.rs`) that the specification's claims are about,
together with theorems settling those claims.

Modelling conventions, stated once here:

* Rust `i64` values are modelled as unbounded `Int` with two's-complement
  wrapping (`wrap64`) applied exactly where the Rust code wraps in release
  mode (`+`, `-`, `*`, unary negation, shifts); `%` and integer division
  panic on overflow and on a zero divisor in Rust in every build mode, and
  are modelled as returning `none` (a panic marker) there.
* Rust `f64` is modelled by `F64`: an exact IEEE-754 binary64 value model
  over the rationals.  `roundRat` is round-to-nearest, ties-to-even at 53
  significand bits with gradual underflow (minimum exponent of the unit in
  the last place is 2^(-1074)) and overflow to the infinities; this is the
  IEEE rounding that every correctly rounded `f64` operation performs.
  The two signed zeros are conflated into `0` (their distinction is never
  observable through the operations the claims mention), and `NaN` is a
  single value.
* Rust panics (`unwrap` on `None`/empty pops, `unimplemented!`, slice index
  out of bounds, arithmetic overflow aborts) are modelled as a distinguished
  `crash` outcome, kept separate from the interpreter's *reported* runtime
  errors, which are modelled by the `RtErr` type mirroring
  `OliveRuntimeError`.
-/

set_option maxRecDepth 4000
set_option linter.unreachableTactic false
set_option exponentiation.threshold 2200

/- The Batteries rational arithmetic is irreducible by default, which
would keep concrete evaluations (`decide`, `rfl`) from reducing; within
this file it is restored to the ordinary transparency. -/
attribute [local semireducible] Rat.mul Rat.add Rat.sub Rat.inv

namespace Olive

/-! ## IEEE-754 binary64 model (`f64`) -/

/-- An IEEE-754 binary64 value: a finite value (held exactly as a rational),
one of the two infinities, or NaN.  Signed zeros are conflated. -/
inductive F64 where
  | finite (q : ℚ)
  | posInf
  | negInf
  | nan
deriving DecidableEq

/-- 2^e for an integer (possibly negative) exponent, as a rational. -/
def qpow2 (e : ℤ) : ℚ :=
  if 0 ≤ e then ((2 ^ e.toNat : ℕ) : ℚ) else 1 / ((2 ^ (-e).toNat : ℕ) : ℚ)

/-- Round a rational to the nearest integer, ties to even. -/
def roundIntQ (x : ℚ) : ℤ :=
  let f : ℤ := ⌊x⌋
  let r : ℚ := x - (f : ℚ)
  if r < 1/2 then f
  else if 1/2 < r then f + 1
  else if f % 2 = 0 then f else f + 1

/-- Fuelled base-2 logarithm on naturals (structural recursion, so that it
evaluates inside the kernel; the fuel is set to the argument itself, which
always suffices). -/
def natLog2F : Nat → Nat → Nat
  | 0, _ => 0
  | fuel + 1, n => if 2 ≤ n then natLog2F fuel (n / 2) + 1 else 0

/-- Base-2 logarithm on naturals, rounded down (`natLog2 0 = 0`). -/
def natLog2 (n : Nat) : Nat := natLog2F n n

/-- Floor of the base-2 logarithm of a positive rational. -/
def flog2 (q : ℚ) : ℤ :=
  let l : ℤ := (natLog2 q.num.natAbs : ℤ) - (natLog2 q.den : ℤ)
  if qpow2 l ≤ q then l else l - 1

/-- Round a real (rational) value to the nearest binary64 value:
round to nearest, ties to even, 53 significand bits, gradual underflow,
overflow to infinity.  This is the rounding performed by every correctly
rounded `f64` operation (conversion from integer, `+`, `-`, `*`, `/`). -/
def roundRat (q : ℚ) : F64 :=
  if q = 0 then .finite 0
  else
    let aq : ℚ := |q|
    let e : ℤ := flog2 aq
    let pe : ℤ := max (e - 52) (-1074)
    let m : ℤ := roundIntQ (aq / qpow2 pe)
    let r : ℚ := (m : ℚ) * qpow2 pe
    if qpow2 1024 ≤ r then (if q < 0 then .negInf else .posInf)
    else .finite (if q < 0 then -r else r)

/-- The `f64` value of an `i64` (Rust's `as f64` cast: correctly rounded). -/
def F64.ofInt (i : ℤ) : F64 := roundRat (i : ℚ)

/-- IEEE equality on `f64` (`==` in Rust): NaN compares unequal to
everything, including itself. -/
def F64.beq : F64 → F64 → Bool
  | .finite a, .finite b => a == b
  | .posInf, .posInf => true
  | .negInf, .negInf => true
  | _, _ => false

/-- IEEE `<` on `f64`: any comparison involving NaN is false. -/
def F64.blt : F64 → F64 → Bool
  | .finite a, .finite b => decide (a < b)
  | .finite _, .posInf => true
  | .negInf, .finite _ => true
  | .negInf, .posInf => true
  | _, _ => false

/-- IEEE `≤` on `f64`: any comparison involving NaN is false. -/
def F64.ble : F64 → F64 → Bool
  | .finite a, .finite b => decide (a ≤ b)
  | .finite _, .posInf => true
  | .negInf, .finite _ => true
  | .negInf, .negInf => true
  | .negInf, .posInf => true
  | .posInf, .posInf => true
  | _, _ => false

/-- IEEE negation on `f64`. -/
def F64.neg : F64 → F64
  | .finite q => .finite (-q)
  | .posInf => .negInf
  | .negInf => .posInf
  | .nan => .nan

/-- IEEE addition on `f64` (correctly rounded). -/
def F64.add : F64 → F64 → F64
  | .finite a, .finite b => roundRat (a + b)
  | .posInf, .negInf => .nan
  | .negInf, .posInf => .nan
  | .posInf, _ => .posInf
  | _, .posInf => .posInf
  | .negInf, _ => .negInf
  | _, .negInf => .negInf
  | _, _ => .nan

/-- IEEE subtraction on `f64`. -/
def F64.sub (a b : F64) : F64 := a.add b.neg

/-- IEEE multiplication on `f64` (correctly rounded). -/
def F64.mul : F64 → F64 → F64
  | .finite a, .finite b => roundRat (a * b)
  | .posInf, .posInf => .posInf
  | .posInf, .negInf => .negInf
  | .negInf, .posInf => .negInf
  | .negInf, .negInf => .posInf
  | .posInf, .finite b => if b = 0 then .nan else if 0 < b then .posInf else .negInf
  | .negInf, .finite b => if b = 0 then .nan else if 0 < b then .negInf else .posInf
  | .finite a, .posInf => if a = 0 then .nan else if 0 < a then .posInf else .negInf
  | .finite a, .negInf => if a = 0 then .nan else if 0 < a then .negInf else .posInf
  | _, _ => .nan

/-- Truncation of a rational toward zero. -/
def truncQ (q : ℚ) : ℤ := if q < 0 then ⌈q⌉ else ⌊q⌋

/-- IEEE division on `f64` (correctly rounded; division by zero gives an
infinity for a nonzero dividend and NaN for `0/0`). -/
def F64.div : F64 → F64 → F64
  | .finite a, .finite b =>
      if b = 0 then (if a = 0 then .nan else if 0 < a then .posInf else .negInf)
      else roundRat (a / b)
  | .finite _, .posInf => .finite 0
  | .finite _, .negInf => .finite 0
  | .posInf, .finite b => if 0 ≤ b then .posInf else .negInf
  | .negInf, .finite b => if 0 ≤ b then .negInf else .posInf
  | _, _ => .nan

/-- Rust's `%` on `f64` (the C `fmod`): `a - b * trunc(a / b)`, computed
exactly (the result is always exactly representable). -/
def F64.fmod : F64 → F64 → F64
  | .finite a, .finite b =>
      if b = 0 then .nan else .finite (a - b * (truncQ (a / b) : ℚ))
  | .finite a, .posInf => .finite a
  | .finite a, .negInf => .finite a
  | _, _ => .nan

/-- Rust's saturating `as i64` cast from `f64`: truncate toward zero,
saturate at the `i64` bounds, NaN maps to 0. -/
def F64.toI64 : F64 → ℤ
  | .finite q => max (-(2 ^ 63)) (min (2 ^ 63 - 1) (truncQ q))
  | .posInf => 2 ^ 63 - 1
  | .negInf => -(2 ^ 63)
  | .nan => 0

/-- Truthiness of an `f64` in the interpreter (`*value != 0.0`);
NaN is truthy since `NaN != 0.0` holds. -/
def F64.isTruthy : F64 → Bool
  | .finite q => !(q == 0)
  | _ => true

/-- Decimal digits of the fractional part of a rational in `[0, 1)`.
Every finite binary64 value has a terminating decimal expansion of fewer
than 1080 fractional digits, so the fuel is never exhausted on values that
arise from `roundRat`. -/
def fracDigits : Nat → ℚ → String
  | 0, _ => ""
  | fuel + 1, f =>
      if f = 0 then ""
      else
        let d : ℤ := ⌊f * 10⌋
        d.natAbs.repr ++ fracDigits fuel (f * 10 - (d : ℚ))

/-- Decimal rendering of a rational (exact, minimal: no fractional part is
printed for integers), used to model Rust's `Display` for `f64`.  Rust
prints the shortest decimal that round-trips; on values whose exact binary
value is a short decimal (such as `3.5`) the two coincide.  The claims
never depend on the rendering of other float values. -/
def fmtQ (q : ℚ) : String :=
  let s : String := if q < 0 then "-" else ""
  let aq : ℚ := |q|
  let ip : ℤ := ⌊aq⌋
  let fp : ℚ := aq - (ip : ℚ)
  if fp = 0 then s ++ ip.natAbs.repr
  else s ++ ip.natAbs.repr ++ "." ++ fracDigits 1100 fp

/-- Rust's `Display` for `f64`, on the `F64` model. -/
def fmtF64 : F64 → String
  | .finite q => fmtQ q
  | .posInf => "inf"
  | .negInf => "-inf"
  | .nan => "NaN"

/-! ## Machine integer helpers (`i64`, release-mode semantics) -/

/-- Two's-complement wrap into the `i64` range. -/
def wrap64 (x : ℤ) : ℤ := (x + 2 ^ 63) % 2 ^ 64 - 2 ^ 63

/-- The unsigned 64-bit pattern of an `i64` value. -/
def toU64 (x : ℤ) : ℕ := (x % 2 ^ 64).toNat

/-- Read a 64-bit pattern back as an `i64`. -/
def ofU64 (n : ℕ) : ℤ := if n < 2 ^ 63 then (n : ℤ) else (n : ℤ) - 2 ^ 64

/-- Rust's `as u32` cast from `i64` (wrapping). -/
def toU32 (x : ℤ) : ℕ := (x % 2 ^ 32).toNat

/-! ## Bytecode operations (`Code`, from `src/codegen.rs`)

The `i8`/`i16`/`i32`/`i64` payloads of the narrow push operations are all
modelled as `Int`; the code generator only ever emits values inside the
corresponding ranges, and the VM immediately widens them to `i64`.
Jump offsets (`i32` in the source) are likewise modelled as `Int`. -/

inductive Code where
  | pushString (s : String)
  | pushBoolean (b : Bool)
  | pushDouble (f : F64)
  | pushLong (i : ℤ)
  | pushInt (i : ℤ)
  | pushShort (i : ℤ)
  | pushByte (i : ℤ)
  | pushBendy
  | pushList
  | pushNone
  | pop
  | ret
  | neg
  | add
  | sub
  | mul
  | intDiv
  | floatDiv
  | mod
  | bitLsh
  | bitRsh
  | bitAnd
  | bitOr
  | bitXOr
  | boolNot
  | concat
  | put
  | get
  | call
  | equals
  | notEquals
  | lessThan
  | lessEquals
  | greaterThan
  | greaterEquals
  | dup
  | jumpNot (off : ℤ)
  | jump (off : ℤ)
  | goto (off : ℤ)
  | store (name : String)
  | load (name : String)
  | pushFun (args : List String) (codes : List Code)

mutual

/-- The derived `PartialEq` on `Code`: fieldwise, with the IEEE equality on
the `f64` payload of `PushDouble` (so two `PushDouble(NaN)` operations
compare unequal, as in Rust). -/
def codeBeq : Code → Code → Bool
  | .pushString s1, .pushString s2 => s1 == s2
  | .pushBoolean b1, .pushBoolean b2 => b1 == b2
  | .pushDouble f1, .pushDouble f2 => F64.beq f1 f2
  | .pushLong i1, .pushLong i2 => i1 == i2
  | .pushInt i1, .pushInt i2 => i1 == i2
  | .pushShort i1, .pushShort i2 => i1 == i2
  | .pushByte i1, .pushByte i2 => i1 == i2
  | .pushBendy, .pushBendy => true
  | .pushList, .pushList => true
  | .pushNone, .pushNone => true
  | .pop, .pop => true
  | .ret, .ret => true
  | .neg, .neg => true
  | .add, .add => true
  | .sub, .sub => true
  | .mul, .mul => true
  | .intDiv, .intDiv => true
  | .floatDiv, .floatDiv => true
  | .mod, .mod => true
  | .bitLsh, .bitLsh => true
  | .bitRsh, .bitRsh => true
  | .bitAnd, .bitAnd => true
  | .bitOr, .bitOr => true
  | .bitXOr, .bitXOr => true
  | .boolNot, .boolNot => true
  | .concat, .concat => true
  | .put, .put => true
  | .get, .get => true
  | .call, .call => true
  | .equals, .equals => true
  | .notEquals, .notEquals => true
  | .lessThan, .lessThan => true
  | .lessEquals, .lessEquals => true
  | .greaterThan, .greaterThan => true
  | .greaterEquals, .greaterEquals => true
  | .dup, .dup => true
  | .jumpNot o1, .jumpNot o2 => o1 == o2
  | .jump o1, .jump o2 => o1 == o2
  | .goto o1, .goto o2 => o1 == o2
  | .store n1, .store n2 => n1 == n2
  | .load n1, .load n2 => n1 == n2
  | .pushFun a1 c1, .pushFun a2 c2 => a1 == a2 && codesBeq c1 c2
  | _, _ => false
termination_by structural c _ => c

/-- `PartialEq` on `Vec<Code>`. -/
def codesBeq : List Code → List Code → Bool
  | [], [] => true
  | c :: cs, d :: ds => codeBeq c d && codesBeq cs ds
  | _, _ => false
termination_by structural c _ => c

end

/-! ## The value model (`Object` and `RefObject` from
`src/interpreter/object.rs`), heap indirection inlined

In the source every composite value is reached through a shared
`Garbage<RefObject>` handle.  The operations the value-level claims are
about (`PartialEq`, `to_string`, `truthy`, `operate`) only ever *read*
through those handles, so on acyclic heap contents they are functions of
the value tree obtained by inlining each handle's target; `Value` is that
tree (on cyclic contents the source functions do not terminate, and no
`Value` corresponds to them).  The `Native` variant's function pointer is
modelled by an opaque numeric identity `closure`. -/

inductive Value where
  | integer (value : ℤ)
  | float (value : F64)
  | boolean (value : Bool)
  | vnone
  | string (value : String)
  | list (data : List Value)
  | bendy (data : List (String × Value))
  | function (args : List String) (codes : List Code)
  | native (argCount : ℕ) (closure : ℕ)

/-- `Object::get_type_name` / `RefObject::get_type_name`. -/
def Value.getTypeName : Value → String
  | .integer _ => "integer"
  | .float _ => "float"
  | .vnone => "none"
  | .boolean _ => "boolean"
  | .function _ _ => "function"
  | .string _ => "string"
  | .list _ => "list"
  | .bendy _ => "bendy"
  | .native _ _ => "native"

/-- `Object::truthy`. -/
def Value.truthy : Value → Bool
  | .integer v => v != 0
  | .boolean v => v
  | .float v => v.isTruthy
  | .vnone => false
  | .string s => s.length > 0
  | .list d => d.length > 0
  | .bendy d => d.length > 0
  | .function _ _ => true
  | .native _ _ => true

/-- `Vec::join(", ")` on plain strings. -/
def joinArgs : List String → String
  | [] => ""
  | [a] => a
  | a :: rest => a ++ ", " ++ joinArgs rest

mutual

/-- `impl ToString for Object` (`to_string`).  The `Bendy` case iterates the
underlying `HashMap` in an unspecified order in Rust; the model iterates in
insertion order (none of the proved properties depends on this choice).
The `Native` case prints an address in Rust (`{:?}` on a function pointer);
the model prints the opaque closure identity. -/
def Value.toStr : Value → String
  | .integer v => v.repr
  | .boolean v => if v then "true" else "false"
  | .float v => fmtF64 v
  | .vnone => "none"
  | .string s => s
  | .list d => "[" ++ toStrList d ++ "]"
  | .bendy d => "\x7b" ++ toStrBendy d ++ "\x7d"
  | .function args _ => "function(" ++ joinArgs args ++ ")"
  | .native _ c => "native(" ++ c.repr ++ ")"
termination_by structural v => v

/-- Elements of a list joined with a comma, as `Vec::join(", ")`. -/
def toStrList : List Value → String
  | [] => ""
  | [v] => v.toStr
  | v :: rest => v.toStr ++ ", " ++ toStrList rest
termination_by structural l => l

/-- Entries of a bendy rendered pairwise and joined with a comma. -/
def toStrBendy : List (String × Value) → String
  | [] => ""
  | [(k, v)] => k ++ ": " ++ v.toStr
  | (k, v) :: rest => k ++ ": " ++ v.toStr ++ ", " ++ toStrBendy rest
termination_by structural l => l

end

/-- `HashMap::get` on the insertion-ordered association-list model of
`HashMap<String, _>` (keys are unique, so which match is taken is
immaterial). -/
def hashGet {A : Type} : List (String × A) → String → Option A
  | [], _ => none
  | (k2, v2) :: rest, k => if k2 == k then some v2 else hashGet rest k

mutual

/-- `impl PartialEq for Object` (`eq`).  The numeric cases compare only
like variants (an `Integer` is never equal to a `Float`); `Float` uses the
IEEE equality; composites compare structurally, the `Bendy` case with the
`HashMap` equality (equal size and every key of the left map bound to an
equal value in the right map, insertion order ignored). -/
def valueEq : Value → Value → Bool
  | .integer v1, .integer v2 => v1 == v2
  | .integer _, _ => false
  | .float v1, .float v2 => F64.beq v1 v2
  | .float _, _ => false
  | .boolean v1, .boolean v2 => v1 == v2
  | .boolean _, _ => false
  | .vnone, .vnone => true
  | .vnone, _ => false
  | .string v1, .string v2 => v1 == v2
  | .string _, _ => false
  | .list d1, .list d2 => valueListEq d1 d2
  | .list _, _ => false
  | .bendy d1, .bendy d2 => d1.length == d2.length && bendySubEq d1 d2
  | .bendy _, _ => false
  | .function a1 c1, .function a2 c2 => a1 == a2 && codesBeq c1 c2
  | .function _ _, _ => false
  | .native n1 c1, .native n2 c2 => n1 == n2 && c1 == c2
  | .native _ _, _ => false
termination_by structural a _ => a

/-- `PartialEq` on `Vec<Object>`: equal length and pairwise equal. -/
def valueListEq : List Value → List Value → Bool
  | [], [] => true
  | a :: as1, b :: bs => valueEq a b && valueListEq as1 bs
  | _, _ => false
termination_by structural l _ => l

/-- The `all` part of the `HashMap` equality: every key of the first map is
bound in the second map to an equal value
(`other.get(key).map_or(false, |v| *value == *v)`). -/
def bendySubEq : List (String × Value) → List (String × Value) → Bool
  | [], _ => true
  | (k, v) :: rest, m2 =>
      (match hashGet m2 k with
       | some v2 => valueEq v v2
       | none => false) && bendySubEq rest m2
termination_by structural m _ => m

end

/-! ## Binary operator dispatch (`Object::operate` and helpers) -/

/-- `OliveRuntimeError` (`src/errors.rs`); location data is dropped. -/
inductive RtErr where
  | incorrectType (expected : List String) (got : String)
  | unmatchingTypes (left right : String)
  | indexOutOfBounds
  | callArgs (expected got : ℕ)
  | variableNotFound (name : String)

/-- The three-way outcome of a value operation: a result value, a reported
runtime error, or a Rust panic (`crash`). -/
inductive OpOut where
  | ok (v : Value)
  | err (e : RtErr)
  | crash

/-- `Object::operate_int`.  `none` models a panic: the catch-all
`panic!()` arm, and the aborts of `%` on a zero divisor and on
`i64::MIN % -1` (Rust checks those in every build mode); `+`, `-`, `*`
wrap in release mode, the shifts are `checked_shl`/`checked_shr` against
the shift amount cast `as u32`, yielding 0 at shifts of 64 or more. -/
def operateInt (a b : ℤ) : Code → Option ℤ
  | .add => some (wrap64 (a + b))
  | .sub => some (wrap64 (a - b))
  | .mod => if b = 0 ∨ (a = -(2 ^ 63) ∧ b = -1) then none else some (Int.tmod a b)
  | .mul => some (wrap64 (a * b))
  | .bitAnd => some (ofU64 (Nat.land (toU64 a) (toU64 b)))
  | .bitOr => some (ofU64 (Nat.lor (toU64 a) (toU64 b)))
  | .bitXOr => some (ofU64 (Nat.xor (toU64 a) (toU64 b)))
  | .bitLsh => some (if 64 ≤ toU32 b then 0 else wrap64 (a * 2 ^ toU32 b))
  | .bitRsh => some (if 64 ≤ toU32 b then 0 else Int.fdiv a (2 ^ toU32 b))
  | _ => none

/-- `Object::compare_int` (`none` models the catch-all `panic!()`). -/
def compareInt (a b : ℤ) : Code → Option Bool
  | .lessEquals => some (decide (a ≤ b))
  | .greaterEquals => some (decide (b ≤ a))
  | .lessThan => some (decide (a < b))
  | .greaterThan => some (decide (b < a))
  | _ => none

/-- `Object::compare_float` (IEEE comparisons; `none` models `panic!()`). -/
def compareFloat (a b : F64) : Code → Option Bool
  | .lessEquals => some (F64.ble a b)
  | .greaterEquals => some (F64.ble b a)
  | .lessThan => some (F64.blt a b)
  | .greaterThan => some (F64.blt b a)
  | _ => none

/-- `Object::operate_float` (`none` models the catch-all `panic!()`). -/
def operateFloat (a b : F64) : Code → Option F64
  | .add => some (F64.add a b)
  | .sub => some (F64.sub a b)
  | .mod => some (F64.fmod a b)
  | .mul => some (F64.mul a b)
  | _ => none

/-- Lift an `operate_int` result into an outcome. -/
def intOut : Option ℤ → OpOut
  | some r => .ok (.integer r)
  | none => .crash

/-- Lift an `operate_float` result into an outcome. -/
def floatOut : Option F64 → OpOut
  | some r => .ok (.float r)
  | none => .crash

/-- Lift a comparison result into an outcome. -/
def boolOut : Option Bool → OpOut
  | some r => .ok (.boolean r)
  | none => .crash

/-- `HashMap::insert`: replace the value under an existing key, otherwise
add a binding. -/
def hmInsert {A : Type} : List (String × A) → String → A → List (String × A)
  | [], k, v => [(k, v)]
  | (k2, v2) :: rest, k, v =>
      if k2 == k then (k2, v) :: rest else (k2, v2) :: hmInsert rest k v

/-- `HashMap::extend`: insert every binding of the second map. -/
def hmExtend {A : Type} (m1 m2 : List (String × A)) : List (String × A) :=
  m2.foldl (fun m kv => hmInsert m kv.1 kv.2) m1

/-- `Object::operate` (`src/interpreter/object.rs`).  Every arm that falls
through in the source reaches the single trailing
`create_binop_type_error` return; the model writes that error out in each
non-matching arm instead. -/
def Value.operate (a b : Value) (operation : Code) : OpOut :=
  let errUT : OpOut := .err (.unmatchingTypes a.getTypeName b.getTypeName)
  match operation with
  | .add | .sub | .mod | .mul =>
    match a, b with
    | .integer v1, .integer v2 => intOut (operateInt v1 v2 operation)
    | .integer v1, .float v2 => floatOut (operateFloat (F64.ofInt v1) v2 operation)
    | .float v1, .float v2 => floatOut (operateFloat v1 v2 operation)
    | .float v1, .integer v2 => floatOut (operateFloat v1 (F64.ofInt v2) operation)
    | _, _ => errUT
  | .lessEquals | .lessThan | .greaterEquals | .greaterThan =>
    match a, b with
    | .integer v1, .integer v2 => boolOut (compareInt v1 v2 operation)
    | .float v1, .float v2 => boolOut (compareFloat v1 v2 operation)
    | _, _ => errUT
  | .bitAnd | .bitOr | .bitXOr | .bitLsh | .bitRsh =>
    match a, b with
    | .integer v1, .integer v2 => intOut (operateInt v1 v2 operation)
    | _, _ => errUT
  | .concat =>
    match a, b with
    | .string v1, other => .ok (.string (v1 ++ other.toStr))
    | .list d1, .list d2 => .ok (.list (d1 ++ d2))
    | .bendy d1, .bendy d2 => .ok (.bendy (hmExtend d1 d2))
    | _, _ => errUT
  | .floatDiv =>
    match a, b with
    | .integer v1, .integer v2 => .ok (.float (F64.div (F64.ofInt v1) (F64.ofInt v2)))
    | .integer v1, .float v2 => .ok (.float (F64.div (F64.ofInt v1) v2))
    | .float v1, .integer v2 => .ok (.float (F64.div v1 (F64.ofInt v2)))
    | .float v1, .float v2 => .ok (.float (F64.div v1 v2))
    | _, _ => errUT
  | .intDiv =>
    match a, b with
    | .integer v1, .integer v2 => .ok (.integer (F64.toI64 (F64.div (F64.ofInt v1) (F64.ofInt v2))))
    | .integer v1, .float v2 => .ok (.integer (F64.toI64 (F64.div (F64.ofInt v1) v2)))
    | .float v1, .integer v2 => .ok (.integer (F64.toI64 (F64.div v1 (F64.ofInt v2))))
    | .float v1, .float v2 => .ok (.integer (F64.toI64 (F64.div v1 v2)))
    | _, _ => errUT
  | .equals => .ok (.boolean (valueEq a b))
  | .notEquals => .ok (.boolean (!valueEq a b))
  | _ => errUT

/-! ## The virtual machine (`run` in `src/interpreter/mod.rs`), with an
explicit heap

Here the pointer indirection is kept: `Obj` is `Object` with
`Garbage<RefObject>` handles modelled as indices (`pointer`) into an
explicit append-only heap (`Heap`, a list of `RefObj`), so that the
sharing and in-place mutation of composites (`Put` writing through a
`Dup`licated handle, list concatenation sharing element handles) is
represented faithfully.  The reference-counting `Drop` of `Garbage` only
ever frees memory and is invisible to the language semantics, so the model
never removes heap entries.

Scopes (`Rc<RefCell<Scope>>`) are modelled as values and threaded
functionally: the callee's scope holds the caller's scope as its `parent`
snapshot.  This is observationally faithful because `Scope::store` only
ever inserts into the scope it is called on (a provable property of the
embedded `Scope.store`, see `scope_store_is_local` below), the caller is
suspended during the call, and the callee's scope dies on return.

Panics (`unwrap` of an empty pop, `unimplemented!()`, slice indexing out
of bounds, usize underflow of the instruction pointer) are the `crash`
outcome.  The recursion of `run`, and the deep recursions of `to_string`
and `eq` through the heap, are bounded by an explicit fuel; `nofuel` is
the out-of-fuel marker (the source diverges or overflows its stack where
no finite fuel suffices). -/

/-- `Object` as the VM sees it: immediates plus heap handles. -/
inductive Obj where
  | integer (value : ℤ)
  | float (value : F64)
  | boolean (value : Bool)
  | vnone
  | pointer (addr : ℕ)
deriving DecidableEq

/-- `RefObject`: the heap-allocated composites. -/
inductive RefObj where
  | function (args : List String) (codes : List Code)
  | string (value : String)
  | list (data : List Obj)
  | bendy (data : List (String × Obj))
  | native (argCount : ℕ) (closure : ℕ)

/-- The heap: handle `pointer a` designates `h[a]`. -/
abbrev Heap : Type := List RefObj

/-- `RefObject::get_type_name`. -/
def RefObj.getTypeName : RefObj → String
  | .function _ _ => "function"
  | .string _ => "string"
  | .list _ => "list"
  | .bendy _ => "bendy"
  | .native _ _ => "native"

/-- `Object::get_type_name` on the heap model (`none` only on a dangling
handle, which no VM execution produces). -/
def typeNameH (h : Heap) : Obj → Option String
  | .integer _ => some "integer"
  | .float _ => some "float"
  | .vnone => some "none"
  | .boolean _ => some "boolean"
  | .pointer p => (List.get? h p).map RefObj.getTypeName

/-- `Object::truthy` on the heap model. -/
def truthyH (h : Heap) : Obj → Option Bool
  | .integer v => some (v != 0)
  | .boolean v => some v
  | .float v => some v.isTruthy
  | .vnone => some false
  | .pointer p =>
      (List.get? h p).map fun r =>
        match r with
        | .string s => s.length > 0
        | .list d => d.length > 0
        | .bendy d => d.length > 0
        | .function _ _ => true
        | .native _ _ => true

/-- `Object::as_integer` (`none` marks a dangling handle). -/
def asIntegerH (h : Heap) : Obj → Option (Except RtErr ℤ)
  | .integer v => some (.ok v)
  | .pointer p =>
      (List.get? h p).map fun r => .error (.incorrectType ["integer"] r.getTypeName)
  | o => some (.error (.incorrectType ["integer"] (match o with
      | .float _ => "float" | .boolean _ => "boolean" | _ => "none")))

/-- `Object::as_string` (`none` marks a dangling handle). -/
def asStringH (h : Heap) : Obj → Option (Except RtErr String)
  | .pointer p =>
      (List.get? h p).map fun r =>
        match r with
        | .string s => .ok s
        | r2 => .error (.incorrectType ["string"] r2.getTypeName)
  | .integer _ => some (.error (.incorrectType ["string"] "integer"))
  | .float _ => some (.error (.incorrectType ["string"] "float"))
  | .boolean _ => some (.error (.incorrectType ["string"] "boolean"))
  | .vnone => some (.error (.incorrectType ["string"] "none"))

mutual

/-- `impl ToString for Object` on the heap model, fuelled: `none` is the
out-of-fuel marker (for every fuel on cyclic data, where the source
recurses forever). -/
def toStrH : ℕ → Heap → Obj → Option String
  | 0, _, _ => none
  | fuel + 1, h, o =>
    match o with
    | .integer v => some v.repr
    | .boolean v => some (if v then "true" else "false")
    | .float v => some (fmtF64 v)
    | .vnone => some "none"
    | .pointer p =>
      match List.get? h p with
      | none => none
      | some (.string s) => some s
      | some (.list d) => (toStrListH fuel h d).map fun s => "[" ++ s ++ "]"
      | some (.bendy d) => (toStrBendyH fuel h d).map fun s => "\x7b" ++ s ++ "\x7d"
      | some (.function args _) => some ("function(" ++ joinArgs args ++ ")")
      | some (.native _ c) => some ("native(" ++ c.repr ++ ")")

/-- Comma-joined renderings of list elements (fuelled). -/
def toStrListH : ℕ → Heap → List Obj → Option String
  | 0, _, _ => none
  | _ + 1, _, [] => some ""
  | fuel + 1, h, [v] => toStrH fuel h v
  | fuel + 1, h, v :: rest => do
      let s ← toStrH fuel h v
      let t ← toStrListH fuel h rest
      pure (s ++ ", " ++ t)

/-- Comma-joined renderings of bendy entries (fuelled). -/
def toStrBendyH : ℕ → Heap → List (String × Obj) → Option String
  | 0, _, _ => none
  | _ + 1, _, [] => some ""
  | fuel + 1, h, [(k, v)] => (toStrH fuel h v).map fun s => k ++ ": " ++ s
  | fuel + 1, h, (k, v) :: rest => do
      let s ← toStrH fuel h v
      let t ← toStrBendyH fuel h rest
      pure (k ++ ": " ++ s ++ ", " ++ t)

end

mutual

/-- `impl PartialEq for Object` on the heap model, fuelled (`none` is the
out-of-fuel marker; on cyclic data the source recurses forever). -/
def eqObjH : ℕ → Heap → Obj → Obj → Option Bool
  | 0, _, _, _ => none
  | fuel + 1, h, a, b =>
    match a with
    | .integer v1 => some (match b with | .integer v2 => v1 == v2 | _ => false)
    | .float v1 => some (match b with | .float v2 => F64.beq v1 v2 | _ => false)
    | .boolean v1 => some (match b with | .boolean v2 => v1 == v2 | _ => false)
    | .vnone => some (match b with | .vnone => true | _ => false)
    | .pointer p1 =>
      match List.get? h p1 with
      | none => none
      | some ra =>
        match b with
        | .pointer p2 =>
          match List.get? h p2 with
          | none => none
          | some rb =>
            match ra, rb with
            | .string s1, .string s2 => some (s1 == s2)
            | .list d1, .list d2 => eqListH fuel h d1 d2
            | .bendy d1, .bendy d2 =>
                if d1.length == d2.length then bendySubEqH fuel h d1 d2 else some false
            | .function a1 c1, .function a2 c2 => some (a1 == a2 && codesBeq c1 c2)
            | .native n1 c1, .native n2 c2 => some (n1 == n2 && c1 == c2)
            | _, _ => some false
        | _ => some false

/-- `PartialEq` on `Vec<Object>` over the heap (fuelled). -/
def eqListH : ℕ → Heap → List Obj → List Obj → Option Bool
  | 0, _, _, _ => none
  | _ + 1, _, [], [] => some true
  | fuel + 1, h, a :: as1, b :: bs => do
      let e ← eqObjH fuel h a b
      if e then eqListH fuel h as1 bs else pure false
  | _ + 1, _, _, _ => some false

/-- The `all` part of the `HashMap` equality over the heap (fuelled). -/
def bendySubEqH : ℕ → Heap → List (String × Obj) → List (String × Obj) → Option Bool
  | 0, _, _, _ => none
  | _ + 1, _, [], _ => some true
  | fuel + 1, h, (k, v) :: rest, m2 =>
      match hashGet m2 k with
      | none => some false
      | some v2 => do
          let e ← eqObjH fuel h v v2
          if e then bendySubEqH fuel h rest m2 else pure false

end

/-- Outcome of `Object::operate` on the heap model: a (possibly extended)
heap and a value, a reported error, a panic, or fuel exhaustion. -/
inductive HOpOut where
  | ok (h : Heap) (v : Obj)
  | err (e : RtErr)
  | crash
  | nofuel

/-- `Object::operate` on the heap model.  Only `Concat` touches the heap:
it allocates its (fresh) result, sharing the element handles of its
operands.  `fuel` bounds the deep recursions of `to_string` and `eq`. -/
def operateH (fuel : ℕ) (h : Heap) (a b : Obj) (operation : Code) : HOpOut :=
  let errUT : HOpOut :=
    match typeNameH h a, typeNameH h b with
    | some na, some nb => .err (.unmatchingTypes na nb)
    | _, _ => .crash
  match operation with
  | .add | .sub | .mod | .mul =>
    match a, b with
    | .integer v1, .integer v2 =>
        (match operateInt v1 v2 operation with
         | some r => .ok h (.integer r) | none => .crash)
    | .integer v1, .float v2 =>
        (match operateFloat (F64.ofInt v1) v2 operation with
         | some r => .ok h (.float r) | none => .crash)
    | .float v1, .float v2 =>
        (match operateFloat v1 v2 operation with
         | some r => .ok h (.float r) | none => .crash)
    | .float v1, .integer v2 =>
        (match operateFloat v1 (F64.ofInt v2) operation with
         | some r => .ok h (.float r) | none => .crash)
    | _, _ => errUT
  | .lessEquals | .lessThan | .greaterEquals | .greaterThan =>
    match a, b with
    | .integer v1, .integer v2 =>
        (match compareInt v1 v2 operation with
         | some r => .ok h (.boolean r) | none => .crash)
    | .float v1, .float v2 =>
        (match compareFloat v1 v2 operation with
         | some r => .ok h (.boolean r) | none => .crash)
    | _, _ => errUT
  | .bitAnd | .bitOr | .bitXOr | .bitLsh | .bitRsh =>
    match a, b with
    | .integer v1, .integer v2 =>
        (match operateInt v1 v2 operation with
         | some r => .ok h (.integer r) | none => .crash)
    | _, _ => errUT
  | .concat =>
    match a with
    | .pointer p1 =>
      match List.get? h p1 with
      | none => .crash
      | some (.string v1) =>
          (match toStrH fuel h b with
           | none => .nofuel
           | some s => .ok (h ++ [.string (v1 ++ s)]) (.pointer h.length))
      | some (.list d1) =>
          (match b with
           | .pointer p2 =>
             (match List.get? h p2 with
              | none => .crash
              | some (.list d2) => .ok (h ++ [.list (d1 ++ d2)]) (.pointer h.length)
              | some _ => errUT)
           | _ => errUT)
      | some (.bendy d1) =>
          (match b with
           | .pointer p2 =>
             (match List.get? h p2 with
              | none => .crash
              | some (.bendy d2) => .ok (h ++ [.bendy (hmExtend d1 d2)]) (.pointer h.length)
              | some _ => errUT)
           | _ => errUT)
      | some _ => errUT
    | _ => errUT
  | .floatDiv =>
    match a, b with
    | .integer v1, .integer v2 => .ok h (.float (F64.div (F64.ofInt v1) (F64.ofInt v2)))
    | .integer v1, .float v2 => .ok h (.float (F64.div (F64.ofInt v1) v2))
    | .float v1, .integer v2 => .ok h (.float (F64.div v1 (F64.ofInt v2)))
    | .float v1, .float v2 => .ok h (.float (F64.div v1 v2))
    | _, _ => errUT
  | .intDiv =>
    match a, b with
    | .integer v1, .integer v2 => .ok h (.integer (F64.toI64 (F64.div (F64.ofInt v1) (F64.ofInt v2))))
    | .integer v1, .float v2 => .ok h (.integer (F64.toI64 (F64.div (F64.ofInt v1) v2)))
    | .float v1, .integer v2 => .ok h (.integer (F64.toI64 (F64.div v1 (F64.ofInt v2))))
    | .float v1, .float v2 => .ok h (.integer (F64.toI64 (F64.div v1 v2)))
    | _, _ => errUT
  | .equals =>
    (match eqObjH fuel h a b with
     | none => .nofuel | some e => .ok h (.boolean e))
  | .notEquals =>
    (match eqObjH fuel h a b with
     | none => .nofuel | some e => .ok h (.boolean (!e)))
  | _ => errUT

/-! ## The scope chain (`Scope` in `src/interpreter/mod.rs`) -/

/-- `Scope`: a map from names to values plus an optional parent
(the source field called `variables` is named `vars` here, `variables`
being reserved in Lean).  The values are the VM's `Obj`. -/
inductive Scope where
  | mk (vars : List (String × Obj)) (parent : Option Scope)

/-- The `variables` field. -/
def Scope.vars : Scope → List (String × Obj)
  | .mk vars _ => vars

/-- The `parent` field. -/
def Scope.parent : Scope → Option Scope
  | .mk _ par => par

/-- `Scope::new`. -/
def Scope.new : Scope := .mk [] none

/-- `Scope::from_parent`. -/
def Scope.fromParent (p : Scope) : Scope := .mk [] (some p)

/-- `self.variables.keys().collect::<Vec<_>>().contains(&&name)`. -/
def containsKey (vars : List (String × Obj)) (name : String) : Bool :=
  vars.any fun kv => kv.1 == name

/-- `Scope::has`: does this scope **or any ancestor** bind `name`? -/
def Scope.has : Scope → String → Bool
  | .mk vars par, name =>
      if containsKey vars name then true
      else
        match par with
        | some p => p.has name
        | none => false
termination_by structural s _ => s

/-- `Scope::load`: the binding in the nearest scope that has one (the
source's `if let Some(value) = self.variables.get(&name) ... else` chain,
written with `Option.orElse`). -/
def Scope.load : Scope → String → Option Obj
  | .mk vars par, name =>
      (hashGet vars name).orElse fun _ =>
        match par with
        | some p => p.load name
        | none => none
termination_by structural s _ => s

/-- `Scope::store`, translated clause by clause.  Note that the first test
is `self.has`, which consults the ancestors too, so the `store into the
parent` branch below it is unreachable: whenever the chain binds `name`
anywhere, the first branch inserts into the *current* scope. -/
def Scope.store : Scope → String → Obj → Scope
  | .mk vars par, name, val =>
      if Scope.has (.mk vars par) name then
        .mk (hmInsert vars name val) par          -- write in this
      else
        match par with
        | some p =>
            if p.has name then
              .mk vars (some (p.store name val))  -- write in parent
            else
              .mk (hmInsert vars name val) par    -- write in this
        | none => .mk (hmInsert vars name val) par -- write in this
termination_by structural s _ _ => s

/-! ## The dispatch loop (`run`) -/

/-- The outcome of `run`: `Mistake::Fine` with the final heap and the
returned value, `Mistake::Fail` with the (first) reported error, a Rust
panic, or fuel exhaustion. -/
inductive RunOut where
  | fine (h : Heap) (v : Obj)
  | fail (e : RtErr)
  | crash
  | nofuel

/-- The argument-binding loop of `Code::Call`
(`for (i, arg) in args.iter().rev().enumerate() { ... }`): the parameter
list is iterated **reversed**, each parameter popping one stack value and
storing it in the new scope; on an empty stack the loop index `i` (the
number of values popped so far) goes into the `CallArgs` error. -/
def bindLoop : List String → List Obj → Scope → ℕ → Except ℕ (Scope × List Obj)
  | [], stack, sc, _ => .ok (sc, stack)
  | arg :: more, stack, sc, i =>
      match stack with
      | [] => .error i
      | v :: rest => bindLoop more rest (sc.store arg v) (i + 1)

/-- Pop `n` values for a native call, in pop order. -/
def popN : ℕ → List Obj → Option (List Obj × List Obj)
  | 0, st => some ([], st)
  | _ + 1, [] => none
  | n + 1, v :: rest => (popN n rest).map fun p => (v :: p.1, p.2)

/-- Growing `Put` into a list: pad with `None` while
`data.len() < index + 1`, then write at `index`. -/
def listPutGrow (data : List Obj) (i : ℕ) (v : Obj) : List Obj :=
  let base := if data.length < i + 1
    then data ++ List.replicate (i + 1 - data.length) Obj.vnone
    else data
  base.set i v

/-- `run` (`src/interpreter/mod.rs`), fuelled, with
`nfn` interpreting native function pointers (natives receive the popped
arguments in pop order and return a value; the built-in natives never
touch the heap).  Arguments after the fuel: the current bytecode, the
instruction pointer, the operand stack (head is the top), the active
scope, the heap.  Each `run` invocation starts with `ip = 0` and an empty
stack, as in the source. -/
def runF (nfn : ℕ → List Obj → Obj) :
    ℕ → List Code → ℕ → List Obj → Scope → Heap → RunOut
  | 0, _, _, _, _, _ => .nofuel
  | fuel + 1, codes, ip, stack, scope, h =>
    match List.get? codes ip with
    | none => .crash        -- `&codes[ip]` out of range panics
    | some code =>
      match code with
      | .pushFun args fcodes =>
          runF nfn fuel codes (ip + 1) (.pointer h.length :: stack) scope
            (h ++ [.function args fcodes])
      | .call =>
        match stack with
        | [] => .crash
        | fobj :: rest =>
          match fobj with
          | .pointer p =>
            (match List.get? h p with
             | none => .crash
             | some (.function args fcodes) =>
               (match bindLoop args.reverse rest (Scope.fromParent scope) 0 with
                | .error i => .fail (.callArgs args.length i)
                | .ok (newScope, rest2) =>
                  match runF nfn fuel fcodes 0 [] newScope h with
                  | .fine h2 rv => runF nfn fuel codes (ip + 1) (rv :: rest2) scope h2
                  | other => other)
             | some (.native argCount closure) =>
               (match popN argCount rest with
                | none => .crash
                | some (args2, rest2) =>
                    runF nfn fuel codes (ip + 1) (nfn closure args2 :: rest2) scope h)
             | some r =>
                 .fail (.incorrectType ["function", "native"] r.getTypeName))
          | o =>
              .fail (.incorrectType ["function", "native"]
                (match o with
                 | .integer _ => "integer" | .float _ => "float"
                 | .boolean _ => "boolean" | _ => "none"))
      | .pushByte d => runF nfn fuel codes (ip + 1) (.integer d :: stack) scope h
      | .pushShort d => runF nfn fuel codes (ip + 1) (.integer d :: stack) scope h
      | .pushInt d => runF nfn fuel codes (ip + 1) (.integer d :: stack) scope h
      | .pushLong d => runF nfn fuel codes (ip + 1) (.integer d :: stack) scope h
      | .pushDouble d => runF nfn fuel codes (ip + 1) (.float d :: stack) scope h
      | .pushBoolean d => runF nfn fuel codes (ip + 1) (.boolean d :: stack) scope h
      | .pushString d =>
          runF nfn fuel codes (ip + 1) (.pointer h.length :: stack) scope (h ++ [.string d])
      | .pushBendy =>
          runF nfn fuel codes (ip + 1) (.pointer h.length :: stack) scope (h ++ [.bendy []])
      | .pushList =>
          runF nfn fuel codes (ip + 1) (.pointer h.length :: stack) scope (h ++ [.list []])
      | .pushNone => runF nfn fuel codes (ip + 1) (.vnone :: stack) scope h
      | .ret =>
        match stack with
        | [] => .crash
        | v :: _ => .fine h v
      | .dup =>
        match stack with
        | [] => .crash
        | v :: _ => runF nfn fuel codes (ip + 1) (v :: stack) scope h
      | .pop =>
        match stack with
        | [] => runF nfn fuel codes (ip + 1) [] scope h
        | _ :: rest => runF nfn fuel codes (ip + 1) rest scope h
      | .goto off =>
          if (ip : ℤ) + off < 0 then .crash
          else runF nfn fuel codes ((ip : ℤ) + off).toNat stack scope h
      | .jumpNot off =>
        match stack with
        | [] => .crash
        | v :: rest =>
          match truthyH h v with
          | none => .crash
          | some t =>
            if !t then
              if (ip : ℤ) + off < 0 then .crash
              else runF nfn fuel codes ((ip : ℤ) + off).toNat rest scope h
            else runF nfn fuel codes (ip + 1) rest scope h
      | .jump off =>
        match stack with
        | [] => .crash
        | v :: rest =>
          match truthyH h v with
          | none => .crash
          | some t =>
            if t then
              if (ip : ℤ) + off < 0 then .crash
              else runF nfn fuel codes ((ip : ℤ) + off).toNat rest scope h
            else runF nfn fuel codes (ip + 1) rest scope h
      | .neg =>
        match stack with
        | [] => .crash
        | v :: rest =>
          match v with
          | .integer x => runF nfn fuel codes (ip + 1) (.integer (wrap64 (-x)) :: rest) scope h
          | .float x => runF nfn fuel codes (ip + 1) (.float x.neg :: rest) scope h
          | o =>
            match typeNameH h o with
            | none => .crash
            | some n => .fail (.incorrectType ["integer", "float"] n)
      | .boolNot =>
        match stack with
        | [] => .crash
        | v :: rest =>
          match truthyH h v with
          | none => .crash
          | some t => runF nfn fuel codes (ip + 1) (.boolean (!t) :: rest) scope h
      | .add | .sub | .mod | .mul | .floatDiv | .intDiv | .bitAnd | .bitOr | .bitXOr
      | .bitLsh | .bitRsh | .concat | .equals | .notEquals | .lessThan | .lessEquals
      | .greaterThan | .greaterEquals =>
        match stack with
        | b :: a :: rest =>
          (match operateH fuel h a b code with
           | .ok h2 v => runF nfn fuel codes (ip + 1) (v :: rest) scope h2
           | .err e => .fail e
           | .crash => .crash
           | .nofuel => .nofuel)
        | _ => .crash
      | .put =>
        match stack with
        | value :: index :: object :: rest =>
          (match object with
           | .pointer p =>
             (match List.get? h p with
              | none => .crash
              | some (.list data) =>
                (match asIntegerH h index with
                 | none => .crash
                 | some (.error e) => .fail e
                 | some (.ok n) =>
                     if n < 0 then .crash  -- `as usize` wrap, then abort in the grow loop or at the write
                     else
                       runF nfn fuel codes (ip + 1) rest scope
                         (h.set p (.list (listPutGrow data n.toNat value))))
              | some (.bendy data) =>
                (match asStringH h index with
                 | none => .crash
                 | some (.error e) => .fail e
                 | some (.ok k) =>
                     runF nfn fuel codes (ip + 1) rest scope
                       (h.set p (.bendy (hmInsert data k value))))
              | some _ => .crash)  -- `unimplemented!()`
           | _ => .crash)          -- `unimplemented!()`
        | _ => .crash
      | .get =>
        match stack with
        | index :: object :: rest =>
          (match object with
           | .pointer p =>
             (match List.get? h p with
              | none => .crash
              | some (.list data) =>
                (match asIntegerH h index with
                 | none => .crash
                 | some (.error e) => .fail e
                 | some (.ok n) =>
                   match List.get? data (toU64 n) with
                   | some v => runF nfn fuel codes (ip + 1) (v :: rest) scope h
                   | none => .fail .indexOutOfBounds)
              | some (.string s) =>
                (match asIntegerH h index with
                 | none => .crash
                 | some (.error e) => .fail e
                 | some (.ok n) =>
                   match List.get? s.toList (toU64 n) with
                   | some c =>
                       runF nfn fuel codes (ip + 1) (.pointer h.length :: rest) scope
                         (h ++ [.string (String.singleton c)])
                   | none => .fail .indexOutOfBounds)
              | some (.bendy data) =>
                (match asStringH h index with
                 | none => .crash
                 | some (.error e) => .fail e
                 | some (.ok k) =>
                   match hashGet data k with
                   | some v => runF nfn fuel codes (ip + 1) (v :: rest) scope h
                   | none => .fail .indexOutOfBounds)
              | some _ => .crash)  -- `unimplemented!()`
           | _ => .crash)          -- `unimplemented!()`
        | _ => .crash
      | .load varname =>
        (match scope.load varname with
         | some v => runF nfn fuel codes (ip + 1) (v :: stack) scope h
         | none => .fail (.variableNotFound varname))
      | .store varname =>
        match stack with
        | [] => .crash
        | v :: rest => runF nfn fuel codes (ip + 1) rest (scope.store varname v) h

/-! ## The tracing collector (`GarbageCollector` in
`src/interpreter/garbage.rs`)

Allocated objects are identified by numeric ids; `refs` gives each
object's `get_references()` list and `allocated` is the collector's
`references` set.  `trace` is the recursion

    trace(root) = (⋃ r ∈ root. trace(refs r)) ∪ root

written with an explicit fuel, since the source recursion carries **no**
visited set: it terminates exactly when the part of the graph reachable
from the root is acyclic, and recurses forever otherwise.  `none` is the
out-of-fuel marker; sets are modelled as lists (membership is all the
claims use, so duplicates are immaterial). -/

/-- The union `⋃ r ∈ root. trace(refs r)` — the loop body of `trace` —
with `trace(s) = traceAux s ++ s` inlined at the recursive call. -/
def traceAux (refs : ℕ → List ℕ) : ℕ → List ℕ → Option (List ℕ)
  | _, [] => some []
  | 0, _ :: _ => none
  | fuel + 1, r :: rest => do
      let a ← traceAux refs fuel (refs r)
      let b ← traceAux refs fuel rest
      pure ((a ++ refs r) ++ b)
termination_by structural fuel _ => fuel

/-- `GarbageCollector::trace` (fuelled). -/
def gcTrace (refs : ℕ → List ℕ) (fuel : ℕ) (root : List ℕ) : Option (List ℕ) :=
  (traceAux refs fuel root).map (fun a => a ++ root)

/-- `GarbageCollector::run`: mark from the roots, then the dead objects
are the allocated ones the trace did not reach (the source deallocates
them; the model returns the list of reclaimed ids). -/
def gcRun (refs : ℕ → List ℕ) (allocated : List ℕ) (fuel : ℕ)
    (root : List ℕ) : Option (List ℕ) :=
  (gcTrace refs fuel root).map fun reachable =>
    allocated.filter fun r => !reachable.contains r

/-- Reachability from a root set in the reference graph: the objects a
correct mark phase must keep. -/
inductive ReachesFrom (refs : ℕ → List ℕ) (root : List ℕ) : ℕ → Prop where
  | base (r : ℕ) (h : r ∈ root) : ReachesFrom refs root r
  | step (a b : ℕ) (ha : ReachesFrom refs root a) (hb : b ∈ refs a) :
      ReachesFrom refs root b

/-! ## The code generator (`src/codegen.rs`)

The AST (`oliveparser/src/ast.rs`) with the `Located` source spans
dropped (they only feed the diagnostics table, which no claim is about).
An integer literal carries the numeric value of its text — the
byte/short/int/long width selection chain of `parse::<i8>()` …
`parse::<i64>()` is modelled by the equivalent range tests on that value,
and `ParseInteger` by the value falling outside `i64`.  A float literal
carries its parsed `f64` (Rust's `f64` parsing of a lexer-accepted
literal never fails — it overflows to infinity — so `ParseFloat` has no
reachable counterpart).

The generators build their operation list functionally instead of
appending to a shared `Vec`, so every backpatched index of the source
(`first_jump_index` etc.) is relative to the start of the current
construct, and the carried break/continue positions are relative to the
emitted block.  The `(u32, Vec<usize>)` size bookkeeping of the source is
represented by list lengths themselves.  `GenRes.crash` models the
`panic!()` arms of the backpatching code (the source indexes the shared
`Vec` and panics when the indexed operation is not the expected
placeholder; the model can only do so in the while-loop break patching,
the other backpatches being built in place). -/

/-- `BinaryOperator`. -/
inductive BinOp where
  | add | sub | mul | intDiv | floatDiv | mod
  | bitLsh | bitRsh | bitAnd | bitOr | bitXOr
  | equals | notEquals | lessThan | lessEquals | greaterThan | greaterEquals
  | boolAnd | boolOr | concat | access

/-- `UnaryOperator`. -/
inductive UnOp where
  | neg
  | boolNot

mutual
inductive Expr where
  | list (elements : List Expr)
  | bendy (elements : List (String × Expr))
  | integer (value : ℤ)
  | float (value : F64)
  | string (value : String)
  | boolean (value : Bool)
  | noneE
  | var (name : String)
  | binary (left right : Expr) (operator : BinOp)
  | unary (expression : Expr) (operator : UnOp)
  | index (expression idx : Expr)
  | callE (expression : Expr) (args : List Expr)
  | function (parameters : List String) (block : List Stmt)

inductive Stmt where
  | breakS
  | continueS
  | ret (value : Expr)
  | block (statements : List Stmt)
  | whileS (condition : Expr) (body : List Stmt)
  | ifS (condition : Expr) (body : List Stmt) (elseblock : Option (List Stmt))
  | assign (left right : Expr)
  | callS (expression : Expr) (args : List Expr)
end

/-- `OliveCodeError`, restricted to the kinds code generation can raise
(positions and message payloads dropped). -/
inductive CErr where
  | parseInteger
  | access
  | assign
  | breakOutsideWhile
deriving DecidableEq

/-- The outcome of a generator: `Mistake::Fine` (with an always-empty
warning list in this code), `Mistake::Fail` with the accumulated errors,
or a `panic!()`. -/
inductive GenRes (α : Type) where
  | ok (val : α)
  | fail (errors : List CErr)
  | crash

/-- Run two generators the way the source does (`to_option` on each,
pushing errors in order, then failing if either failed); a panic in
either aborts. -/
def accum2 {α β : Type} : GenRes α → GenRes β → GenRes (α × β)
  | .crash, _ => .crash
  | _, .crash => .crash
  | .fail e1, .fail e2 => .fail (e1 ++ e2)
  | .fail e1, .ok _ => .fail e1
  | .ok _, .fail e2 => .fail e2
  | .ok a, .ok b => .ok (a, b)

/-- Map over a generator outcome. -/
def GenRes.map {α β : Type} (f : α → β) : GenRes α → GenRes β
  | .ok a => .ok (f a)
  | .fail e => .fail e
  | .crash => .crash

/-- `push_integer`: the smallest push operation that fits a non-negative
(`usize`) list index; the `false` return of the source (index ≥ 2^63) is
the empty emission, whose result the list-literal generator ignores just
as the source ignores the returned boolean. -/
def pushIntegerOp (i : ℕ) : List Code :=
  if i < 0x80 then [.pushByte (i : ℤ)]
  else if i < 0x8000 then [.pushShort (i : ℤ)]
  else if i < 0x80000000 then [.pushInt (i : ℤ)]
  else if i < 0x8000000000000000 then [.pushLong (i : ℤ)]
  else []

/-- The width-selection chain for an integer literal
(`parse::<i8>` … `parse::<i64>`, then `ParseInteger`). -/
def integerPush (v : ℤ) : GenRes (List Code) :=
  if -(2 ^ 7) ≤ v ∧ v < 2 ^ 7 then .ok [.pushByte v]
  else if -(2 ^ 15) ≤ v ∧ v < 2 ^ 15 then .ok [.pushShort v]
  else if -(2 ^ 31) ≤ v ∧ v < 2 ^ 31 then .ok [.pushInt v]
  else if -(2 ^ 63) ≤ v ∧ v < 2 ^ 63 then .ok [.pushLong v]
  else .fail [.parseInteger]

/-- Patch one break/continue placeholder inside a while body: position
`p` must hold `Goto 0` (break) or `Goto 1` (continue); anything else is
the source's `panic!()`.  `bs` and `cs` are the body and condition sizes. -/
def patchOne (bs cs : ℕ) (body : List Code) (p : ℕ) : Option (List Code) :=
  match List.get? body p with
  | some (.goto 0) => some (body.set p (.goto ((bs : ℤ) - (p : ℤ) + 1)))
  | some (.goto 1) => some (body.set p (.goto (-((p : ℤ) + 1 + (cs : ℤ)))))
  | _ => none

/-- Patch every carried break/continue position of a while body. -/
def patchBreaks (bs cs : ℕ) (body : List Code) : List ℕ → Option (List Code)
  | [] => some body
  | p :: rest => do
      let b1 ← patchOne bs cs body p
      patchBreaks bs cs b1 rest

/-- The operation of a plain (non-short-circuiting, non-access) binary
operator. -/
def binOpCode : BinOp → Code
  | .add => .add
  | .sub => .sub
  | .mul => .mul
  | .mod => .mod
  | .floatDiv => .floatDiv
  | .intDiv => .intDiv
  | .bitAnd => .bitAnd
  | .bitOr => .bitOr
  | .bitXOr => .bitXOr
  | .bitLsh => .bitLsh
  | .bitRsh => .bitRsh
  | .concat => .concat
  | .equals => .equals
  | .notEquals => .notEquals
  | .lessEquals => .lessEquals
  | .lessThan => .lessThan
  | .greaterEquals => .greaterEquals
  | .greaterThan => .greaterThan
  | .boolAnd => .add  -- unreachable: handled before dispatching here (the panic arm)
  | .boolOr => .add   -- unreachable likewise
  | .access => .add   -- unreachable likewise

mutual

/-- `Located<Expression>::generate`: the emitted operations of an
expression (an expression carries no break/continue positions — the
source returns `Vec::new()` in every arm). -/
def genExpr : Expr → GenRes (List Code)
  | .integer v => integerPush v
  | .float v => .ok [.pushDouble v]
  | .boolean b => .ok [.pushBoolean b]
  | .noneE => .ok [.pushNone]
  | .string s => .ok [.pushString s]
  | .var name => .ok [.load name]
  | .unary e operator =>
      (genExpr e).map fun c =>
        c ++ [match operator with | .neg => .neg | .boolNot => .boolNot]
  | .binary l r operator =>
    match operator with
    | .boolAnd =>
        (accum2 (genExpr l) (genExpr r)).map fun (cl, cr) =>
          cl ++ [.jumpNot ((cr.length : ℤ) + 2)] ++ cr ++ [.goto 2, .pushBoolean false]
    | .boolOr =>
        (accum2 (genExpr l) (genExpr r)).map fun (cl, cr) =>
          cl ++ [.jump ((cr.length : ℤ) + 2)] ++ cr ++ [.goto 2, .pushBoolean true]
    | .access =>
      (match genExpr l, r with
       | .crash, _ => .crash
       | .fail e1, .var _ => .fail e1
       | .fail e1, _ => .fail (e1 ++ [.access])
       | .ok _, .var name => (genExpr l).map fun cl => cl ++ [.pushString name, .get]
       | .ok _, _ => .fail [.access])
    | op =>
        (accum2 (genExpr l) (genExpr r)).map fun (cl, cr) =>
          cl ++ cr ++ [binOpCode op]
  | .index e i =>
      (accum2 (genExpr e) (genExpr i)).map fun (ce, ci) => ce ++ ci ++ [.get]
  | .callE f args =>
      (accum2 (genArgs args) (genExpr f)).map fun (ca, cf) => ca ++ cf ++ [.call]
  | .list elements =>
      (genListItems elements 0).map fun items => .pushList :: items
  | .bendy elements =>
      (genBendyItems elements).map fun items => .pushBendy :: items
  | .function parameters block =>
      -- `generate_codes` on the body, inlined to keep the recursion structural
      (match genBlock block with
       | .crash => .crash
       | .fail e => .fail e
       | .ok (codes, bps) =>
           if bps.isEmpty then .ok [Code.pushFun parameters (codes ++ [.pushNone, .ret])]
           else .fail (bps.map fun _ => CErr.breakOutsideWhile))
termination_by structural e => e

/-- Arguments of a call, generated left to right (each element is
attempted even after an earlier one failed, accumulating errors, as the
source's `map`/`collect` over `to_option` does). -/
def genArgs : List Expr → GenRes (List Code)
  | [] => .ok []
  | e :: rest => (accum2 (genExpr e) (genArgs rest)).map fun (c, cs) => c ++ cs
termination_by structural l => l

/-- The per-element emissions of a list literal
(`Dup`, the index push, the element, `Put`). -/
def genListItems : List Expr → ℕ → GenRes (List Code)
  | [], _ => .ok []
  | e :: rest, i =>
      (accum2 (genExpr e) (genListItems rest (i + 1))).map fun (c, cs) =>
        ([.dup] ++ pushIntegerOp i ++ c ++ [.put]) ++ cs
termination_by structural l _ => l

/-- The per-entry emissions of a bendy literal
(`Dup`, the key push, the value, `Put`). -/
def genBendyItems : List (String × Expr) → GenRes (List Code)
  | [] => .ok []
  | (k, e) :: rest =>
      (accum2 (genExpr e) (genBendyItems rest)).map fun (c, cs) =>
        ([.dup, .pushString k] ++ c ++ [.put]) ++ cs
termination_by structural l => l

/-- `Located<Expression>::generate_lhs`: the address part of an
assignment target. -/
def genExprLhs : Expr → GenRes (List Code)
  | .binary l r operator =>
    match operator with
    | .access =>
      (match genExpr l, r with
       | .crash, _ => .crash
       | .fail e1, .var _ => .fail e1
       | .fail e1, _ => .fail (e1 ++ [.access])
       | .ok _, .var name => (genExpr l).map fun cl => cl ++ [.pushString name]
       | .ok _, _ => .fail [.access])
    | _ => .fail [.assign]
  | .index e i => (accum2 (genExpr e) (genExpr i)).map fun (ce, ci) => ce ++ ci
  | .var _ => .ok []
  | _ => .fail [.assign]
termination_by structural e => e

/-- `Located<Statement>::generate`: the emitted operations together with
the positions (relative to them) of the break/continue placeholders that
escape this statement. -/
def genStmt : Stmt → GenRes (List Code × List ℕ)
  | .ret value => (genExpr value).map fun c => (c ++ [.ret], [])
  | .ifS condition body elseblock =>
    (match elseblock with
     | none =>
       (accum2 (genExpr condition) (genBlock body)).map fun (cc, (cb, bps)) =>
         (cc ++ [.jumpNot ((cb.length : ℤ) + 1)] ++ cb,
          bps.map fun p => p + (cc.length + 1))
     | some els =>
       (accum2 (accum2 (genExpr condition) (genBlock body)) (genBlock els)).map
         fun ((cc, (cb, bps)), (ce, ebps)) =>
           (cc ++ [.jumpNot ((cb.length : ℤ) + 2)] ++ cb
               ++ [.goto ((ce.length : ℤ) + 1)] ++ ce,
            ebps.map (fun p => p + (cc.length + 1 + cb.length + 1))
              ++ bps.map fun p => p + (cc.length + 1)))
  | .callS expression args =>
      (accum2 (genArgs args) (genExpr expression)).map fun (ca, cf) =>
        (ca ++ cf ++ [.call, .pop], [])
  | .block statements => genBlock statements
  | .assign left right =>
    (match left with
     | .var name =>
         (accum2 (genExprLhs (.var name)) (genExpr right)).map fun (cl, cr) =>
           (cl ++ cr ++ [.store name], [])
     | other =>
         (accum2 (genExprLhs other) (genExpr right)).map fun (cl, cr) =>
           (cl ++ cr ++ [.put], []))
  | .whileS condition body =>
    (match accum2 (genExpr condition) (genBlock body) with
     | .crash => .crash
     | .fail e => .fail e
     | .ok (cc, (cb, bps)) =>
       match patchBreaks cb.length cc.length cb bps with
       | none => .crash
       | some cb2 =>
           .ok (cc ++ [.jumpNot ((cb.length : ℤ) + 2)] ++ cb2
                 ++ [.goto (-((cb.length : ℤ) + (cc.length : ℤ) + 1))], []))
  | .breakS => .ok ([.goto 0], [0])
  | .continueS => .ok ([.goto 1], [0])
termination_by structural s => s

/-- `generate_block`: statements in order; the break positions of each are
shifted past the code already emitted; every statement is attempted, the
errors accumulating. -/
def genBlock : List Stmt → GenRes (List Code × List ℕ)
  | [] => .ok ([], [])
  | st :: rest =>
      (accum2 (genStmt st) (genBlock rest)).map fun ((c, bps), (cs, bps2)) =>
        (c ++ cs, bps ++ bps2.map fun p => p + c.length)
termination_by structural l => l

end

/-- `generate_codes`: generate the block, append the implicit
`PushNone; Return`, and turn every escaped break/continue position into a
`BreakOutsideWhile` error (one per escaped position).  The `Function`
literal case of `genExpr` applies exactly this to the function body. -/
def genCodes (tree : List Stmt) : GenRes (List Code) :=
  match genBlock tree with
  | .crash => .crash
  | .fail e => .fail e
  | .ok (codes, bps) =>
      if bps.isEmpty then .ok (codes ++ [.pushNone, .ret])
      else .fail (bps.map fun _ => CErr.breakOutsideWhile)


/-! ## Well-formedness side conditions for value-level laws

`HashMap` keys are unique by construction in Rust; the association-list
model expresses that as `keysNodup`.  IEEE NaN payloads break
reflexivity of the derived equalities; `nanFree` excludes them. -/

/-- No key occurs twice (the invariant every `HashMap` image satisfies). -/
def keysNodup {A : Type} : List (String × A) → Bool
  | [] => true
  | (k, _) :: rest => (hashGet rest k).isNone && keysNodup rest

mutual

/-- Every bendy inside the value has duplicate-free keys. -/
def wfV : Value → Bool
  | .list d => wfVList d
  | .bendy d => keysNodup d && wfVBendy d
  | _ => true
termination_by structural v => v

/-- `wfV` on list elements. -/
def wfVList : List Value → Bool
  | [] => true
  | v :: rest => wfV v && wfVList rest
termination_by structural l => l

/-- `wfV` on bendy entry values. -/
def wfVBendy : List (String × Value) → Bool
  | [] => true
  | (_, v) :: rest => wfV v && wfVBendy rest
termination_by structural l => l

end

mutual

/-- No `PushDouble(NaN)` operation occurs in the operation. -/
def nanFreeCode : Code → Bool
  | .pushDouble f => !(f == F64.nan)
  | .pushFun _ inner => nanFreeCodes inner
  | _ => true
termination_by structural c => c

/-- `nanFreeCode` on every operation of a sequence. -/
def nanFreeCodes : List Code → Bool
  | [] => true
  | c :: rest => nanFreeCode c && nanFreeCodes rest
termination_by structural l => l

end

mutual

/-- No NaN occurs anywhere in the value (including inside the bytecode of
function values, whose `PushDouble` payloads the derived equality also
compares with the IEEE equality). -/
def nanFreeV : Value → Bool
  | .float f => !(f == F64.nan)
  | .list d => nanFreeList d
  | .bendy d => nanFreeBendy d
  | .function _ codes => nanFreeCodes codes
  | _ => true
termination_by structural v => v

/-- `nanFreeV` on list elements. -/
def nanFreeList : List Value → Bool
  | [] => true
  | v :: rest => nanFreeV v && nanFreeList rest
termination_by structural l => l

/-- `nanFreeV` on bendy entry values. -/
def nanFreeBendy : List (String × Value) → Bool
  | [] => true
  | (_, v) :: rest => nanFreeV v && nanFreeBendy rest
termination_by structural l => l

end

/-! ## Theorems: the scope chain (claim C1) -/

/-- `Scope::store` always writes into the scope it is called on: the
`write in parent` branch of the source is dead code, because the guard
above it (`self.has`, which consults the ancestors too) is true whenever
that branch's own condition is. -/
theorem scope_store_is_local (s : Scope) (name : String) (val : Obj) :
    s.store name val = Scope.mk (hmInsert s.vars name val) s.parent := by
  cases s with
  | mk vars par =>
    cases par with
    | none => simp [Scope.store, Scope.vars, Scope.parent]
    | some p =>
      by_cases h : Scope.has (.mk vars (some p)) name
      · simp only [Scope.store, h, if_true, Scope.vars, Scope.parent]
      · have hp : p.has name = false := by
          rw [Scope.has] at h
          by_cases hc : containsKey vars name
          · simp [hc] at h
          · simpa [hc] using h
        simp only [Scope.store, h, if_false, hp, Bool.false_eq_true,
          Scope.vars, Scope.parent]

/-- C1: the claim is refuted by the code at a two-scope chain.  With a
parent scope binding `x ↦ 1` and an empty current scope,
`store("x", 2)` creates a binding `x ↦ 2` in the current (innermost)
scope and leaves the parent's binding untouched — although an ancestor
already defines `x`, which by the claim ought to be updated in place with
no new inner binding.  (The `write in parent` arm of `Scope::store` is
unreachable; see `scope_store_is_local`.) -/
theorem c1_store_shadows_instead_of_updating :
    Scope.store (Scope.fromParent (Scope.mk [("x", Obj.integer 1)] none)) "x"
        (Obj.integer 2)
      = Scope.mk [("x", Obj.integer 2)]
          (some (Scope.mk [("x", Obj.integer 1)] none)) := by
  rfl

/-! ## Theorems: Mod totality (claim C10) -/

/-- C10: evaluating `Mod` on the Integer operands `1` and `0` panics
(Rust's `%` aborts on a zero divisor in every build mode) instead of
producing a value or a reported runtime error: `operate_int` has no
non-panicking path for it, `Object::operate` propagates the panic, and so
does the VM's binary dispatch. -/
theorem c10_mod_by_zero_crashes :
    operateInt 1 0 Code.mod = none ∧
    Value.operate (.integer 1) (.integer 0) Code.mod = OpOut.crash ∧
    runF (fun _ _ => Obj.vnone) 5 [Code.mod, Code.ret] 0
        [Obj.integer 0, Obj.integer 1] Scope.new [] = RunOut.crash :=
  ⟨rfl, rfl, rfl⟩

/-! ## Theorems: the `Put` operation (claim C7) -/

/-- The length of a grown list is the larger of the old length and
`index + 1`. -/
theorem listPutGrow_length (data : List Obj) (i : ℕ) (v : Obj) :
    (listPutGrow data i v).length = max data.length (i + 1) := by
  simp only [listPutGrow, List.length_set]
  by_cases h : data.length < i + 1 <;> simp [h] <;> omega

/-- C7: the `Put` operation, evaluated at its failing inputs and on its
intended path.  First conjunct: a `Put` whose target is an immediate
(the Integer 5) hits the `unimplemented!()` arm and panics instead of
raising a type error.  Second: a `Put` into a List with the Integer
index `-1` panics (the `as usize` cast wraps and the write aborts)
instead of being rejected.  Third: a `Put` into a Bendy with an Integer
index *is* a reported type error requiring a String.  Fourth, the intended
path: a `Put` at index 2 into the one-element list `[10]` grows it with
`None` up to the index, so the list becomes `[10, none, 7]` — length
`max(1, 2+1)`, position 2 holding the stored value, position 0
unchanged. -/
theorem c7_put_crashes_on_bad_target_or_negative_index :
    runF (fun _ _ => Obj.vnone) 5 [Code.put, Code.pushNone, Code.ret] 0
        [Obj.integer 7, Obj.integer 0, Obj.integer 5] Scope.new []
      = RunOut.crash ∧
    runF (fun _ _ => Obj.vnone) 5 [Code.put, Code.pushNone, Code.ret] 0
        [Obj.integer 7, Obj.integer (-1), Obj.pointer 0] Scope.new
        [RefObj.list []]
      = RunOut.crash ∧
    runF (fun _ _ => Obj.vnone) 5 [Code.put, Code.pushNone, Code.ret] 0
        [Obj.integer 7, Obj.integer 0, Obj.pointer 0] Scope.new
        [RefObj.bendy []]
      = RunOut.fail (.incorrectType ["string"] "integer") ∧
    runF (fun _ _ => Obj.vnone) 5 [Code.put, Code.pushNone, Code.ret] 0
        [Obj.integer 7, Obj.integer 2, Obj.pointer 0] Scope.new
        [RefObj.list [Obj.integer 10]]
      = RunOut.fine [RefObj.list [Obj.integer 10, Obj.vnone, Obj.integer 7]]
          Obj.vnone :=
  ⟨rfl, rfl, rfl, rfl⟩


/-! ## Theorems: value equality laws (claims C5, C9) -/

theorem hashGet_some_mem {A : Type} {m : List (String × A)} {k : String} {v : A}
    (h : hashGet m k = some v) : (k, v) ∈ m := by
  induction m with
  | nil => simp [hashGet] at h
  | cons kv rest ih =>
    obtain ⟨k2, v2⟩ := kv
    rw [hashGet] at h
    by_cases hk : k2 == k
    · have hk2 : k2 = k := by simpa using hk
      simp [hk] at h
      subst hk2; subst h
      exact List.mem_cons_self _ _
    · simp [hk] at h
      exact List.mem_cons_of_mem _ (ih h)

theorem hashGet_none_iff {A : Type} {m : List (String × A)} {k : String} :
    hashGet m k = none ↔ k ∉ m.map Prod.fst := by
  induction m with
  | nil => simp [hashGet]
  | cons kv rest ih =>
    obtain ⟨k2, v2⟩ := kv
    rw [hashGet]
    by_cases hk : k2 == k
    · have : k2 = k := by simpa using hk
      simp [hk, this]
    · have hne : ¬ k2 = k := by simpa using hk
      simp only [hk, Bool.false_eq_true, if_false, List.map_cons, List.mem_cons, ih]
      constructor
      · intro h
        rintro (rfl | hmem)
        · exact hne rfl
        · exact h hmem
      · intro h hmem
        exact h (Or.inr hmem)

theorem keysNodup_iff {A : Type} {m : List (String × A)} :
    keysNodup m = true ↔ (m.map Prod.fst).Nodup := by
  induction m with
  | nil => simp [keysNodup]
  | cons kv rest ih =>
    obtain ⟨k2, v2⟩ := kv
    rw [keysNodup]
    simp [Option.isNone_iff_eq_none, hashGet_none_iff, ih]

theorem hashGet_mem_of_nodup {A : Type} {m : List (String × A)} {k : String} {v : A}
    (hnd : keysNodup m = true) (hm : (k, v) ∈ m) : hashGet m k = some v := by
  induction m with
  | nil => simp at hm
  | cons kv rest ih =>
    obtain ⟨k2, v2⟩ := kv
    rw [keysNodup] at hnd
    have hnone : hashGet rest k2 = none := by
      have := (Bool.and_eq_true _ _).mp hnd
      simpa [Option.isNone_iff_eq_none] using this.1
    have hndr : keysNodup rest = true := ((Bool.and_eq_true _ _).mp hnd).2
    rw [hashGet]
    rcases List.mem_cons.mp hm with hhead | htail
    · cases hhead
      simp
    · by_cases hk : k2 == k
      · have hk2 : k2 = k := by simpa using hk
        subst hk2
        have hmem : k2 ∈ rest.map Prod.fst := List.mem_map.mpr ⟨(k2, v), htail, rfl⟩
        rw [hashGet_none_iff] at hnone
        exact absurd hmem hnone
      · simp only [hk, Bool.false_eq_true, if_false]
        exact ih hndr htail

theorem bendySubEq_iff {m1 m2 : List (String × Value)} :
    bendySubEq m1 m2 = true ↔
      ∀ kv ∈ m1, ∃ v2, hashGet m2 kv.1 = some v2 ∧ valueEq kv.2 v2 = true := by
  induction m1 with
  | nil => simp [bendySubEq]
  | cons kv rest ih =>
    obtain ⟨k, v⟩ := kv
    rw [bendySubEq]
    constructor
    · intro h
      have h2 := (Bool.and_eq_true _ _).mp h
      intro kv2 hmem
      rcases List.mem_cons.mp hmem with hhead | htail
      · cases hhead
        rcases hg : hashGet m2 k with _ | v2
        · rw [hg] at h2
          rcases h2 with ⟨h2l, h2r⟩
          simp at h2l
        · rw [hg] at h2
          exact ⟨v2, rfl, h2.1⟩
      · exact ih.mp h2.2 kv2 htail
    · intro h
      obtain ⟨v2, hg, he⟩ := h (k, v) (List.mem_cons_self _ _)
      rw [hg]
      refine (Bool.and_eq_true _ _).mpr ⟨he, ih.mpr ?_⟩
      intro kv2 hmem
      exact h kv2 (List.mem_cons_of_mem _ hmem)

/-- IEEE equality is reflexive away from NaN. -/
theorem F64.beq_refl {f : F64} (h : f ≠ F64.nan) : F64.beq f f = true := by
  cases f <;> simp_all [F64.beq]

mutual

/-- The derived `PartialEq` on `Code` is reflexive on NaN-free
operations. -/
theorem codeBeq_refl : ∀ c : Code, nanFreeCode c = true → codeBeq c c = true
  | .pushString s, _ => show (s == s) = true from beq_self_eq_true s
  | .pushBoolean b, _ => show (b == b) = true from beq_self_eq_true b
  | .pushDouble f, h => by
      have hb : (!(f == F64.nan)) = true := h
      exact F64.beq_refl (by simpa using hb)
  | .pushLong i, _ => show (i == i) = true from beq_self_eq_true i
  | .pushInt i, _ => show (i == i) = true from beq_self_eq_true i
  | .pushShort i, _ => show (i == i) = true from beq_self_eq_true i
  | .pushByte i, _ => show (i == i) = true from beq_self_eq_true i
  | .pushBendy, _ => rfl
  | .pushList, _ => rfl
  | .pushNone, _ => rfl
  | .pop, _ => rfl
  | .ret, _ => rfl
  | .neg, _ => rfl
  | .add, _ => rfl
  | .sub, _ => rfl
  | .mul, _ => rfl
  | .intDiv, _ => rfl
  | .floatDiv, _ => rfl
  | .mod, _ => rfl
  | .bitLsh, _ => rfl
  | .bitRsh, _ => rfl
  | .bitAnd, _ => rfl
  | .bitOr, _ => rfl
  | .bitXOr, _ => rfl
  | .boolNot, _ => rfl
  | .concat, _ => rfl
  | .put, _ => rfl
  | .get, _ => rfl
  | .call, _ => rfl
  | .equals, _ => rfl
  | .notEquals, _ => rfl
  | .lessThan, _ => rfl
  | .lessEquals, _ => rfl
  | .greaterThan, _ => rfl
  | .greaterEquals, _ => rfl
  | .dup, _ => rfl
  | .jumpNot o, _ => show (o == o) = true from beq_self_eq_true o
  | .jump o, _ => show (o == o) = true from beq_self_eq_true o
  | .goto o, _ => show (o == o) = true from beq_self_eq_true o
  | .store n, _ => show (n == n) = true from beq_self_eq_true n
  | .load n, _ => show (n == n) = true from beq_self_eq_true n
  | .pushFun a inner, h =>
      show (a == a && codesBeq inner inner) = true by
        rw [beq_self_eq_true, codesBeq_refl inner (h : nanFreeCodes inner = true),
          Bool.and_self]
termination_by structural c => c

/-- `codeBeq_refl` over a sequence. -/
theorem codesBeq_refl : ∀ cs : List Code, nanFreeCodes cs = true → codesBeq cs cs = true
  | [], _ => rfl
  | c :: rest, h => by
      have h2 := (Bool.and_eq_true _ _).mp (h : (nanFreeCode c && nanFreeCodes rest) = true)
      show (codeBeq c c && codesBeq rest rest) = true
      rw [codeBeq_refl c h2.1, codesBeq_refl rest h2.2, Bool.and_self]
termination_by structural l => l

end

mutual

/-- `PartialEq` on `Object` is reflexive on well-formed NaN-free values. -/
theorem valueEq_refl : ∀ v : Value, wfV v = true → nanFreeV v = true →
    valueEq v v = true
  | .integer _, _, _ => by simp [valueEq]
  | .float f, _, h => by
      rw [nanFreeV] at h
      rw [valueEq]
      exact F64.beq_refl (by simpa using h)
  | .boolean _, _, _ => by simp [valueEq]
  | .vnone, _, _ => by simp [valueEq]
  | .string _, _, _ => by simp [valueEq]
  | .list d, hw, hn => by
      rw [wfV] at hw; rw [nanFreeV] at hn
      rw [valueEq]
      exact valueListEq_refl d hw hn
  | .bendy d, hw, hn => by
      rw [wfV] at hw; rw [nanFreeV] at hn
      have h2 := (Bool.and_eq_true _ _).mp hw
      rw [valueEq]
      refine (Bool.and_eq_true _ _).mpr ⟨by simp, ?_⟩
      exact bendySubEq_refl_aux d d h2.2 hn
        (fun kv hm => hashGet_mem_of_nodup h2.1 hm)
  | .function a c, _, hn => by
      rw [nanFreeV] at hn
      rw [valueEq]
      simp [codesBeq_refl c hn]
  | .native _ _, _, _ => by simp [valueEq]
termination_by structural v _ _ => v

/-- Pairwise reflexivity on list elements. -/
theorem valueListEq_refl : ∀ l : List Value, wfVList l = true →
    nanFreeList l = true → valueListEq l l = true
  | [], _, _ => rfl
  | v :: rest, hw, hn => by
      rw [wfVList] at hw; rw [nanFreeList] at hn
      have hw2 := (Bool.and_eq_true _ _).mp hw
      have hn2 := (Bool.and_eq_true _ _).mp hn
      rw [valueListEq]
      simp [valueEq_refl v hw2.1 hn2.1, valueListEq_refl rest hw2.2 hn2.2]
termination_by structural l _ _ => l

/-- Each entry of `m1` finds itself in `m2` whenever `m2` maps its key to
its value. -/
theorem bendySubEq_refl_aux : ∀ (m1 m2 : List (String × Value)),
    wfVBendy m1 = true → nanFreeBendy m1 = true →
    (∀ kv, kv ∈ m1 → hashGet m2 kv.1 = some kv.2) →
    bendySubEq m1 m2 = true
  | [], _, _, _, _ => rfl
  | (k, v) :: rest, m2, hw, hn, hg => by
      rw [wfVBendy] at hw; rw [nanFreeBendy] at hn
      have hw2 := (Bool.and_eq_true _ _).mp hw
      have hn2 := (Bool.and_eq_true _ _).mp hn
      rw [bendySubEq]
      rw [hg (k, v) (List.mem_cons_self _ _)]
      refine (Bool.and_eq_true _ _).mpr ⟨valueEq_refl v hw2.1 hn2.1, ?_⟩
      exact bendySubEq_refl_aux rest m2 hw2.2 hn2.2
        (fun kv hm => hg kv (List.mem_cons_of_mem _ hm))
termination_by structural m1 _ _ _ _ => m1

end

/-- IEEE equality on `f64` is symmetric. -/
theorem F64.beq_symm (a b : F64) : F64.beq a b = F64.beq b a := by
  cases a <;> cases b <;> first | rfl | exact BEq.comm

mutual

/-- The derived `PartialEq` on `Code` is symmetric. -/
theorem codeBeq_symm : ∀ c d : Code, codeBeq c d = codeBeq d c
  | .pushString _, d => by cases d <;> first | rfl | exact BEq.comm | exact F64.beq_symm _ _
  | .pushBoolean _, d => by cases d <;> first | rfl | exact BEq.comm | exact F64.beq_symm _ _
  | .pushDouble _, d => by cases d <;> first | rfl | exact BEq.comm | exact F64.beq_symm _ _
  | .pushLong _, d => by cases d <;> first | rfl | exact BEq.comm | exact F64.beq_symm _ _
  | .pushInt _, d => by cases d <;> first | rfl | exact BEq.comm | exact F64.beq_symm _ _
  | .pushShort _, d => by cases d <;> first | rfl | exact BEq.comm | exact F64.beq_symm _ _
  | .pushByte _, d => by cases d <;> first | rfl | exact BEq.comm | exact F64.beq_symm _ _
  | .pushBendy, d => by cases d <;> first | rfl | exact BEq.comm | exact F64.beq_symm _ _
  | .pushList, d => by cases d <;> first | rfl | exact BEq.comm | exact F64.beq_symm _ _
  | .pushNone, d => by cases d <;> first | rfl | exact BEq.comm | exact F64.beq_symm _ _
  | .pop, d => by cases d <;> first | rfl | exact BEq.comm | exact F64.beq_symm _ _
  | .ret, d => by cases d <;> first | rfl | exact BEq.comm | exact F64.beq_symm _ _
  | .neg, d => by cases d <;> first | rfl | exact BEq.comm | exact F64.beq_symm _ _
  | .add, d => by cases d <;> first | rfl | exact BEq.comm | exact F64.beq_symm _ _
  | .sub, d => by cases d <;> first | rfl | exact BEq.comm | exact F64.beq_symm _ _
  | .mul, d => by cases d <;> first | rfl | exact BEq.comm | exact F64.beq_symm _ _
  | .intDiv, d => by cases d <;> first | rfl | exact BEq.comm | exact F64.beq_symm _ _
  | .floatDiv, d => by cases d <;> first | rfl | exact BEq.comm | exact F64.beq_symm _ _
  | .mod, d => by cases d <;> first | rfl | exact BEq.comm | exact F64.beq_symm _ _
  | .bitLsh, d => by cases d <;> first | rfl | exact BEq.comm | exact F64.beq_symm _ _
  | .bitRsh, d => by cases d <;> first | rfl | exact BEq.comm | exact F64.beq_symm _ _
  | .bitAnd, d => by cases d <;> first | rfl | exact BEq.comm | exact F64.beq_symm _ _
  | .bitOr, d => by cases d <;> first | rfl | exact BEq.comm | exact F64.beq_symm _ _
  | .bitXOr, d => by cases d <;> first | rfl | exact BEq.comm | exact F64.beq_symm _ _
  | .boolNot, d => by cases d <;> first | rfl | exact BEq.comm | exact F64.beq_symm _ _
  | .concat, d => by cases d <;> first | rfl | exact BEq.comm | exact F64.beq_symm _ _
  | .put, d => by cases d <;> first | rfl | exact BEq.comm | exact F64.beq_symm _ _
  | .get, d => by cases d <;> first | rfl | exact BEq.comm | exact F64.beq_symm _ _
  | .call, d => by cases d <;> first | rfl | exact BEq.comm | exact F64.beq_symm _ _
  | .equals, d => by cases d <;> first | rfl | exact BEq.comm | exact F64.beq_symm _ _
  | .notEquals, d => by cases d <;> first | rfl | exact BEq.comm | exact F64.beq_symm _ _
  | .lessThan, d => by cases d <;> first | rfl | exact BEq.comm | exact F64.beq_symm _ _
  | .lessEquals, d => by cases d <;> first | rfl | exact BEq.comm | exact F64.beq_symm _ _
  | .greaterThan, d => by cases d <;> first | rfl | exact BEq.comm | exact F64.beq_symm _ _
  | .greaterEquals, d => by cases d <;> first | rfl | exact BEq.comm | exact F64.beq_symm _ _
  | .dup, d => by cases d <;> first | rfl | exact BEq.comm | exact F64.beq_symm _ _
  | .jumpNot _, d => by cases d <;> first | rfl | exact BEq.comm | exact F64.beq_symm _ _
  | .jump _, d => by cases d <;> first | rfl | exact BEq.comm | exact F64.beq_symm _ _
  | .goto _, d => by cases d <;> first | rfl | exact BEq.comm | exact F64.beq_symm _ _
  | .store _, d => by cases d <;> first | rfl | exact BEq.comm | exact F64.beq_symm _ _
  | .load _, d => by cases d <;> first | rfl | exact BEq.comm | exact F64.beq_symm _ _
  | .pushFun a inner, d => by
      cases d with
      | pushFun a2 inner2 =>
          show (a == a2 && codesBeq inner inner2) = (a2 == a && codesBeq inner2 inner)
          rw [codesBeq_symm inner inner2]
          rw [show ((a == a2) = (a2 == a)) from BEq.comm]
      | pushString _ => rfl
      | pushBoolean _ => rfl
      | pushDouble _ => rfl
      | pushLong _ => rfl
      | pushInt _ => rfl
      | pushShort _ => rfl
      | pushByte _ => rfl
      | pushBendy => rfl
      | pushList => rfl
      | pushNone => rfl
      | pop => rfl
      | ret => rfl
      | neg => rfl
      | add => rfl
      | sub => rfl
      | mul => rfl
      | intDiv => rfl
      | floatDiv => rfl
      | mod => rfl
      | bitLsh => rfl
      | bitRsh => rfl
      | bitAnd => rfl
      | bitOr => rfl
      | bitXOr => rfl
      | boolNot => rfl
      | concat => rfl
      | put => rfl
      | get => rfl
      | call => rfl
      | equals => rfl
      | notEquals => rfl
      | lessThan => rfl
      | lessEquals => rfl
      | greaterThan => rfl
      | greaterEquals => rfl
      | dup => rfl
      | jumpNot _ => rfl
      | jump _ => rfl
      | goto _ => rfl
      | store _ => rfl
      | load _ => rfl
termination_by structural c _ => c

/-- `PartialEq` on `Vec<Code>` is symmetric. -/
theorem codesBeq_symm : ∀ l m : List Code, codesBeq l m = codesBeq m l
  | [], m => by cases m <;> rfl
  | c :: rest, m => by
      cases m with
      | nil => rfl
      | cons d ds =>
          show (codeBeq c d && codesBeq rest ds) = (codeBeq d c && codesBeq ds rest)
          rw [codeBeq_symm c d, codesBeq_symm rest ds]
termination_by structural l _ => l

end

/-- `wfV` holds of every value bound in a well-formed bendy. -/
theorem wfVBendy_mem {m : List (String × Value)} {k : String} {v : Value}
    (hw : wfVBendy m = true) (hm : (k, v) ∈ m) : wfV v = true := by
  induction m with
  | nil => simp at hm
  | cons kv rest ih =>
    obtain ⟨k2, v2⟩ := kv
    have h2 := (Bool.and_eq_true _ _).mp (hw : (wfV v2 && wfVBendy rest) = true)
    rcases List.mem_cons.mp hm with hhead | htail
    · cases hhead; exact h2.1
    · exact ih h2.2 htail

/-- If every key of `d1` is bound in `d2` to an equal value, and both key
lists are duplicate-free of the same length, the containment reverses
(the counting argument behind the symmetry of the `HashMap` equality). -/
theorem bendySub_flip {d1 d2 : List (String × Value)}
    (h1 : keysNodup d1 = true) (h2 : keysNodup d2 = true)
    (hw1 : wfVBendy d1 = true) (hw2 : wfVBendy d2 = true)
    (hlen : d1.length = d2.length)
    (hIH : ∀ kv, kv ∈ d1 → ∀ b : Value, wfV kv.2 = true → wfV b = true →
      valueEq kv.2 b = valueEq b kv.2)
    (hsub : bendySubEq d1 d2 = true) : bendySubEq d2 d1 = true := by
  have hnd1 : (d1.map Prod.fst).Nodup := keysNodup_iff.mp h1
  have hnd2 : (d2.map Prod.fst).Nodup := keysNodup_iff.mp h2
  have hsubkeys : (d1.map Prod.fst).toFinset ⊆ (d2.map Prod.fst).toFinset := by
    intro k hk
    rw [List.mem_toFinset] at hk
    obtain ⟨⟨k1, v1⟩, hm, hk1⟩ := List.mem_map.mp hk
    cases hk1
    obtain ⟨v2, hg, _⟩ := bendySubEq_iff.mp hsub _ hm
    rw [List.mem_toFinset]
    exact List.mem_map.mpr ⟨(k1, v2), hashGet_some_mem hg, rfl⟩
  have hkeysEq : (d2.map Prod.fst).toFinset = (d1.map Prod.fst).toFinset := by
    refine (Finset.eq_of_subset_of_card_le hsubkeys ?_).symm
    calc (d2.map Prod.fst).toFinset.card
        ≤ (d2.map Prod.fst).length := (d2.map Prod.fst).toFinset_card_le
      _ = d1.length := by rw [List.length_map, hlen]
      _ = (d1.map Prod.fst).toFinset.card := by
            rw [List.toFinset_card_of_nodup hnd1, List.length_map]
  rw [bendySubEq_iff]
  rintro ⟨k, v2⟩ hm2
  have hk2 : k ∈ (d2.map Prod.fst).toFinset := by
    rw [List.mem_toFinset]
    exact List.mem_map.mpr ⟨(k, v2), hm2, rfl⟩
  rw [hkeysEq, List.mem_toFinset] at hk2
  obtain ⟨⟨k1, v1⟩, hm1, hk1⟩ := List.mem_map.mp hk2
  cases hk1
  obtain ⟨v2x, hgx, hex⟩ := bendySubEq_iff.mp hsub _ hm1
  have hg2 : hashGet d2 k1 = some v2 := hashGet_mem_of_nodup h2 hm2
  rw [hg2] at hgx
  cases hgx
  refine ⟨v1, hashGet_mem_of_nodup h1 hm1, ?_⟩
  rw [← hIH (k1, v1) hm1 v2 (wfVBendy_mem hw1 hm1) (wfVBendy_mem hw2 hm2)]
  exact hex

/-- The reverse direction of `bendySub_flip`, still using the pointwise
symmetry of the first map's values only. -/
theorem bendySub_flip2 {d1 d2 : List (String × Value)}
    (h1 : keysNodup d1 = true) (h2 : keysNodup d2 = true)
    (hw1 : wfVBendy d1 = true) (hw2 : wfVBendy d2 = true)
    (hlen : d1.length = d2.length)
    (hIH : ∀ kv, kv ∈ d1 → ∀ b : Value, wfV kv.2 = true → wfV b = true →
      valueEq kv.2 b = valueEq b kv.2)
    (hsub : bendySubEq d2 d1 = true) : bendySubEq d1 d2 = true := by
  have hnd1 : (d1.map Prod.fst).Nodup := keysNodup_iff.mp h1
  have hsubkeys : (d2.map Prod.fst).toFinset ⊆ (d1.map Prod.fst).toFinset := by
    intro k hk
    rw [List.mem_toFinset] at hk
    obtain ⟨⟨k2, v2⟩, hm, hk2⟩ := List.mem_map.mp hk
    cases hk2
    obtain ⟨v1, hg, _⟩ := bendySubEq_iff.mp hsub _ hm
    rw [List.mem_toFinset]
    exact List.mem_map.mpr ⟨(k2, v1), hashGet_some_mem hg, rfl⟩
  have hkeysEq : (d1.map Prod.fst).toFinset = (d2.map Prod.fst).toFinset := by
    refine (Finset.eq_of_subset_of_card_le hsubkeys ?_).symm
    calc (d1.map Prod.fst).toFinset.card
        ≤ (d1.map Prod.fst).length := (d1.map Prod.fst).toFinset_card_le
      _ = d2.length := by rw [List.length_map, hlen]
      _ = (d2.map Prod.fst).toFinset.card := by
            rw [List.toFinset_card_of_nodup (keysNodup_iff.mp h2), List.length_map]
  rw [bendySubEq_iff]
  rintro ⟨k, v1⟩ hm1
  have hk1 : k ∈ (d1.map Prod.fst).toFinset := by
    rw [List.mem_toFinset]
    exact List.mem_map.mpr ⟨(k, v1), hm1, rfl⟩
  rw [hkeysEq, List.mem_toFinset] at hk1
  obtain ⟨⟨k2, v2⟩, hm2, hk2⟩ := List.mem_map.mp hk1
  cases hk2
  obtain ⟨v1x, hgx, hex⟩ := bendySubEq_iff.mp hsub _ hm2
  have hg1 : hashGet d1 k2 = some v1 := hashGet_mem_of_nodup h1 hm1
  rw [hg1] at hgx
  cases hgx
  refine ⟨v2, hashGet_mem_of_nodup h2 hm2, ?_⟩
  rw [hIH (k2, v1) hm1 v2 (wfVBendy_mem hw1 hm1) (wfVBendy_mem hw2 hm2)]
  exact hex

mutual

/-- `PartialEq` on `Object` is symmetric on well-formed values (bendies
with duplicate-free keys, as every `HashMap` image is). -/
theorem valueEq_symm : ∀ a b : Value, wfV a = true → wfV b = true →
    valueEq a b = valueEq b a
  | .integer _, b, _, _ => by
      cases b <;> first | rfl | exact BEq.comm
  | .float f, b, _, _ => by
      cases b <;> first | rfl | exact F64.beq_symm f _
  | .boolean _, b, _, _ => by
      cases b <;> first | rfl | exact BEq.comm
  | .vnone, b, _, _ => by cases b <;> rfl
  | .string _, b, _, _ => by
      cases b <;> first | rfl | exact BEq.comm
  | .list d1, b, hw1, hw2 => by
      cases b with
      | list d2 =>
          exact valueListEq_symm d1 d2 (hw1 : wfVList d1 = true)
            (hw2 : wfVList d2 = true)
      | integer _ => rfl
      | float _ => rfl
      | boolean _ => rfl
      | vnone => rfl
      | string _ => rfl
      | bendy _ => rfl
      | function _ _ => rfl
      | native _ _ => rfl
  | .bendy d1, b, hw1, hw2 => by
      cases b with
      | bendy d2 =>
          have g1 := (Bool.and_eq_true _ _).mp
            (hw1 : (keysNodup d1 && wfVBendy d1) = true)
          have g2 := (Bool.and_eq_true _ _).mp
            (hw2 : (keysNodup d2 && wfVBendy d2) = true)
          show (d1.length == d2.length && bendySubEq d1 d2)
              = (d2.length == d1.length && bendySubEq d2 d1)
          by_cases hlen : d1.length = d2.length
          · have hIH : ∀ kv, kv ∈ d1 → ∀ c : Value, wfV kv.2 = true →
                wfV c = true → valueEq kv.2 c = valueEq c kv.2 :=
              bendyVals_symm d1
            have hflip : bendySubEq d1 d2 = bendySubEq d2 d1 := by
              cases hs1 : bendySubEq d1 d2 with
              | true =>
                  exact (bendySub_flip g1.1 g2.1 g1.2 g2.2 hlen hIH hs1).symm
              | false =>
                  cases hs2 : bendySubEq d2 d1 with
                  | true =>
                      have := bendySub_flip2 g1.1 g2.1 g1.2 g2.2 hlen hIH hs2
                      rw [this] at hs1
                      cases hs1
                  | false => rfl
            rw [hlen, hflip]
          · have l1 : (d1.length == d2.length) = false := by
              simpa using hlen
            have l2 : (d2.length == d1.length) = false := by
              simpa using fun h => hlen h.symm
            rw [l1, l2, Bool.false_and, Bool.false_and]
      | integer _ => rfl
      | float _ => rfl
      | boolean _ => rfl
      | vnone => rfl
      | string _ => rfl
      | list _ => rfl
      | function _ _ => rfl
      | native _ _ => rfl
  | .function a1 c1, b, _, _ => by
      cases b with
      | function a2 c2 =>
          show (a1 == a2 && codesBeq c1 c2) = (a2 == a1 && codesBeq c2 c1)
          rw [codesBeq_symm c1 c2, show ((a1 == a2) = (a2 == a1)) from BEq.comm]
      | integer _ => rfl
      | float _ => rfl
      | boolean _ => rfl
      | vnone => rfl
      | string _ => rfl
      | list _ => rfl
      | bendy _ => rfl
      | native _ _ => rfl
  | .native n1 i1, b, _, _ => by
      cases b with
      | native n2 i2 =>
          show (n1 == n2 && i1 == i2) = (n2 == n1 && i2 == i1)
          rw [show ((n1 == n2) = (n2 == n1)) from BEq.comm,
            show ((i1 == i2) = (i2 == i1)) from BEq.comm]
      | integer _ => rfl
      | float _ => rfl
      | boolean _ => rfl
      | vnone => rfl
      | string _ => rfl
      | list _ => rfl
      | bendy _ => rfl
      | function _ _ => rfl
termination_by structural a _ _ _ => a

/-- Pairwise symmetry on list elements. -/
theorem valueListEq_symm : ∀ l1 l2 : List Value, wfVList l1 = true →
    wfVList l2 = true → valueListEq l1 l2 = valueListEq l2 l1
  | [], l2, _, _ => by cases l2 <;> rfl
  | a :: as1, l2, hw1, hw2 => by
      cases l2 with
      | nil => rfl
      | cons b bs =>
          have g1 := (Bool.and_eq_true _ _).mp
            (hw1 : (wfV a && wfVList as1) = true)
          have g2 := (Bool.and_eq_true _ _).mp
            (hw2 : (wfV b && wfVList bs) = true)
          show (valueEq a b && valueListEq as1 bs)
              = (valueEq b a && valueListEq bs as1)
          rw [valueEq_symm a b g1.1 g2.1, valueListEq_symm as1 bs g1.2 g2.2]
termination_by structural l _ _ _ => l

/-- The pointwise symmetry fact for every value bound in a bendy, in the
form the counting lemma consumes. -/
theorem bendyVals_symm : ∀ (m : List (String × Value)), ∀ kv, kv ∈ m →
    ∀ b : Value, wfV kv.2 = true → wfV b = true →
    valueEq kv.2 b = valueEq b kv.2
  | [], kv, hm => absurd hm (by simp)
  | (k, v) :: rest, kv, hm => by
      rcases List.mem_cons.mp hm with hhead | htail
      · cases hhead
        exact fun b hv hb => valueEq_symm v b hv hb
      · exact bendyVals_symm rest kv htail
termination_by structural m _ _ => m

end

/-- `nanFreeV` holds of every value bound in a NaN-free bendy. -/
theorem nanFreeBendy_mem {m : List (String × Value)} {k : String} {v : Value}
    (hn : nanFreeBendy m = true) (hm : (k, v) ∈ m) : nanFreeV v = true := by
  induction m with
  | nil => simp at hm
  | cons kv rest ih =>
    obtain ⟨k2, v2⟩ := kv
    have h2 := (Bool.and_eq_true _ _).mp (hn : (nanFreeV v2 && nanFreeBendy rest) = true)
    rcases List.mem_cons.mp hm with hhead | htail
    · cases hhead; exact h2.1
    · exact ih h2.2 htail

/-- Values of different variants never compare equal. -/
theorem valueEq_cross_false (a b : Value) (h : a.getTypeName ≠ b.getTypeName) :
    valueEq a b = false := by
  cases a <;> cases b <;> first | rfl | exact absurd rfl h

/-- C5: the claim is refuted by the code.  `F64.ofInt 1` is exactly the
float `1.0` (first conjunct), yet `Equals` on the Integer `1` and the
Float `1.0` yields `false` in both operand orders — the `PartialEq` on
`Object` compares `Integer` only with `Integer` and `Float` only with
`Float`, with no numeric cross-case.  Reflexivity also fails as stated:
a NaN `Float` does not equal itself. -/
theorem c5_integer_float_never_equal :
    F64.ofInt 1 = F64.finite 1 ∧
    Value.operate (.integer 1) (.float (F64.finite 1)) .equals
      = .ok (.boolean false) ∧
    Value.operate (.float (F64.finite 1)) (.integer 1) .equals
      = .ok (.boolean false) ∧
    valueEq (.float F64.nan) (.float F64.nan) = false :=
  ⟨by decide, rfl, rfl, rfl⟩

/-- C5 (amended): the equality computed by `Equals`/`NotEquals` is the
`PartialEq` on values; it is symmetric on well-formed values (bendies
with duplicate-free keys) and reflexive on NaN-free such values; an
`Integer` **never** equals a `Float`, even when they are numerically
equal; and all other cross-variant comparisons are false as claimed. -/
theorem c5_equality_laws :
    (∀ a b : Value,
        Value.operate a b .equals = .ok (.boolean (valueEq a b)) ∧
        Value.operate a b .notEquals = .ok (.boolean (!valueEq a b))) ∧
    (∀ a b : Value, wfV a = true → wfV b = true →
        valueEq a b = valueEq b a) ∧
    (∀ a : Value, wfV a = true → nanFreeV a = true → valueEq a a = true) ∧
    (∀ (i : ℤ) (f : F64), valueEq (.integer i) (.float f) = false ∧
        valueEq (.float f) (.integer i) = false) ∧
    (∀ a b : Value, a.getTypeName ≠ b.getTypeName → valueEq a b = false) :=
  ⟨fun _ _ => ⟨rfl, rfl⟩, valueEq_symm, valueEq_refl,
   fun _ _ => ⟨rfl, rfl⟩, valueEq_cross_false⟩

/-- Witness for `c5_equality_laws` at concrete inputs. -/
theorem c5_equality_laws_witness :
    valueEq (.list [.integer 1]) (.string "x")
      = valueEq (.string "x") (.list [.integer 1]) ∧
    valueEq (.bendy [("a", .integer 1)]) (.bendy [("a", .integer 1)]) = true ∧
    valueEq (.string "x") (.integer 0) = false :=
  ⟨c5_equality_laws.2.1 _ _ rfl rfl,
   c5_equality_laws.2.2.1 _ rfl rfl,
   c5_equality_laws.2.2.2.2 _ _ (by decide)⟩

/-- C9: the claim is refuted by the code.  Inserting `a ↦ 1` then
`b ↦ 2` and inserting `b ↦ 2` then `a ↦ 1` produce maps with different
ordered key sequences (conjuncts 1, 2, 4), yet the two bendies compare
**equal** (conjunct 3): the `HashMap`-backed equality ignores insertion
order, so order is not observable through equality. -/
theorem c9_insertion_order_not_observed :
    hmInsert (hmInsert ([] : List (String × Value)) "a" (.integer 1)) "b"
        (.integer 2) = [("a", Value.integer 1), ("b", Value.integer 2)] ∧
    hmInsert (hmInsert ([] : List (String × Value)) "b" (.integer 2)) "a"
        (.integer 1) = [("b", Value.integer 2), ("a", Value.integer 1)] ∧
    valueEq (.bendy [("a", .integer 1), ("b", .integer 2)])
        (.bendy [("b", .integer 2), ("a", .integer 1)]) = true ∧
    [("a", Value.integer 1), ("b", Value.integer 2)].map Prod.fst
      ≠ [("b", Value.integer 2), ("a", Value.integer 1)].map Prod.fst :=
  ⟨rfl, rfl, rfl, by decide⟩

/-- C9 (amended): bendy equality is insertion-order blind — any
reordering of the entries of a well-formed NaN-free bendy compares equal
to the original.  (Iteration order of the underlying `HashMap` is
likewise unspecified, so insertion order is not observable through
`to_string` either.) -/
theorem c9_bendy_equality_ignores_insertion_order :
    ∀ m1 m2 : List (String × Value), m1.Perm m2 →
      wfV (.bendy m1) = true → nanFreeV (.bendy m1) = true →
      valueEq (.bendy m1) (.bendy m2) = true := by
  intro m1 m2 hperm hw hn
  have hw2 := (Bool.and_eq_true _ _).mp (hw : (keysNodup m1 && wfVBendy m1) = true)
  have hn1 : nanFreeBendy m1 = true := hn
  have hnd1 : (m1.map Prod.fst).Nodup := keysNodup_iff.mp hw2.1
  have hpk : (m1.map Prod.fst).Perm (m2.map Prod.fst) := hperm.map _
  have hnd2 : (m2.map Prod.fst).Nodup := hpk.nodup_iff.mp hnd1
  have h2 : keysNodup m2 = true := keysNodup_iff.mpr hnd2
  show (m1.length == m2.length && bendySubEq m1 m2) = true
  rw [hperm.length_eq]
  refine (Bool.and_eq_true _ _).mpr ⟨by simp, ?_⟩
  rw [bendySubEq_iff]
  rintro ⟨k, v⟩ hm
  have hm2 : (k, v) ∈ m2 := hperm.subset hm
  exact ⟨v, hashGet_mem_of_nodup h2 hm2,
    valueEq_refl v (wfVBendy_mem hw2.2 hm) (nanFreeBendy_mem hn1 hm)⟩

/-- Witness for `c9_bendy_equality_ignores_insertion_order` at a concrete
two-entry permutation. -/
theorem c9_bendy_equality_witness :
    valueEq (.bendy [("a", .integer 1), ("b", .integer 2)])
        (.bendy [("b", .integer 2), ("a", .integer 1)]) = true :=
  c9_bendy_equality_ignores_insertion_order
    [("a", .integer 1), ("b", .integer 2)]
    [("b", .integer 2), ("a", .integer 1)]
    (List.Perm.swap ("b", Value.integer 2) ("a", Value.integer 1) [])
    rfl rfl

/-! ## Theorems: Concat (claim C8) -/

/-- C8: the claim is refuted by the code.  `3 $ "x"` has a String operand
and an operand of another type, so by the claim it coerces to the String
`"3x"`; the code only string-coerces when the String is the **left**
operand, and raises `UnmatchingTypes` here. -/
theorem c8_concat_is_left_biased :
    Value.operate (.integer 3) (.string "x") .concat
      = .err (.unmatchingTypes "integer" "string") ∧
    (Value.integer 3).toStr ++ "x" = "3x" :=
  ⟨rfl, rfl⟩

/-- C8 (amended): `Concat` with a String **left** operand returns the
String `left ++ to_string(right)` for every right operand (in particular
`"x=" $ 3.5` gives `"x=3.5"`); two Lists and two Bendies concatenate
(the bendy case with `HashMap::extend`, right entries overriding); every
other combination — including a String on the right of a non-String
left — raises `UnmatchingTypes`. -/
theorem c8_concat_characterization :
    (∀ (s : String) (b : Value),
        Value.operate (.string s) b .concat = .ok (.string (s ++ b.toStr))) ∧
    (∀ d1 d2 : List Value,
        Value.operate (.list d1) (.list d2) .concat = .ok (.list (d1 ++ d2))) ∧
    (∀ m1 m2 : List (String × Value),
        Value.operate (.bendy m1) (.bendy m2) .concat
          = .ok (.bendy (hmExtend m1 m2))) ∧
    Value.operate (.string "x=") (.float (roundRat (7/2))) .concat
      = .ok (.string "x=3.5") ∧
    (∀ a b : Value, a.getTypeName ≠ "string" →
      (a.getTypeName = "list" → b.getTypeName ≠ "list") →
      (a.getTypeName = "bendy" → b.getTypeName ≠ "bendy") →
      Value.operate a b .concat
        = .err (.unmatchingTypes a.getTypeName b.getTypeName)) := by
  refine ⟨fun _ _ => rfl, fun _ _ => rfl, fun _ _ => rfl, rfl, ?_⟩
  intro a b h1 h2 h3
  cases a <;> cases b <;> first
    | rfl
    | exact absurd rfl h1
    | exact absurd rfl (h2 rfl)
    | exact absurd rfl (h3 rfl)

/-- Witness for `c8_concat_characterization` at concrete inputs. -/
theorem c8_concat_witness :
    Value.operate (.integer 1) (.boolean true) .concat
      = .err (.unmatchingTypes "integer" "boolean") ∧
    Value.operate (.list []) (.string "x") .concat
      = .err (.unmatchingTypes "list" "string") :=
  ⟨c8_concat_characterization.2.2.2.2 _ _ (by decide) (by decide) (by decide),
   c8_concat_characterization.2.2.2.2 _ _ (by decide) (by decide) (by decide)⟩

/-! ## Theorems: the garbage collector (claim C2) -/

/-- A two-object reference cycle: objects `0` and `1` reference each other
(two bendies `a`, `b` with `a.b = b` and `b.a = a`); every other id has no
references. -/
def cycleRefs : ℕ → List ℕ := fun n => if n = 0 then [1] else if n = 1 then [0] else []

/-- No recursion depth lets `trace` finish on either member of the cycle. -/
theorem traceAux_cycle_none :
    ∀ fuel : ℕ, traceAux cycleRefs fuel [0] = none ∧ traceAux cycleRefs fuel [1] = none := by
  intro fuel
  induction fuel with
  | zero => exact ⟨rfl, rfl⟩
  | succ n ih =>
      constructor
      · show (do
            let a ← traceAux cycleRefs n (cycleRefs 0)
            let b ← traceAux cycleRefs n ([] : List ℕ)
            pure ((a ++ cycleRefs 0) ++ b) : Option (List ℕ)) = none
        rw [show cycleRefs 0 = [1] from rfl, ih.2]
        rfl
      · show (do
            let a ← traceAux cycleRefs n (cycleRefs 1)
            let b ← traceAux cycleRefs n ([] : List ℕ)
            pure ((a ++ cycleRefs 1) ++ b) : Option (List ℕ)) = none
        rw [show cycleRefs 1 = [0] from rfl, ih.1]
        rfl

/-- C2: the claim is refuted by the code.  `trace` carries no visited set,
so marking from a root that reaches a reference cycle recurses through the
cycle forever (conjuncts 1, 2: no recursion depth suffices — the Rust
recursion overflows the stack and aborts instead of terminating).  A cycle
that is **unreachable** is indeed reclaimed (conjunct 3: with root `2` the
trace never enters the cycle and the sweep reclaims both members), so the
reclamation half of the claim holds exactly when the collector survives. -/
theorem c2_gc_trace_diverges_on_reachable_cycle :
    (∀ fuel : ℕ, gcTrace cycleRefs fuel [0] = none) ∧
    (∀ fuel : ℕ, gcTrace cycleRefs fuel [1] = none) ∧
    gcRun cycleRefs [0, 1, 2] 3 [2] = some [0, 1] := by
  refine ⟨fun fuel => ?_, fun fuel => ?_, rfl⟩
  · show (traceAux cycleRefs fuel [0]).map _ = none
    rw [(traceAux_cycle_none fuel).1]; rfl
  · show (traceAux cycleRefs fuel [1]).map _ = none
    rw [(traceAux_cycle_none fuel).2]; rfl

/-! ## Theorems: argument binding at `Call` (claim C3) -/

/-- The scope a `bindLoop` run produces keeps the parent of the scope it
started from (each `store` only inserts into the scope itself). -/
theorem bindLoop_parent {ps : List String} :
    ∀ {stack : List Obj} {sc sc2 : Scope} {i : ℕ} {rest : List Obj},
      bindLoop ps stack sc i = .ok (sc2, rest) → sc2.parent = sc.parent := by
  induction ps with
  | nil =>
      intro stack sc sc2 i rest h
      cases h
      rfl
  | cons a ps ih =>
      intro stack sc sc2 i rest h
      cases stack with
      | nil => cases h
      | cons v vrest =>
          have h2 := @ih vrest (sc.store a v) sc2 (i + 1) rest h
          rw [h2, scope_store_is_local]
          rfl

/-- `bindLoop` on a sufficiently deep stack: it succeeds, consumes exactly
one stack value per parameter, and performs the corresponding `store`s. -/
theorem bindLoop_ok (ps : List String) :
    ∀ (stack : List Obj) (sc : Scope) (i : ℕ), ps.length ≤ stack.length →
      bindLoop ps stack sc i =
        .ok (List.foldl (fun s pv => s.store pv.1 pv.2) sc (ps.zip stack),
             stack.drop ps.length) := by
  induction ps with
  | nil => intro stack sc i _; rfl
  | cons a ps ih =>
      intro stack sc i hlen
      cases stack with
      | nil => simp at hlen
      | cons v vrest =>
          show bindLoop ps vrest (sc.store a v) (i + 1) = _
          rw [ih vrest (sc.store a v) (i + 1) (by simpa using hlen)]
          rfl

/-- Folding `store`s is folding `hmInsert`s on the variable map. -/
theorem foldStores_eq (pairs : List (String × Obj)) :
    ∀ sc : Scope,
      List.foldl (fun s pv => s.store pv.1 pv.2) sc pairs =
        Scope.mk (List.foldl (fun m pv => hmInsert m pv.1 pv.2) sc.vars pairs) sc.parent := by
  induction pairs with
  | nil => intro sc; cases sc; rfl
  | cons kv rest ih =>
      intro sc
      show List.foldl _ (sc.store kv.1 kv.2) rest = _
      rw [ih (sc.store kv.1 kv.2), scope_store_is_local]
      rfl

/-- Looking up the key just inserted. -/
theorem hashGet_hmInsert_self {A : Type} (m : List (String × A)) (k : String) (v : A) :
    hashGet (hmInsert m k v) k = some v := by
  induction m with
  | nil => simp [hmInsert, hashGet]
  | cons kv rest ih =>
      obtain ⟨k2, v2⟩ := kv
      by_cases h : k2 = k
      · subst h; simp [hmInsert, hashGet]
      · simp [hmInsert, hashGet, h, ih]

/-- Inserting one key leaves the others' lookups unchanged. -/
theorem hashGet_hmInsert_ne {A : Type} (m : List (String × A)) (k k2 : String) (v : A)
    (hne : k ≠ k2) : hashGet (hmInsert m k v) k2 = hashGet m k2 := by
  induction m with
  | nil => simp [hmInsert, hashGet, hne]
  | cons kv rest ih =>
      obtain ⟨k3, v3⟩ := kv
      by_cases h : k3 = k
      · subst h
        have : ¬ k3 = k2 := hne
        simp [hmInsert, hashGet, this]
      · by_cases h2 : k3 = k2
        · subst h2; simp [hmInsert, hashGet, h]
        · simp [hmInsert, hashGet, h, h2, ih]

/-- A fold of inserts does not affect keys it never inserts. -/
theorem hashGet_foldIns_not_mem {A : Type} (pairs : List (String × A)) :
    ∀ (m : List (String × A)) (k : String), k ∉ pairs.map Prod.fst →
      hashGet (List.foldl (fun m pv => hmInsert m pv.1 pv.2) m pairs) k = hashGet m k := by
  induction pairs with
  | nil => intro m k _; rfl
  | cons kv rest ih =>
      intro m k hk
      simp only [List.map_cons, List.mem_cons] at hk
      push_neg at hk
      show hashGet (List.foldl _ (hmInsert m kv.1 kv.2) rest) k = _
      rw [ih (hmInsert m kv.1 kv.2) k hk.2, hashGet_hmInsert_ne m kv.1 k kv.2 (fun h => hk.1 h.symm)]

/-- A fold of inserts with pairwise distinct keys: each inserted pair is
found afterwards. -/
theorem hashGet_foldIns_mem {A : Type} (pairs : List (String × A)) :
    ∀ (m : List (String × A)) (k : String) (v : A),
      (pairs.map Prod.fst).Nodup → (k, v) ∈ pairs →
      hashGet (List.foldl (fun m pv => hmInsert m pv.1 pv.2) m pairs) k = some v := by
  induction pairs with
  | nil => intro m k v _ hm; simp at hm
  | cons kv rest ih =>
      obtain ⟨k1, v1⟩ := kv
      intro m k v hnd hm
      simp only [List.map_cons, List.nodup_cons] at hnd
      rcases List.mem_cons.mp hm with heq | htail
      · injection heq with hk hv
        subst hk
        subst hv
        show hashGet (List.foldl (fun m pv => hmInsert m pv.1 pv.2) (hmInsert m k v) rest) k
          = some v
        rw [hashGet_foldIns_not_mem rest (hmInsert m k v) k hnd.1, hashGet_hmInsert_self]
      · exact ih (hmInsert m k1 v1) k v hnd.2 htail

/-- A lookup that hits the scope's own variables. -/
theorem load_of_hashGet {vars : List (String × Obj)} {par : Option Scope}
    {name : String} {v : Obj} (h : hashGet vars name = some v) :
    Scope.load (.mk vars par) name = some v := by
  rw [Scope.load.eq_def]
  show (hashGet vars name).orElse _ = some v
  rw [h]
  rfl

/-- C3 (amended): `Call` pops one stack value per parameter iterating the
parameter list **reversed**, so the last pushed argument binds the *last*
parameter — equivalently, the i-th parameter receives the i-th pushed
argument (part 1, recalling that the stack head is the last value pushed).
The callee scope's parent is the caller's scope and the callee's bytecode
starts at index 0 with an empty operand stack (part 2); a callee reads the
caller's variables through the parent chain (part 3). -/
theorem c3_call_binds_args_in_order :
    (∀ (args : List String) (stack : List Obj) (sc : Scope),
        args.Nodup → args.length ≤ stack.length →
        ∃ sc2, bindLoop args.reverse stack sc 0 = .ok (sc2, stack.drop args.length) ∧
          sc2.parent = sc.parent ∧
          ∀ (i : ℕ) (hi : i < args.length) (hs : args.length - 1 - i < stack.length),
            sc2.load (args.get ⟨i, hi⟩)
              = some (stack.get ⟨args.length - 1 - i, hs⟩)) ∧
    (∀ (nfn : ℕ → List Obj → Obj) (fuel : ℕ) (codes : List Code) (ip : ℕ)
        (rest : List Obj) (scope : Scope) (h : Heap) (p : ℕ)
        (fargs : List String) (fcodes : List Code) (ns : Scope) (rest2 : List Obj),
        List.get? codes ip = some .call →
        List.get? h p = some (.function fargs fcodes) →
        bindLoop fargs.reverse rest (Scope.fromParent scope) 0 = .ok (ns, rest2) →
        ns.parent = some scope ∧
        runF nfn (fuel + 1) codes ip (.pointer p :: rest) scope h =
          (match runF nfn fuel fcodes 0 [] ns h with
           | .fine h2 rv => runF nfn fuel codes (ip + 1) (rv :: rest2) scope h2
           | other => other)) ∧
    runF (fun _ _ => Obj.vnone) 20
      [.pushByte 7, .store "x", .pushFun [] [.load "x", .ret], .call, .ret]
      0 [] Scope.new [] =
      .fine [RefObj.function [] [.load "x", .ret]] (.integer 7) := by
  refine ⟨?_, ?_, rfl⟩
  · intro args stack sc hnd hlen
    have hrl : args.reverse.length = args.length := List.length_reverse args
    have hlen2 : args.reverse.length ≤ stack.length := by rw [hrl]; exact hlen
    refine ⟨List.foldl (fun s pv => s.store pv.1 pv.2) sc (args.reverse.zip stack),
      ?_, ?_, ?_⟩
    · rw [bindLoop_ok args.reverse stack sc 0 hlen2, hrl]
    · rw [foldStores_eq]; rfl
    · intro i hi hs
      rw [foldStores_eq]
      refine load_of_hashGet (hashGet_foldIns_mem _ _ _ _ ?_ ?_)
      · rw [List.map_fst_zip args.reverse stack hlen2]
        exact List.nodup_reverse.mpr hnd
      · have hzl : args.length - 1 - i < (args.reverse.zip stack).length := by
          rw [List.length_zip, hrl]
          exact lt_min (by omega) (by omega)
        have hmem := List.get_mem (args.reverse.zip stack) _ hzl
        rw [List.get_zip] at hmem
        have h1 : args.reverse.get ⟨args.length - 1 - i,
            List.lt_length_left_of_zip hzl⟩ = args.get ⟨i, hi⟩ := by
          rw [List.get_reverse _ i (by omega) hi]
        have h2 : stack.get ⟨args.length - 1 - i, List.lt_length_right_of_zip hzl⟩
            = stack.get ⟨args.length - 1 - i, hs⟩ := rfl
        rw [h1, h2] at hmem
        exact hmem
  · intro nfn fuel codes ip rest scope h p fargs fcodes ns rest2 h1 h2 h3
    refine ⟨?_, ?_⟩
    · rw [bindLoop_parent h3]; rfl
    · show (match List.get? codes ip with
            | none => RunOut.crash
            | some code => _) = _
      rw [h1]
      show (match List.get? h p with
            | none => RunOut.crash
            | some (.function args fcodes) => _
            | some (.native argCount closure) => _
            | some r => _) = _
      rw [h2]
      show (match bindLoop fargs.reverse rest (Scope.fromParent scope) 0 with
            | .error i => RunOut.fail (.callArgs fargs.length i)
            | .ok (newScope, rest2) => _) = _
      rw [h3]

/-- Witness for `c3_call_binds_args_in_order` at a concrete two-parameter
call. -/
theorem c3_call_witness :
    ∃ sc2, bindLoop (["a", "b"] : List String).reverse
        [Obj.integer 20, Obj.integer 10] Scope.new 0
        = .ok (sc2, List.drop (["a", "b"] : List String).length
            [Obj.integer 20, Obj.integer 10]) ∧
      sc2.parent = Scope.new.parent ∧
      ∀ (i : ℕ) (hi : i < (["a", "b"] : List String).length)
        (hs : (["a", "b"] : List String).length - 1 - i
            < ([Obj.integer 20, Obj.integer 10] : List Obj).length),
        sc2.load ((["a", "b"] : List String).get ⟨i, hi⟩)
          = some (([Obj.integer 20, Obj.integer 10] : List Obj).get
              ⟨(["a", "b"] : List String).length - 1 - i, hs⟩) :=
  c3_call_binds_args_in_order.1 ["a", "b"] [Obj.integer 20, Obj.integer 10]
    Scope.new (by decide) (by decide)

/-- C3: the claim is refuted on its binding order.  With arguments pushed
`10` then `20`, the first parameter `a` holds `10` (the **first** pushed
argument) and the second parameter `b` holds `20`: the last pushed
argument binds the last parameter, not the first as claimed. -/
theorem c3_last_arg_binds_last_parameter :
    runF (fun _ _ => Obj.vnone) 20
      [.pushByte 10, .pushByte 20, .pushFun ["a", "b"] [.load "a", .ret], .call, .ret]
      0 [] Scope.new []
      = .fine [RefObj.function ["a", "b"] [.load "a", .ret]] (.integer 10) ∧
    runF (fun _ _ => Obj.vnone) 20
      [.pushByte 10, .pushByte 20, .pushFun ["a", "b"] [.load "b", .ret], .call, .ret]
      0 [] Scope.new []
      = .fine [RefObj.function ["a", "b"] [.load "b", .ret]] (.integer 20) :=
  ⟨rfl, rfl⟩

/-! ## Rounding analysis for `roundRat` (claim C4) -/

/-- `roundIntQ` on an integer is that integer. -/
theorem roundIntQ_intCast (z : ℤ) : roundIntQ (z : ℚ) = z := by
  simp only [roundIntQ, Int.floor_intCast]
  norm_num

/-- `roundIntQ` rounds to a nearest integer: the error is at most `1/2`. -/
theorem roundIntQ_err (x : ℚ) : |(roundIntQ x : ℚ) - x| ≤ 1 / 2 := by
  have h0 : (⌊x⌋ : ℚ) ≤ x := Int.floor_le x
  have h1 : x < ⌊x⌋ + 1 := Int.lt_floor_add_one x
  simp only [roundIntQ]
  split_ifs <;> rw [abs_le] <;> constructor <;> push_cast <;> linarith

/-- `qpow2` is the integer power `2 ^ e` in `ℚ`. -/
theorem qpow2_eq_zpow (e : ℤ) : qpow2 e = (2 : ℚ) ^ e := by
  unfold qpow2
  split
  · next h =>
      push_cast
      rw [← zpow_natCast (2 : ℚ), Int.toNat_of_nonneg h]
  · next h =>
      push_cast
      rw [← zpow_natCast (2 : ℚ), Int.toNat_of_nonneg (by omega), zpow_neg, one_div, inv_inv]

theorem qpow2_pos (e : ℤ) : 0 < qpow2 e := by
  rw [qpow2_eq_zpow]; exact zpow_pos (by norm_num) e

theorem qpow2_le_qpow2 {a b : ℤ} (h : a ≤ b) : qpow2 a ≤ qpow2 b := by
  rw [qpow2_eq_zpow, qpow2_eq_zpow]
  exact zpow_le_zpow_right₀ (by norm_num) h

theorem qpow2_lt_qpow2_iff {a b : ℤ} : qpow2 a < qpow2 b ↔ a < b := by
  rw [qpow2_eq_zpow, qpow2_eq_zpow]
  exact zpow_lt_zpow_iff_right₀ (by norm_num)

theorem qpow2_add (a b : ℤ) : qpow2 (a + b) = qpow2 a * qpow2 b := by
  rw [qpow2_eq_zpow, qpow2_eq_zpow, qpow2_eq_zpow]
  exact zpow_add₀ (by norm_num) a b

theorem qpow2_natCast (n : ℕ) : qpow2 (n : ℤ) = ((2 ^ n : ℕ) : ℚ) := by
  unfold qpow2
  rw [if_pos (Int.natCast_nonneg n)]
  norm_num

/-- The fuelled binary logarithm is exact for positive inputs. -/
theorem natLog2F_spec : ∀ (fuel n : ℕ), 1 ≤ n → n ≤ fuel →
    2 ^ natLog2F fuel n ≤ n ∧ n < 2 ^ (natLog2F fuel n + 1) := by
  intro fuel
  induction fuel with
  | zero => intro n h1 h2; omega
  | succ f ih =>
      intro n h1 h2
      by_cases h : 2 ≤ n
      · have hh := ih (n / 2) (by omega) (by omega)
        have e1 : natLog2F (f + 1) n = natLog2F f (n / 2) + 1 := by
          simp only [natLog2F, if_pos h]
        rw [e1]
        have p1 : 2 ^ (natLog2F f (n / 2) + 1) = 2 * 2 ^ natLog2F f (n / 2) := by ring
        have p2 : 2 ^ (natLog2F f (n / 2) + 1 + 1) = 2 * 2 ^ (natLog2F f (n / 2) + 1) := by
          ring
        omega
      · have e1 : natLog2F (f + 1) n = 0 := by simp only [natLog2F, if_neg h]
        rw [e1]
        omega

theorem natLog2_spec (n : ℕ) (h : 1 ≤ n) :
    2 ^ natLog2 n ≤ n ∧ n < 2 ^ (natLog2 n + 1) :=
  natLog2F_spec n n h le_rfl

/-- The floor logarithm brackets every positive rational. -/
theorem flog2_bracket (q : ℚ) (hq : 0 < q) :
    qpow2 (flog2 q) ≤ q ∧ q < qpow2 (flog2 q + 1) := by
  have hnum : 0 < q.num := Rat.num_pos.mpr hq
  have hden : 0 < q.den := q.pos
  set na : ℕ := q.num.natAbs with hna
  set d : ℕ := q.den with hd
  have hna1 : 1 ≤ na := by
    have := Int.natAbs_pos.mpr (ne_of_gt hnum)
    omega
  have hd1 : 1 ≤ d := hden
  obtain ⟨hA1, hA2⟩ := natLog2_spec na hna1
  obtain ⟨hB1, hB2⟩ := natLog2_spec d hd1
  set a : ℕ := natLog2 na with hA
  set b : ℕ := natLog2 d with hB
  have hqeq : q = (na : ℚ) / (d : ℚ) := by
    rw [hna, hd]
    rw [Int.cast_natAbs, abs_of_pos hnum]
    exact (Rat.num_div_den q).symm
  have hdpos : (0 : ℚ) < (d : ℚ) := by exact_mod_cast hd1
  have cA1 : qpow2 (a : ℤ) ≤ (na : ℚ) := by
    rw [qpow2_natCast]; exact_mod_cast hA1
  have cA2 : (na : ℚ) < qpow2 ((a : ℤ) + 1) := by
    rw [show ((a : ℤ) + 1) = ((a + 1 : ℕ) : ℤ) by push_cast; ring, qpow2_natCast]
    exact_mod_cast hA2
  have cB1 : qpow2 (b : ℤ) ≤ (d : ℚ) := by
    rw [qpow2_natCast]; exact_mod_cast hB1
  have cB2 : (d : ℚ) < qpow2 ((b : ℤ) + 1) := by
    rw [show ((b : ℤ) + 1) = ((b + 1 : ℕ) : ℤ) by push_cast; ring, qpow2_natCast]
    exact_mod_cast hB2
  have key_u : q < qpow2 ((a : ℤ) + 1 - (b : ℤ)) := by
    have e : qpow2 ((a : ℤ) + 1 - (b : ℤ)) = qpow2 ((a : ℤ) + 1) / qpow2 (b : ℤ) := by
      rw [qpow2_eq_zpow, qpow2_eq_zpow, qpow2_eq_zpow,
        ← zpow_sub₀ (show (2 : ℚ) ≠ 0 by norm_num)]
    rw [hqeq, e, div_lt_div_iff hdpos (qpow2_pos _)]
    nlinarith [qpow2_pos (b : ℤ), qpow2_pos ((a : ℤ) + 1)]
  have key_l : qpow2 ((a : ℤ) - ((b : ℤ) + 1)) < q := by
    have e : qpow2 ((a : ℤ) - ((b : ℤ) + 1)) = qpow2 (a : ℤ) / qpow2 ((b : ℤ) + 1) := by
      rw [qpow2_eq_zpow, qpow2_eq_zpow, qpow2_eq_zpow,
        ← zpow_sub₀ (show (2 : ℚ) ≠ 0 by norm_num)]
    rw [hqeq, e, div_lt_div_iff (qpow2_pos _) hdpos]
    nlinarith [qpow2_pos ((b : ℤ) + 1), qpow2_pos (a : ℤ)]
  have hfl : flog2 q = if qpow2 ((a : ℤ) - (b : ℤ)) ≤ q
      then (a : ℤ) - (b : ℤ) else (a : ℤ) - (b : ℤ) - 1 := rfl
  by_cases h : qpow2 ((a : ℤ) - (b : ℤ)) ≤ q
  · rw [hfl, if_pos h]
    refine ⟨h, ?_⟩
    have : (a : ℤ) - (b : ℤ) + 1 = (a : ℤ) + 1 - (b : ℤ) := by ring
    rw [this]
    exact key_u
  · rw [hfl, if_neg h]
    constructor
    · have : (a : ℤ) - (b : ℤ) - 1 = (a : ℤ) - ((b : ℤ) + 1) := by ring
      rw [this]
      exact le_of_lt key_l
    · have : (a : ℤ) - (b : ℤ) - 1 + 1 = (a : ℤ) - (b : ℤ) := by ring
      rw [this]
      exact lt_of_not_ge h


theorem flog2_le_of_le {q : ℚ} {e : ℤ} (hq : 0 < q) (h : q ≤ qpow2 e) : flog2 q ≤ e := by
  by_contra hlt
  push_neg at hlt
  have h1 := (flog2_bracket q hq).1
  have h2 : qpow2 e < qpow2 (flog2 q) := qpow2_lt_qpow2_iff.mpr hlt
  linarith

theorem le_flog2_of_le {q : ℚ} {e : ℤ} (hq : 0 < q) (h : qpow2 e ≤ q) : e ≤ flog2 q := by
  by_contra hlt
  push_neg at hlt
  have h2 := (flog2_bracket q hq).2
  have h3 : qpow2 (flog2 q + 1) ≤ qpow2 e := qpow2_le_qpow2 (by omega)
  linarith

/-- The unfolded form of `roundRat` away from zero. -/
theorem roundRat_eq (q : ℚ) (hq : q ≠ 0) :
    roundRat q =
      (if qpow2 1024 ≤ (roundIntQ (|q| / qpow2 (max (flog2 |q| - 52) (-1074))) : ℚ)
            * qpow2 (max (flog2 |q| - 52) (-1074))
       then (if q < 0 then F64.negInf else F64.posInf)
       else .finite (if q < 0
         then -((roundIntQ (|q| / qpow2 (max (flog2 |q| - 52) (-1074))) : ℚ)
            * qpow2 (max (flog2 |q| - 52) (-1074)))
         else (roundIntQ (|q| / qpow2 (max (flog2 |q| - 52) (-1074))) : ℚ)
            * qpow2 (max (flog2 |q| - 52) (-1074)))) := by
  simp only [roundRat, if_neg hq]

/-- Away from zero and overflow, `roundRat` returns a finite value within
half an ulp of its argument. -/
theorem roundRat_finite_close (q : ℚ) (hq : q ≠ 0) (hsmall : |q| ≤ qpow2 60) :
    ∃ r : ℚ, roundRat q = .finite r ∧
      |r - q| ≤ qpow2 (max (flog2 |q| - 52) (-1074) - 1) := by
  rw [roundRat_eq q hq]
  set aq : ℚ := |q| with haqd
  set e : ℤ := flog2 aq with he
  set pe : ℤ := max (e - 52) (-1074) with hpe
  set m : ℤ := roundIntQ (aq / qpow2 pe) with hm
  set r0 : ℚ := (m : ℚ) * qpow2 pe with hr0
  have haq : 0 < aq := abs_pos.mpr hq
  have hP : 0 < qpow2 pe := qpow2_pos pe
  have herr : |r0 - aq| ≤ qpow2 (pe - 1) := by
    have h1 : |(m : ℚ) - aq / qpow2 pe| ≤ 1 / 2 := roundIntQ_err _
    have e2 : r0 - aq = ((m : ℚ) - aq / qpow2 pe) * qpow2 pe := by
      rw [hr0]
      field_simp
    have e3 : qpow2 (pe - 1) = 1 / 2 * qpow2 pe := by
      rw [show pe - 1 = -1 + pe by ring, qpow2_add]
      have : qpow2 (-1) = 1 / 2 := by
        rw [qpow2_eq_zpow]
        norm_num
      rw [this]
    rw [e2, abs_mul, abs_of_pos hP, e3]
    exact mul_le_mul_of_nonneg_right h1 (le_of_lt hP)
  have he60 : e ≤ 60 := flog2_le_of_le haq hsmall
  have hr0small : r0 < qpow2 1024 := by
    have h1 : r0 - aq ≤ qpow2 (pe - 1) := (abs_le.mp herr).2
    have h2 : qpow2 (pe - 1) ≤ qpow2 7 := qpow2_le_qpow2 (by omega)
    have k1 : qpow2 7 < qpow2 60 := qpow2_lt_qpow2_iff.mpr (by norm_num)
    have k2 : qpow2 60 + qpow2 60 = qpow2 61 := by
      rw [show (61 : ℤ) = 60 + 1 by norm_num, qpow2_add]
      have : qpow2 (1 : ℤ) = 2 := by rw [qpow2_eq_zpow]; norm_num
      rw [this]
      ring
    have k3 : qpow2 61 ≤ qpow2 1024 := qpow2_le_qpow2 (by norm_num)
    linarith
  rw [if_neg (not_le.mpr hr0small)]
  by_cases hqs : q < 0
  · rw [if_pos hqs]
    refine ⟨-r0, rfl, ?_⟩
    have e4 : -r0 - q = -(r0 - aq) := by
      rw [haqd, abs_of_neg hqs]
      ring
    rw [e4, abs_neg]
    exact herr
  · rw [if_neg hqs]
    refine ⟨r0, rfl, ?_⟩
    have e4 : r0 - q = r0 - aq := by
      rw [haqd, abs_of_nonneg (le_of_not_lt hqs)]
    rw [e4]
    exact herr

/-- Integers of magnitude up to `2 ^ 52` convert to `f64` exactly. -/
theorem roundRat_int_exact (n : ℤ) (h : n.natAbs ≤ 2 ^ 52) :
    roundRat (n : ℚ) = .finite (n : ℚ) := by
  by_cases h0 : n = 0
  · subst h0
    show roundRat ((0 : ℤ) : ℚ) = _
    norm_num [roundRat]
  · have hq : ((n : ℚ)) ≠ 0 := Int.cast_ne_zero.mpr h0
    have haq : 0 < |(n : ℚ)| := abs_pos.mpr hq
    set N : ℕ := n.natAbs with hN
    have hNq : |(n : ℚ)| = (N : ℚ) := by
      rw [hN, Int.cast_natAbs, Int.cast_abs]
    have hN1 : 1 ≤ N := by
      rw [hN]
      exact Int.natAbs_pos.mpr h0
    have hNle : (N : ℚ) ≤ qpow2 52 := by
      rw [show (52 : ℤ) = ((52 : ℕ) : ℤ) by norm_num, qpow2_natCast]
      exact_mod_cast h
    have hN1q : (1 : ℚ) ≤ (N : ℚ) := by exact_mod_cast hN1
    set e : ℤ := flog2 |(n : ℚ)| with he
    have he0 : 0 ≤ e := by
      rw [he]
      refine le_flog2_of_le haq ?_
      rw [hNq]
      have : qpow2 0 = 1 := by rw [qpow2_eq_zpow]; norm_num
      rw [this]
      exact hN1q
    have he52 : e ≤ 52 := by
      rw [he]
      refine flog2_le_of_le haq ?_
      rw [hNq]
      exact hNle
    have hpe : max (e - 52) (-1074) = e - 52 := max_eq_left (by omega)
    set k : ℕ := (52 - e).toNat with hk
    have hkz : ((k : ℤ)) = 52 - e := by
      rw [hk]
      exact Int.toNat_of_nonneg (by omega)
    have hPk : qpow2 (e - 52) = (qpow2 (k : ℤ))⁻¹ := by
      rw [qpow2_eq_zpow, qpow2_eq_zpow, hkz, ← zpow_neg]
      ring_nf
    have hdiveq : |(n : ℚ)| / qpow2 (e - 52) = ((N * 2 ^ k : ℕ) : ℚ) := by
      rw [hPk, div_eq_mul_inv, inv_inv, hNq]
      rw [show ((k : ℕ) : ℤ) = (k : ℤ) from rfl, qpow2_natCast]
      push_cast
      ring
    have hm : roundIntQ (|(n : ℚ)| / qpow2 (e - 52)) = ((N * 2 ^ k : ℕ) : ℤ) := by
      rw [hdiveq, show (((N * 2 ^ k : ℕ) : ℚ)) = (((N * 2 ^ k : ℕ) : ℤ) : ℚ) by push_cast; ring,
        roundIntQ_intCast]
    have hr0 : ((roundIntQ (|(n : ℚ)| / qpow2 (e - 52)) : ℤ) : ℚ) * qpow2 (e - 52)
        = |(n : ℚ)| := by
      rw [hm, hPk]
      have h1 : (((N * 2 ^ k : ℕ) : ℤ) : ℚ) = (N : ℚ) * qpow2 (k : ℤ) := by
        rw [qpow2_natCast]
        push_cast
        ring
      rw [h1, hNq]
      have hkpos : qpow2 (k : ℤ) ≠ 0 := ne_of_gt (qpow2_pos _)
      rw [mul_assoc, mul_inv_cancel₀ hkpos, mul_one]
    rw [roundRat_eq _ hq, hpe, hr0]
    have hnoov : ¬ qpow2 1024 ≤ |(n : ℚ)| := by
      push_neg
      calc |(n : ℚ)| = (N : ℚ) := hNq
        _ ≤ qpow2 52 := hNle
        _ < qpow2 1024 := qpow2_lt_qpow2_iff.mpr (by norm_num)
    rw [if_neg hnoov]
    by_cases hs : (n : ℚ) < 0
    · rw [if_pos hs, abs_of_neg hs]
      norm_num
    · rw [if_neg hs, abs_of_nonneg (le_of_not_lt hs)]

theorem truncQ_intCast (z : ℤ) : truncQ (z : ℚ) = z := by
  unfold truncQ
  split_ifs <;> simp

theorem truncQ_neg (q : ℚ) : truncQ (-q) = -truncQ q := by
  unfold truncQ
  rcases lt_trichotomy q 0 with h | h | h
  · rw [if_neg (by linarith), if_pos h, Int.floor_neg]
  · subst h
    norm_num
  · rw [if_pos (by linarith), if_neg (by linarith), Int.ceil_neg]

theorem truncQ_eq_of_floor_ceil {q r : ℚ} (hf : ⌊r⌋ = ⌊q⌋) (hc : ⌈r⌉ = ⌈q⌉) :
    truncQ r = truncQ q := by
  unfold truncQ
  by_cases h1 : r < 0 <;> by_cases h2 : q < 0
  · rw [if_pos h1, if_pos h2, hc]
  · exfalso
    have ha : 0 ≤ ⌊q⌋ := Int.floor_nonneg.mpr (le_of_not_lt h2)
    have hb : (⌊r⌋ : ℚ) ≤ r := Int.floor_le r
    have hcast : (⌊r⌋ : ℚ) < 0 := lt_of_le_of_lt hb h1
    have : ⌊r⌋ < 0 := by exact_mod_cast hcast
    omega
  · exfalso
    have ha : 0 ≤ ⌊r⌋ := Int.floor_nonneg.mpr (le_of_not_lt h1)
    have hb : (⌊q⌋ : ℚ) ≤ q := Int.floor_le q
    have hcast : (⌊q⌋ : ℚ) < 0 := lt_of_le_of_lt hb h2
    have : ⌊q⌋ < 0 := by exact_mod_cast hcast
    omega
  · rw [if_neg h1, if_neg h2, hf]

theorem truncQ_div_nonneg (a b : ℤ) (ha : 0 ≤ a) (hb : 0 ≤ b) :
    truncQ ((a : ℚ) / (b : ℚ)) = a.tdiv b := by
  rcases eq_or_lt_of_le hb with hb0 | hbpos
  · rw [← hb0]
    norm_num [truncQ]
  · have hq : 0 ≤ (a : ℚ) / (b : ℚ) :=
      div_nonneg (by exact_mod_cast ha) (by exact_mod_cast le_of_lt hbpos)
    unfold truncQ
    rw [if_neg (not_lt.mpr hq)]
    rw [Int.tdiv_eq_ediv ha hb]
    have hc : ((b.toNat : ℕ) : ℚ) = (b : ℚ) := by exact_mod_cast Int.toNat_of_nonneg hb
    calc ⌊(a : ℚ) / (b : ℚ)⌋ = ⌊(a : ℚ) / ((b.toNat : ℕ) : ℚ)⌋ := by rw [hc]
      _ = a / ((b.toNat : ℕ) : ℤ) := Rat.floor_intCast_div_natCast a b.toNat
      _ = a / b := by rw [Int.toNat_of_nonneg hb]

/-- Truncation toward zero of an integer quotient is Rust `i64` division. -/
theorem truncQ_intCast_div (a b : ℤ) : truncQ ((a : ℚ) / (b : ℚ)) = a.tdiv b := by
  rcases le_or_lt 0 a with ha | ha <;> rcases le_or_lt 0 b with hb | hb
  · exact truncQ_div_nonneg a b ha hb
  · have h := truncQ_div_nonneg a (-b) ha (by omega)
    have e : (a : ℚ) / (b : ℚ) = -((a : ℚ) / ((-b : ℤ) : ℚ)) := by
      push_cast
      rw [div_neg, neg_neg]
    rw [e, truncQ_neg, h, Int.tdiv_neg, neg_neg]
  · have h := truncQ_div_nonneg (-a) b (by omega) hb
    have e : (a : ℚ) / (b : ℚ) = -(((-a : ℤ) : ℚ) / (b : ℚ)) := by
      push_cast
      rw [neg_div, neg_neg]
    rw [e, truncQ_neg, h, Int.neg_tdiv, neg_neg]
  · have h := truncQ_div_nonneg (-a) (-b) (by omega) (by omega)
    have e : (a : ℚ) / (b : ℚ) = ((-a : ℤ) : ℚ) / ((-b : ℤ) : ℚ) := by
      push_cast
      rw [neg_div_neg_eq]
    rw [e, h, Int.neg_tdiv_neg]


/-- For operands of magnitude up to `2 ^ 26`, the `f64` round trip of
`IntDiv` (`(a as f64 / b as f64) as i64`) is exact truncated division. -/
theorem F64_intdiv_exact (a b : ℤ) (ha : a.natAbs ≤ 2 ^ 26) (hb : b.natAbs ≤ 2 ^ 26)
    (hb0 : b ≠ 0) :
    F64.toI64 (F64.div (F64.ofInt a) (F64.ofInt b)) = a.tdiv b := by
  have hofa : F64.ofInt a = .finite (a : ℚ) :=
    roundRat_int_exact a (le_trans ha (by norm_num))
  have hofb : F64.ofInt b = .finite (b : ℚ) :=
    roundRat_int_exact b (le_trans hb (by norm_num))
  rw [F64.ofInt, F64.ofInt] at *
  rw [hofa, hofb]
  have hbq : ((b : ℚ)) ≠ 0 := Int.cast_ne_zero.mpr hb0
  have hdiv : F64.div (.finite (a : ℚ)) (.finite (b : ℚ)) = roundRat ((a : ℚ) / (b : ℚ)) := by
    show (if (b : ℚ) = 0 then (if (a : ℚ) = 0 then F64.nan
          else if 0 < (a : ℚ) then F64.posInf else F64.negInf)
        else roundRat ((a : ℚ) / (b : ℚ))) = _
    rw [if_neg hbq]
  rw [hdiv]
  by_cases ha0 : a = 0
  · subst ha0
    have e0 : (((0 : ℤ) : ℚ)) / (b : ℚ) = 0 := by norm_num
    rw [e0]
    have : roundRat 0 = .finite 0 := by norm_num [roundRat]
    rw [this]
    show max (-(2 ^ 63)) (min (2 ^ 63 - 1) (truncQ 0)) = Int.tdiv 0 b
    have ht : truncQ 0 = 0 := by norm_num [truncQ]
    rw [ht, Int.zero_tdiv]
    norm_num
  · set q : ℚ := (a : ℚ) / (b : ℚ) with hqdef
    have hq0 : q ≠ 0 := div_ne_zero (Int.cast_ne_zero.mpr ha0) hbq
    have habspos : (0 : ℚ) < |(b : ℚ)| := abs_pos.mpr hbq
    have hb1 : (1 : ℚ) ≤ |(b : ℚ)| := by
      rw [← Int.cast_abs]
      exact_mod_cast Int.one_le_abs hb0
    have ha1 : (1 : ℚ) ≤ |(a : ℚ)| := by
      rw [← Int.cast_abs]
      exact_mod_cast Int.one_le_abs ha0
    have haqle : |(a : ℚ)| ≤ qpow2 26 := by
      rw [← Int.cast_abs, show (26 : ℤ) = ((26 : ℕ) : ℤ) by norm_num, qpow2_natCast]
      exact_mod_cast (by rw [Int.abs_eq_natAbs]; exact_mod_cast ha : |a| ≤ (2 ^ 26 : ℤ))
    have hbqle : |(b : ℚ)| ≤ qpow2 26 := by
      rw [← Int.cast_abs, show (26 : ℤ) = ((26 : ℕ) : ℤ) by norm_num, qpow2_natCast]
      exact_mod_cast (by rw [Int.abs_eq_natAbs]; exact_mod_cast hb : |b| ≤ (2 ^ 26 : ℤ))
    have haq : 0 < |q| := abs_pos.mpr hq0
    have habq : |q| = |(a : ℚ)| / |(b : ℚ)| := by rw [hqdef, abs_div]
    have hqu : |q| ≤ qpow2 26 := by
      rw [habq]
      calc |(a : ℚ)| / |(b : ℚ)| ≤ |(a : ℚ)| / 1 := by
            exact div_le_div_of_nonneg_left (abs_nonneg _) (by norm_num) hb1
        _ = |(a : ℚ)| := by norm_num
        _ ≤ qpow2 26 := haqle
    have hql : qpow2 (-26) ≤ |q| := by
      have e26 : qpow2 (-26 : ℤ) = 1 / qpow2 26 := by
        rw [qpow2_eq_zpow, qpow2_eq_zpow, zpow_neg, one_div]
      rw [habq, e26, div_le_div_iff (qpow2_pos 26) habspos]
      nlinarith [qpow2_pos (26 : ℤ)]
    have he_l : (-26 : ℤ) ≤ flog2 |q| := le_flog2_of_le haq hql
    have he_u : flog2 |q| ≤ 26 := flog2_le_of_le haq hqu
    have hsmall : |q| ≤ qpow2 60 := le_trans hqu (qpow2_le_qpow2 (by norm_num))
    obtain ⟨r, hrr, herr⟩ := roundRat_finite_close q hq0 hsmall
    have herr2 : |r - q| ≤ qpow2 (-27) := by
      refine le_trans herr (qpow2_le_qpow2 ?_)
      have hmx : max (flog2 |q| - 52) (-1074) = flog2 |q| - 52 := max_eq_left (by omega)
      rw [hmx]
      omega
    rw [hrr]
    show max (-(2 ^ 63)) (min (2 ^ 63 - 1) (truncQ r)) = a.tdiv b
    -- q is off every integer by at least 2^-26 in the non-divisible case
    by_cases hdvd : b ∣ a
    · -- exact division never reaches this branch with r from rounding;
      -- handled separately below (q is the integer a/b)
      obtain ⟨c, hc⟩ := hdvd
      have hcq : q = (c : ℚ) := by
        rw [hqdef, hc]
        push_cast
        field_simp
      have hcabs : c.natAbs ≤ 2 ^ 52 := by
        have he : a.natAbs = b.natAbs * c.natAbs := by rw [hc, Int.natAbs_mul]
        have hbpos : 1 ≤ b.natAbs := Int.natAbs_pos.mpr hb0
        have : c.natAbs ≤ a.natAbs := by
          rw [he]
          exact Nat.le_mul_of_pos_left _ (by omega)
        calc c.natAbs ≤ a.natAbs := this
          _ ≤ 2 ^ 26 := ha
          _ ≤ 2 ^ 52 := by norm_num
      have : roundRat q = .finite (c : ℚ) := by rw [hcq]; exact roundRat_int_exact c hcabs
      rw [hrr] at this
      have hrc : r = (c : ℚ) := by
        injection this
      rw [hrc, truncQ_intCast]
      have htd : a.tdiv b = c := by
        rw [hc]
        exact Int.mul_tdiv_cancel_left c hb0
      rw [htd]
      have hcb : -(2 ^ 52 : ℤ) ≤ c ∧ c ≤ 2 ^ 52 := by omega
      rw [min_eq_right (by omega), max_eq_right (by omega)]
    · have hint_gap : ∀ z : ℤ, (z : ℚ) ≠ q → qpow2 (-26) ≤ |q - (z : ℚ)| := by
        intro z hz
        have e : q - (z : ℚ) = ((a - z * b : ℤ) : ℚ) / (b : ℚ) := by
          rw [hqdef]
          push_cast
          field_simp
          ring
        have hnum0 : a - z * b ≠ 0 := by
          intro h0
          apply hz
          rw [hqdef]
          have haz : a = z * b := by omega
          rw [haz]
          push_cast
          field_simp
        have h1q : (1 : ℚ) ≤ |((a - z * b : ℤ) : ℚ)| := by
          rw [← Int.cast_abs]
          exact_mod_cast Int.one_le_abs hnum0
        have e26 : qpow2 (-26 : ℤ) = 1 / qpow2 26 := by
          rw [qpow2_eq_zpow, qpow2_eq_zpow, zpow_neg, one_div]
        rw [e, abs_div, e26, div_le_div_iff (qpow2_pos 26) habspos]
        nlinarith [qpow2_pos (26 : ℤ)]
      have hfl : (⌊q⌋ : ℚ) ≠ q := by
        intro hcontra
        apply hdvd
        have : (a : ℚ) = (⌊q⌋ : ℚ) * (b : ℚ) := by
          rw [hqdef] at hcontra
          field_simp at hcontra
          linarith [hcontra]
        exact ⟨⌊q⌋, by exact_mod_cast (by linarith [this] : (a : ℚ) = (b : ℚ) * (⌊q⌋ : ℚ))⟩
      have hcl : (⌈q⌉ : ℚ) ≠ q := by
        intro hcontra
        apply hdvd
        have : (a : ℚ) = (⌈q⌉ : ℚ) * (b : ℚ) := by
          rw [hqdef] at hcontra
          field_simp at hcontra
          linarith [hcontra]
        exact ⟨⌈q⌉, by exact_mod_cast (by linarith [this] : (a : ℚ) = (b : ℚ) * (⌈q⌉ : ℚ))⟩
      have hflo : (⌊q⌋ : ℚ) + qpow2 (-26) ≤ q := by
        have hg := hint_gap ⌊q⌋ hfl
        have hle : (⌊q⌋ : ℚ) ≤ q := Int.floor_le q
        rw [abs_of_nonneg (by linarith)] at hg
        linarith
      have hcei : q + qpow2 (-26) ≤ (⌈q⌉ : ℚ) := by
        have hg := hint_gap ⌈q⌉ hcl
        have hle : q ≤ (⌈q⌉ : ℚ) := Int.le_ceil q
        rw [abs_of_nonpos (by linarith)] at hg
        linarith
      have hceq : ⌈q⌉ = ⌊q⌋ + 1 := by
        have h1 : ⌈q⌉ ≤ ⌊q⌋ + 1 := Int.ceil_le_floor_add_one q
        have h2 : (⌊q⌋ : ℚ) < q := lt_of_le_of_ne (Int.floor_le q) (by exact hfl)
        have h3 : q ≤ (⌈q⌉ : ℚ) := Int.le_ceil q
        have h4 : (⌊q⌋ : ℚ) < (⌈q⌉ : ℚ) := lt_of_lt_of_le h2 h3
        have h5 : ⌊q⌋ < ⌈q⌉ := by exact_mod_cast h4
        omega
      have h2627 : qpow2 (-27 : ℤ) < qpow2 (-26 : ℤ) := qpow2_lt_qpow2_iff.mpr (by norm_num)
      obtain ⟨herrl, herru⟩ := abs_le.mp herr2
      have hfr : ⌊r⌋ = ⌊q⌋ := by
        rw [Int.floor_eq_iff]
        constructor
        · linarith
        · have : (⌊q⌋ : ℚ) + 1 = (⌈q⌉ : ℚ) := by
            rw [hceq]
            push_cast
            ring
          push_cast
          linarith
      have hcr : ⌈r⌉ = ⌈q⌉ := by
        rw [Int.ceil_eq_iff]
        constructor
        · have : (⌈q⌉ : ℚ) - 1 = (⌊q⌋ : ℚ) := by
            rw [hceq]
            push_cast
            ring
          push_cast
          linarith
        · linarith
      rw [truncQ_eq_of_floor_ceil hfr hcr]
      have htq : truncQ q = a.tdiv b := by
        rw [hqdef]
        exact truncQ_intCast_div a b
      rw [htq]
      have hbound : a.tdiv b = a.tdiv b := rfl
      have habs_td : (a.tdiv b).natAbs = a.natAbs / b.natAbs := Int.natAbs_tdiv a b
      have h1 : (a.tdiv b).natAbs ≤ 2 ^ 26 := by
        rw [habs_td]
        calc a.natAbs / b.natAbs ≤ a.natAbs := Nat.div_le_self _ _
          _ ≤ 2 ^ 26 := ha
      have h2 : (2 : ℤ) ^ 26 ≤ 2 ^ 63 - 1 := by norm_num
      have h3 : -(2 ^ 63 : ℤ) ≤ -(2 ^ 26 : ℤ) := by norm_num
      rw [min_eq_right (by omega), max_eq_right (by omega)]

/-- C4: the claim is refuted by the code.  `IntDiv` **always** returns an
Integer: on the Float `7.5` and the Integer `2` it yields the Integer `3`,
not a Float (first two conjuncts).  Moreover the Integer/Integer case runs
through `f64` division (`(a as f64 / b as f64) as i64`), so beyond 53 bits
it is not the exact truncated quotient: `13510798882111490 intdiv 3`
yields `4503599627370497`, while the truncated quotient is
`4503599627370496` (last three conjuncts). -/
theorem c4_intdiv_always_integer_and_drifts :
    roundRat ((15 : ℚ) / 2) = .finite (15 / 2) ∧
    Value.operate (.float (roundRat ((15 : ℚ) / 2))) (.integer 2) .intDiv
      = .ok (.integer 3) ∧
    Value.operate (.integer 13510798882111490) (.integer 3) .intDiv
      = .ok (.integer 4503599627370497) ∧
    Int.tdiv 13510798882111490 3 = 4503599627370496 ∧
    (4503599627370497 : ℤ) ≠ 4503599627370496 :=
  ⟨rfl, rfl, rfl, by decide, by decide⟩

/-- C4 (amended): `IntDiv` always wraps the truncated `f64` quotient back
into an **Integer**, whatever the operand types (conjuncts 2-4), and
`FloatDiv` always returns a Float (conjuncts 5-6).  On Integer operands
`IntDiv` computes `(a as f64 / b as f64) as i64`, which equals the exact
quotient truncated toward zero whenever both operands fit in 26 bits
(conjunct 1) - but not in general, see the counterexample. -/
theorem c4_division_semantics :
    (∀ a b : ℤ, a.natAbs ≤ 2 ^ 26 → b.natAbs ≤ 2 ^ 26 → b ≠ 0 →
        Value.operate (.integer a) (.integer b) .intDiv = .ok (.integer (a.tdiv b))) ∧
    (∀ f g : F64, Value.operate (.float f) (.float g) .intDiv
        = .ok (.integer (F64.toI64 (F64.div f g)))) ∧
    (∀ (a : ℤ) (g : F64), Value.operate (.integer a) (.float g) .intDiv
        = .ok (.integer (F64.toI64 (F64.div (F64.ofInt a) g)))) ∧
    (∀ (f : F64) (b : ℤ), Value.operate (.float f) (.integer b) .intDiv
        = .ok (.integer (F64.toI64 (F64.div f (F64.ofInt b))))) ∧
    (∀ a b : ℤ, Value.operate (.integer a) (.integer b) .floatDiv
        = .ok (.float (F64.div (F64.ofInt a) (F64.ofInt b)))) ∧
    (∀ f g : F64, Value.operate (.float f) (.float g) .floatDiv
        = .ok (.float (F64.div f g))) := by
  refine ⟨?_, fun _ _ => rfl, fun _ _ => rfl, fun _ _ => rfl, fun _ _ => rfl, fun _ _ => rfl⟩
  intro a b ha hb hb0
  show OpOut.ok (.integer (F64.toI64 (F64.div (F64.ofInt a) (F64.ofInt b))))
    = .ok (.integer (a.tdiv b))
  rw [F64_intdiv_exact a b ha hb hb0]

/-- Witness for `c4_division_semantics`: `-7 intdiv 2` truncates toward
zero to `-3`. -/
theorem c4_division_witness :
    Value.operate (.integer (-7)) (.integer 2) .intDiv
      = .ok (.integer (Int.tdiv (-7) 2)) ∧
    Int.tdiv (-7) 2 = -3 :=
  ⟨c4_division_semantics.1 (-7) 2 (by decide) (by decide) (by decide), by decide⟩

/-! ## Jump-target well-formedness of generated code (claim C6) -/

mutual

/-- One operation at position `p` of a complete sequence of length `L`:
every jump target is strictly inside the sequence, and every function
literal's body is well-formed in turn. -/
def strictOkC : ℕ → ℕ → Code → Bool
  | L, p, .goto off => decide (0 ≤ (p : ℤ) + off) && decide ((p : ℤ) + off < (L : ℤ))
  | L, p, .jump off => decide (0 ≤ (p : ℤ) + off) && decide ((p : ℤ) + off < (L : ℤ))
  | L, p, .jumpNot off => decide (0 ≤ (p : ℤ) + off) && decide ((p : ℤ) + off < (L : ℤ))
  | _, _, .pushFun _ f => strictOkL f.length 0 f
  | _, _, _ => true

/-- All operations from position `p` on. -/
def strictOkL : ℕ → ℕ → List Code → Bool
  | _, _, [] => true
  | L, p, c :: rest => strictOkC L p c && strictOkL L (p + 1) rest

end

/-- A complete code sequence is jump-wellformed: every `Goto`/`Jump`/`JumpNot`
at any position (including inside nested function bodies) has a target `t`
with `0 ≤ t < length` of its enclosing sequence. -/
def wfJumps (cs : List Code) : Bool := strictOkL cs.length 0 cs

/-- One operation at position `p` of a **fragment** destined for a sequence
of length `L`: jump targets may also be `L` itself (one past the end —
the fragments emitted for `if`, `while`, `&&`, `||` jump to the position
immediately after themselves, which exists once the fragment is inside a
larger sequence ending in the implicit `PushNone; Return`). -/
def SlackOk (L p : ℕ) : Code → Prop
  | .goto off => 0 ≤ (p : ℤ) + off ∧ (p : ℤ) + off ≤ (L : ℤ)
  | .jump off => 0 ≤ (p : ℤ) + off ∧ (p : ℤ) + off ≤ (L : ℤ)
  | .jumpNot off => 0 ≤ (p : ℤ) + off ∧ (p : ℤ) + off ≤ (L : ℤ)
  | .pushFun _ f => wfJumps f = true
  | _ => True

/-- The fragment `cs`, placed at offset `d` of an ambient sequence of
length `L`, has all its jumps inside `[0, L]`. -/
def AOk (d L : ℕ) (cs : List Code) : Prop :=
  ∀ p c, List.get? cs p = some c → SlackOk L (d + p) c

/-- A fragment standing alone: targets within `[0, length]`. -/
def FragOk (cs : List Code) : Prop := AOk 0 cs.length cs

theorem SlackOk_mono {L L2 p : ℕ} {c : Code} (hle : L ≤ L2) (h : SlackOk L p c) :
    SlackOk L2 p c := by
  cases c <;> simp only [SlackOk] at h ⊢ <;> try exact h
  all_goals exact ⟨h.1, by omega⟩

theorem SlackOk_shift {L p : ℕ} {c : Code} (d : ℕ) (h : SlackOk L p c) :
    SlackOk (d + L) (d + p) c := by
  cases c <;> simp only [SlackOk] at h ⊢ <;> try exact h
  all_goals push_cast <;> constructor <;> push_cast at h <;> omega

theorem AOk_nil {d L : ℕ} : AOk d L [] := by
  intro p c h
  simp at h

theorem AOk_of_FragOk {d L : ℕ} {cs : List Code} (h : FragOk cs)
    (hle : d + cs.length ≤ L) : AOk d L cs := by
  intro p c hp
  have h1 := h p c hp
  rw [Nat.zero_add] at h1
  have h2 := SlackOk_shift d h1
  exact SlackOk_mono hle h2

theorem AOk_append {d L : ℕ} {a b : List Code} (ha : AOk d L a)
    (hb : AOk (d + a.length) L b) : AOk d L (a ++ b) := by
  intro p c hp
  by_cases h : p < a.length
  · rw [List.get?_append h] at hp
    exact ha p c hp
  · rw [List.get?_append_right (le_of_not_lt h)] at hp
    have h2 := hb (p - a.length) c hp
    have e : d + a.length + (p - a.length) = d + p := by omega
    rw [e] at h2
    exact h2

theorem AOk_cons {d L : ℕ} {c : Code} {cs : List Code} (hc : SlackOk L d c)
    (hcs : AOk (d + 1) L cs) : AOk d L (c :: cs) := by
  intro p c2 hp
  cases p with
  | zero =>
      injection hp with hp2
      subst hp2
      simpa using hc
  | succ n =>
      have h2 := hcs n c2 hp
      have e : d + 1 + n = d + (n + 1) := by omega
      rw [e] at h2
      exact h2

theorem AOk_single {d L : ℕ} {c : Code} (hc : SlackOk L d c) : AOk d L [c] :=
  AOk_cons hc AOk_nil

theorem FragOk_nil : FragOk ([] : List Code) := AOk_nil

/-- Operations that are neither jumps nor function pushes. -/
def plainC : Code → Bool
  | .goto _ => false
  | .jump _ => false
  | .jumpNot _ => false
  | .pushFun _ _ => false
  | _ => true

theorem SlackOk_of_plain {L p : ℕ} {c : Code} (h : plainC c = true) : SlackOk L p c := by
  cases c <;> first | trivial | exact absurd h (by simp [plainC])

theorem AOk_of_plain {d L : ℕ} {cs : List Code} (h : ∀ c ∈ cs, plainC c = true) :
    AOk d L cs := by
  intro p c hp
  exact SlackOk_of_plain (h c (List.get?_mem hp))

/-- The characterisation of `strictOkL` by positions. -/
theorem strictOkL_iff (cs : List Code) : ∀ (L p : ℕ),
    strictOkL L p cs = true ↔
      ∀ i c, List.get? cs i = some c → strictOkC L (p + i) c = true := by
  induction cs with
  | nil =>
      intro L p
      constructor
      · intro _ i c h
        simp at h
      · intro _
        rfl
  | cons c rest ih =>
      intro L p
      show (strictOkC L p c && strictOkL L (p + 1) rest) = true ↔ _
      rw [Bool.and_eq_true, ih L (p + 1)]
      constructor
      · rintro ⟨h1, h2⟩ i c2 hi
        cases i with
        | zero =>
            injection hi with hi2
            subst hi2
            simpa using h1
        | succ n =>
            have := h2 n c2 hi
            have e : p + 1 + n = p + (n + 1) := by omega
            rw [e] at this
            exact this
      · intro h
        refine ⟨by simpa using h 0 c rfl, ?_⟩
        intro n c2 hn
        have := h (n + 1) c2 hn
        have e : p + (n + 1) = p + 1 + n := by omega
        rw [e] at this
        exact this

theorem strictOkC_of_SlackOk {L L2 p : ℕ} {c : Code} (h : SlackOk L p c) (hlt : L < L2) :
    strictOkC L2 p c = true := by
  cases c <;> simp only [SlackOk] at h <;> try rfl
  case goto off =>
    show (decide (0 ≤ (p : ℤ) + off) && decide ((p : ℤ) + off < (L2 : ℤ))) = true
    simp only [Bool.and_eq_true, decide_eq_true_eq]
    exact ⟨h.1, by omega⟩
  case jump off =>
    show (decide (0 ≤ (p : ℤ) + off) && decide ((p : ℤ) + off < (L2 : ℤ))) = true
    simp only [Bool.and_eq_true, decide_eq_true_eq]
    exact ⟨h.1, by omega⟩
  case jumpNot off =>
    show (decide (0 ≤ (p : ℤ) + off) && decide ((p : ℤ) + off < (L2 : ℤ))) = true
    simp only [Bool.and_eq_true, decide_eq_true_eq]
    exact ⟨h.1, by omega⟩
  case pushFun args f =>
    exact h

/-- Appending the implicit `PushNone; Return` completes a fragment into a
jump-wellformed sequence. -/
theorem wfJumps_of_FragOk {cs : List Code} (h : FragOk cs) :
    wfJumps (cs ++ [.pushNone, .ret]) = true := by
  show strictOkL (cs ++ [Code.pushNone, Code.ret]).length 0 (cs ++ [Code.pushNone, Code.ret])
    = true
  rw [strictOkL_iff]
  intro i c hi
  rw [List.length_append]
  by_cases hlt : i < cs.length
  · rw [List.get?_append hlt] at hi
    have h2 := h i c hi
    simp only [Nat.zero_add] at h2 ⊢
    exact strictOkC_of_SlackOk h2 (by simp only [List.length_cons, List.length_nil]; omega)
  · rw [List.get?_append_right (le_of_not_lt hlt)] at hi
    rcases hm : i - cs.length with _ | m
    · rw [hm] at hi
      injection hi with hi2
      subst hi2
      rfl
    · rcases m with _ | m2
      · rw [hm] at hi
        injection hi with hi2
        subst hi2
        rfl
      · rw [hm] at hi
        simp at hi


theorem FragOk_append {a b : List Code} (ha : FragOk a) (hb : FragOk b) :
    FragOk (a ++ b) := by
  show AOk 0 (a ++ b).length (a ++ b)
  rw [List.length_append]
  refine AOk_append (AOk_of_FragOk ha (by omega)) ?_
  rw [Nat.zero_add]
  exact AOk_of_FragOk hb (by omega)

theorem FragOk_of_plain {cs : List Code} (h : ∀ c ∈ cs, plainC c = true) : FragOk cs :=
  AOk_of_plain h

theorem AOk_congr {d d2 L : ℕ} {cs : List Code} (h : AOk d L cs) (he : d2 = d) :
    AOk d2 L cs := by rw [he]; exact h

theorem AOk_append_at {d L d1 : ℕ} {a b : List Code} (ha : AOk d L a)
    (h1 : d1 = d + a.length) (hb : AOk d1 L b) : AOk d L (a ++ b) :=
  AOk_append ha (AOk_congr hb h1.symm)

theorem AOk_append3_at {d L d1 d2 : ℕ} {a b c : List Code} (ha : AOk d L a)
    (h1 : d1 = d + a.length) (hb : AOk d1 L b)
    (h2 : d2 = d1 + b.length) (hc : AOk d2 L c) : AOk d L (a ++ b ++ c) :=
  AOk_append_at (AOk_append_at ha h1 hb)
    (by rw [List.length_append]; omega) hc

theorem AOk_append4_at {d L d1 d2 d3 : ℕ} {a b c e : List Code} (ha : AOk d L a)
    (h1 : d1 = d + a.length) (hb : AOk d1 L b)
    (h2 : d2 = d1 + b.length) (hc : AOk d2 L c)
    (h3 : d3 = d2 + c.length) (he : AOk d3 L e) : AOk d L (a ++ b ++ c ++ e) :=
  AOk_append_at (AOk_append3_at ha h1 hb h2 hc)
    (by simp only [List.length_append]; omega) he

theorem AOk_append5_at {d L d1 d2 d3 d4 : ℕ} {a b c e f : List Code} (ha : AOk d L a)
    (h1 : d1 = d + a.length) (hb : AOk d1 L b)
    (h2 : d2 = d1 + b.length) (hc : AOk d2 L c)
    (h3 : d3 = d2 + c.length) (he : AOk d3 L e)
    (h4 : d4 = d3 + e.length) (hf : AOk d4 L f) : AOk d L (a ++ b ++ c ++ e ++ f) :=
  AOk_append_at (AOk_append4_at ha h1 hb h2 hc h3 he)
    (by simp only [List.length_append]; omega) hf

/-- Every operation `push_integer` emits is a plain push. -/
theorem pushIntegerOp_plain (i : ℕ) : ∀ c ∈ pushIntegerOp i, plainC c = true := by
  intro c hc
  unfold pushIntegerOp at hc
  split_ifs at hc <;> simp only [List.mem_cons, List.mem_singleton, List.not_mem_nil] at hc <;>
    first
      | (rcases hc with hc | hc
         · subst hc; rfl
         · exact absurd hc (by simp))
      | exact absurd hc (by simp)

/-- What one backpatch does: the patched position now holds the break jump
(`Goto 0` case) or the continue jump (`Goto 1` case); every other position
is untouched. -/
theorem patchOne_spec {bs cs : ℕ} {body out : List Code} {p : ℕ}
    (h : patchOne bs cs body p = some out) :
    out.length = body.length ∧
    ∀ i, out.get? i = body.get? i ∨
      out.get? i = some (.goto ((bs : ℤ) - (i : ℤ) + 1)) ∨
      out.get? i = some (.goto (-((i : ℤ) + 1 + (cs : ℤ)))) := by
  unfold patchOne at h
  split at h
  · next hbp =>
      injection h with h2
      subst h2
      refine ⟨List.length_set body p _, ?_⟩
      intro i
      by_cases hip : p = i
      · subst hip
        by_cases hplen : p < body.length
        · right
          left
          rw [List.get?_set_eq_of_lt _ hplen]
        · left
          rw [List.set_eq_of_length_le (le_of_not_lt hplen)]
      · left
        exact List.get?_set_ne _ _ hip
  · next hbp =>
      injection h with h2
      subst h2
      refine ⟨List.length_set body p _, ?_⟩
      intro i
      by_cases hip : p = i
      · subst hip
        by_cases hplen : p < body.length
        · right
          right
          rw [List.get?_set_eq_of_lt _ hplen]
        · left
          rw [List.set_eq_of_length_le (le_of_not_lt hplen)]
      · left
        exact List.get?_set_ne _ _ hip
  · cases h

/-- What the whole backpatching loop does. -/
theorem patchBreaks_spec : ∀ (ps : List ℕ) {bs cs : ℕ} {body out : List Code},
    patchBreaks bs cs body ps = some out →
    out.length = body.length ∧
    ∀ i, out.get? i = body.get? i ∨
      out.get? i = some (.goto ((bs : ℤ) - (i : ℤ) + 1)) ∨
      out.get? i = some (.goto (-((i : ℤ) + 1 + (cs : ℤ)))) := by
  intro ps
  induction ps with
  | nil =>
      intro bs cs body out h
      injection h with h2
      subst h2
      exact ⟨rfl, fun i => Or.inl rfl⟩
  | cons p rest ih =>
      intro bs cs body out h
      have hstep : (do
          let b1 ← patchOne bs cs body p
          patchBreaks bs cs b1 rest : Option (List Code)) = some out := h
      cases hp : patchOne bs cs body p with
      | none => rw [hp] at hstep; cases hstep
      | some b1 =>
          rw [hp] at hstep
          have hrest : patchBreaks bs cs b1 rest = some out := hstep
          obtain ⟨hl1, hs1⟩ := patchOne_spec hp
          obtain ⟨hl2, hs2⟩ := ih hrest
          refine ⟨by omega, ?_⟩
          intro i
          rcases hs2 i with h2 | h2 | h2
          · rcases hs1 i with h1 | h1 | h1
            · exact Or.inl (h2.trans h1)
            · exact Or.inr (Or.inl (h2.trans h1))
            · exact Or.inr (Or.inr (h2.trans h1))
          · exact Or.inr (Or.inl h2)
          · exact Or.inr (Or.inr h2)

/-- The assembled `while` fragment: the exit jump and the patched break
jumps target one past the end, the patched continue jumps and the
trailing back jump target the condition at `0`, and the body's own jumps
stay inside. -/
theorem FragOk_while {cc cb cb2 : List Code} {bps : List ℕ} (hc : FragOk cc)
    (hb : FragOk cb) (hpatch : patchBreaks cb.length cc.length cb bps = some cb2) :
    FragOk (cc ++ [.jumpNot ((cb.length : ℤ) + 2)] ++ cb2
      ++ [.goto (-((cb.length : ℤ) + (cc.length : ℤ) + 1))]) := by
  obtain ⟨hlen, hspec⟩ := patchBreaks_spec bps hpatch
  show AOk 0 _ _
  have hL : (cc ++ [Code.jumpNot ((cb.length : ℤ) + 2)] ++ cb2
      ++ [Code.goto (-((cb.length : ℤ) + (cc.length : ℤ) + 1))]).length
      = cc.length + 1 + cb.length + 1 := by
    simp only [List.length_append, List.length_cons, List.length_nil]
    try omega
  rw [hL]
  set L : ℕ := cc.length + 1 + cb.length + 1 with hLdef
  refine AOk_append4_at (AOk_of_FragOk hc (by omega))
    (by omega : cc.length = 0 + cc.length) ?_
    (by simp : cc.length + 1 = cc.length + [Code.jumpNot ((cb.length : ℤ) + 2)].length) ?_
    (by omega : cc.length + 1 + cb.length = cc.length + 1 + cb2.length) ?_
  · refine AOk_single ?_
    show 0 ≤ (cc.length : ℤ) + ((cb.length : ℤ) + 2) ∧
      (cc.length : ℤ) + ((cb.length : ℤ) + 2) ≤ (L : ℤ)
    push_cast
    omega
  · intro p x hp
    rcases hspec p with hcase | hcase | hcase
    · rw [hcase] at hp
      have h1 := hb p x hp
      rw [Nat.zero_add] at h1
      have h2 := SlackOk_shift (cc.length + 1) h1
      refine SlackOk_mono (show cc.length + 1 + cb.length ≤ L by omega) h2
    · rw [hcase] at hp
      injection hp with hp2
      subst hp2
      show 0 ≤ ((cc.length + 1 + p : ℕ) : ℤ) + ((cb.length : ℤ) - (p : ℤ) + 1) ∧
        ((cc.length + 1 + p : ℕ) : ℤ) + ((cb.length : ℤ) - (p : ℤ) + 1) ≤ (L : ℤ)
      push_cast
      omega
    · rw [hcase] at hp
      injection hp with hp2
      subst hp2
      show 0 ≤ ((cc.length + 1 + p : ℕ) : ℤ) + -((p : ℤ) + 1 + (cc.length : ℤ)) ∧
        ((cc.length + 1 + p : ℕ) : ℤ) + -((p : ℤ) + 1 + (cc.length : ℤ)) ≤ (L : ℤ)
      push_cast
      omega
  · refine AOk_single ?_
    show 0 ≤ ((cc.length + 1 + cb.length : ℕ) : ℤ)
        + -((cb.length : ℤ) + (cc.length : ℤ) + 1) ∧
      ((cc.length + 1 + cb.length : ℕ) : ℤ)
        + -((cb.length : ℤ) + (cc.length : ℤ) + 1) ≤ (L : ℤ)
    push_cast
    omega


theorem accum2_ok {α β : Type} {x : GenRes α} {y : GenRes β} {p : α × β}
    (h : accum2 x y = .ok p) : x = .ok p.1 ∧ y = .ok p.2 := by
  cases x with
  | ok a =>
      cases y with
      | ok b =>
          injection h with h2
          subst h2
          exact ⟨rfl, rfl⟩
      | fail e => cases h
      | crash => cases h
  | fail e =>
      cases y with
      | ok b => cases h
      | fail e2 => cases h
      | crash => cases h
  | crash => cases y <;> cases h

theorem map_ok {α β : Type} {f : α → β} {x : GenRes α} {b : β}
    (h : GenRes.map f x = .ok b) : ∃ a, x = .ok a ∧ b = f a := by
  cases x with
  | ok a =>
      injection h with h2
      exact ⟨a, rfl, h2.symm⟩
  | fail e => cases h
  | crash => cases h

theorem FragOk_cons_plain {c : Code} {cs : List Code} (hc : plainC c = true)
    (hcs : FragOk cs) : FragOk (c :: cs) := by
  show AOk 0 (c :: cs).length (c :: cs)
  rw [List.length_cons]
  refine AOk_cons (SlackOk_of_plain hc) ?_
  rw [Nat.zero_add]
  exact AOk_of_FragOk hcs (by omega)

/-- The assembled `if` (no else) fragment: the exit jump targets one past
the end. -/
theorem FragOk_ifNoElse {cc cb : List Code} (hc : FragOk cc) (hb : FragOk cb) :
    FragOk (cc ++ [.jumpNot ((cb.length : ℤ) + 1)] ++ cb) := by
  show AOk 0 _ _
  have hL : (cc ++ [Code.jumpNot ((cb.length : ℤ) + 1)] ++ cb).length
      = cc.length + 1 + cb.length := by
    simp only [List.length_append, List.length_cons, List.length_nil]
    try omega
  rw [hL]
  refine AOk_append3_at (AOk_of_FragOk hc (by omega))
    (by omega : cc.length = 0 + cc.length) (AOk_single ?_)
    (by simp : cc.length + 1 = cc.length + [Code.jumpNot ((cb.length : ℤ) + 1)].length)
    (AOk_of_FragOk hb (by omega))
  show 0 ≤ (cc.length : ℤ) + ((cb.length : ℤ) + 1) ∧
    (cc.length : ℤ) + ((cb.length : ℤ) + 1) ≤ ((cc.length + 1 + cb.length : ℕ) : ℤ)
  push_cast
  omega

/-- The assembled `if`/`else` fragment: the else jump targets the else
branch, the then-exit jump targets one past the end. -/
theorem FragOk_ifElse {cc cb ce : List Code} (hc : FragOk cc) (hb : FragOk cb)
    (he : FragOk ce) :
    FragOk (cc ++ [.jumpNot ((cb.length : ℤ) + 2)] ++ cb
      ++ [.goto ((ce.length : ℤ) + 1)] ++ ce) := by
  show AOk 0 _ _
  have hL : (cc ++ [Code.jumpNot ((cb.length : ℤ) + 2)] ++ cb
      ++ [Code.goto ((ce.length : ℤ) + 1)] ++ ce).length
      = cc.length + 1 + cb.length + 1 + ce.length := by
    simp only [List.length_append, List.length_cons, List.length_nil]
    try omega
  rw [hL]
  set L : ℕ := cc.length + 1 + cb.length + 1 + ce.length with hLdef
  refine AOk_append5_at (AOk_of_FragOk hc (by omega))
    (by omega : cc.length = 0 + cc.length) (AOk_single ?_)
    (by simp : cc.length + 1 = cc.length + [Code.jumpNot ((cb.length : ℤ) + 2)].length)
    (AOk_of_FragOk hb (by omega))
    (by omega : cc.length + 1 + cb.length = cc.length + 1 + cb.length) (AOk_single ?_)
    (by simp : cc.length + 1 + cb.length + 1
      = cc.length + 1 + cb.length + [Code.goto ((ce.length : ℤ) + 1)].length)
    (AOk_of_FragOk he (by omega))
  · show 0 ≤ (cc.length : ℤ) + ((cb.length : ℤ) + 2) ∧
      (cc.length : ℤ) + ((cb.length : ℤ) + 2) ≤ (L : ℤ)
    push_cast
    omega
  · show 0 ≤ ((cc.length + 1 + cb.length : ℕ) : ℤ) + ((ce.length : ℤ) + 1) ∧
      ((cc.length + 1 + cb.length : ℕ) : ℤ) + ((ce.length : ℤ) + 1) ≤ (L : ℤ)
    push_cast
    omega

/-- The assembled `&&` fragment. -/
theorem FragOk_boolAnd {cl cr : List Code} (hl : FragOk cl) (hr : FragOk cr) :
    FragOk (cl ++ [.jumpNot ((cr.length : ℤ) + 2)] ++ cr
      ++ [.goto 2, .pushBoolean false]) := by
  show AOk 0 _ _
  have hL : (cl ++ [Code.jumpNot ((cr.length : ℤ) + 2)] ++ cr
      ++ [Code.goto 2, Code.pushBoolean false]).length
      = cl.length + 1 + cr.length + 2 := by
    simp only [List.length_append, List.length_cons, List.length_nil]
    try omega
  rw [hL]
  set L : ℕ := cl.length + 1 + cr.length + 2 with hLdef
  refine AOk_append4_at (AOk_of_FragOk hl (by omega))
    (by omega : cl.length = 0 + cl.length) (AOk_single ?_)
    (by simp : cl.length + 1 = cl.length + [Code.jumpNot ((cr.length : ℤ) + 2)].length)
    (AOk_of_FragOk hr (by omega))
    (by omega : cl.length + 1 + cr.length = cl.length + 1 + cr.length)
    (AOk_cons ?_ (AOk_single (SlackOk_of_plain rfl)))
  · show 0 ≤ (cl.length : ℤ) + ((cr.length : ℤ) + 2) ∧
      (cl.length : ℤ) + ((cr.length : ℤ) + 2) ≤ (L : ℤ)
    push_cast
    omega
  · show 0 ≤ ((cl.length + 1 + cr.length : ℕ) : ℤ) + 2 ∧
      ((cl.length + 1 + cr.length : ℕ) : ℤ) + 2 ≤ (L : ℤ)
    push_cast
    omega

/-- The assembled `||` fragment. -/
theorem FragOk_boolOr {cl cr : List Code} (hl : FragOk cl) (hr : FragOk cr) :
    FragOk (cl ++ [.jump ((cr.length : ℤ) + 2)] ++ cr
      ++ [.goto 2, .pushBoolean true]) := by
  show AOk 0 _ _
  have hL : (cl ++ [Code.jump ((cr.length : ℤ) + 2)] ++ cr
      ++ [Code.goto 2, Code.pushBoolean true]).length
      = cl.length + 1 + cr.length + 2 := by
    simp only [List.length_append, List.length_cons, List.length_nil]
    try omega
  rw [hL]
  set L : ℕ := cl.length + 1 + cr.length + 2 with hLdef
  refine AOk_append4_at (AOk_of_FragOk hl (by omega))
    (by omega : cl.length = 0 + cl.length) (AOk_single ?_)
    (by simp : cl.length + 1 = cl.length + [Code.jump ((cr.length : ℤ) + 2)].length)
    (AOk_of_FragOk hr (by omega))
    (by omega : cl.length + 1 + cr.length = cl.length + 1 + cr.length)
    (AOk_cons ?_ (AOk_single (SlackOk_of_plain rfl)))
  · show 0 ≤ (cl.length : ℤ) + ((cr.length : ℤ) + 2) ∧
      (cl.length : ℤ) + ((cr.length : ℤ) + 2) ≤ (L : ℤ)
    push_cast
    omega
  · show 0 ≤ ((cl.length + 1 + cr.length : ℕ) : ℤ) + 2 ∧
      ((cl.length + 1 + cr.length : ℕ) : ℤ) + 2 ≤ (L : ℤ)
    push_cast
    omega


theorem FragOk_single_plain {c : Code} (hc : plainC c = true) : FragOk [c] :=
  FragOk_cons_plain hc FragOk_nil

mutual

/-- Code emitted for an expression is a jump-wellformed fragment. -/
theorem genExpr_fragOk : ∀ (e : Expr) (cs : List Code), genExpr e = .ok cs → FragOk cs := by
  intro e cs h
  cases e with
  | integer v =>
      have h2 : integerPush v = .ok cs := h
      unfold integerPush at h2
      split_ifs at h2 <;> first
        | (injection h2 with h3
           subst h3
           exact FragOk_single_plain rfl)
        | cases h2
  | float v =>
      have h2 : GenRes.ok [Code.pushDouble v] = .ok cs := h
      injection h2 with h3
      subst h3
      exact FragOk_single_plain rfl
  | boolean b =>
      have h2 : GenRes.ok [Code.pushBoolean b] = .ok cs := h
      injection h2 with h3
      subst h3
      exact FragOk_single_plain rfl
  | noneE =>
      have h2 : GenRes.ok [Code.pushNone] = .ok cs := h
      injection h2 with h3
      subst h3
      exact FragOk_single_plain rfl
  | string s =>
      have h2 : GenRes.ok [Code.pushString s] = .ok cs := h
      injection h2 with h3
      subst h3
      exact FragOk_single_plain rfl
  | var name =>
      have h2 : GenRes.ok [Code.load name] = .ok cs := h
      injection h2 with h3
      subst h3
      exact FragOk_single_plain rfl
  | unary e2 operator =>
      obtain ⟨a, ha, hcs⟩ := map_ok h
      subst hcs
      refine FragOk_append (genExpr_fragOk e2 a ha) ?_
      cases operator
      · exact FragOk_single_plain rfl
      · exact FragOk_single_plain rfl
  | index e2 i =>
      obtain ⟨p, hp, hcs⟩ := map_ok h
      obtain ⟨hl, hr⟩ := accum2_ok hp
      obtain ⟨ce, ci⟩ := p
      subst hcs
      exact FragOk_append (FragOk_append (genExpr_fragOk e2 ce hl) (genExpr_fragOk i ci hr))
        (FragOk_single_plain rfl)
  | callE f args =>
      obtain ⟨p, hp, hcs⟩ := map_ok h
      obtain ⟨hl, hr⟩ := accum2_ok hp
      obtain ⟨ca, cf⟩ := p
      subst hcs
      exact FragOk_append (FragOk_append (genArgs_fragOk args ca hl) (genExpr_fragOk f cf hr))
        (FragOk_single_plain rfl)
  | list elements =>
      obtain ⟨a, ha, hcs⟩ := map_ok h
      subst hcs
      exact FragOk_cons_plain rfl (genListItems_fragOk elements 0 a ha)
  | bendy elements =>
      obtain ⟨a, ha, hcs⟩ := map_ok h
      subst hcs
      exact FragOk_cons_plain rfl (genBendyItems_fragOk elements a ha)
  | function parameters block =>
      have h2 : (match genBlock block with
        | .crash => GenRes.crash
        | .fail e => .fail e
        | .ok (codes, bps) =>
            if bps.isEmpty then
              .ok [Code.pushFun parameters (codes ++ [Code.pushNone, Code.ret])]
            else .fail (bps.map fun _ => CErr.breakOutsideWhile)) = .ok cs := h
      cases hgb : genBlock block with
      | crash => rw [hgb] at h2; cases h2
      | fail e => rw [hgb] at h2; cases h2
      | ok val =>
          obtain ⟨codes, bps⟩ := val
          rw [hgb] at h2
          have h3 : (if bps.isEmpty then
              GenRes.ok [Code.pushFun parameters (codes ++ [Code.pushNone, Code.ret])]
            else GenRes.fail (bps.map fun _ => CErr.breakOutsideWhile)) = .ok cs := h2
          by_cases hbe : bps.isEmpty
          · rw [if_pos hbe] at h3
            injection h3 with h4
            subst h4
            refine AOk_single ?_
            show wfJumps (codes ++ [Code.pushNone, Code.ret]) = true
            exact wfJumps_of_FragOk (genBlock_fragOk block codes bps hgb)
          · rw [if_neg hbe] at h3
            cases h3
  | binary l r operator =>
      cases operator
      case boolAnd =>
        obtain ⟨p, hp, hcs⟩ := map_ok h
        obtain ⟨hl, hr⟩ := accum2_ok hp
        obtain ⟨cl, cr⟩ := p
        subst hcs
        exact FragOk_boolAnd (genExpr_fragOk l cl hl) (genExpr_fragOk r cr hr)
      case boolOr =>
        obtain ⟨p, hp, hcs⟩ := map_ok h
        obtain ⟨hl, hr⟩ := accum2_ok hp
        obtain ⟨cl, cr⟩ := p
        subst hcs
        exact FragOk_boolOr (genExpr_fragOk l cl hl) (genExpr_fragOk r cr hr)
      case access =>
        have h2 : (match genExpr l, r with
          | .crash, _ => GenRes.crash
          | .fail e1, .var _ => .fail e1
          | .fail e1, _ => .fail (e1 ++ [CErr.access])
          | .ok _, .var name => (genExpr l).map fun cl => cl ++ [Code.pushString name, Code.get]
          | .ok _, _ => .fail [CErr.access]) = .ok cs := h
        cases hgl : genExpr l with
        | crash => rw [hgl] at h2; cases r <;> cases h2
        | fail e1 => rw [hgl] at h2; cases r <;> cases h2
        | ok cl0 =>
            rw [hgl] at h2
            cases r
            case var name =>
              obtain ⟨a, ha2, hcs⟩ := map_ok h2
              injection ha2 with ha3
              subst ha3
              subst hcs
              exact FragOk_append (genExpr_fragOk l cl0 hgl)
                (FragOk_cons_plain rfl (FragOk_single_plain rfl))
            all_goals cases h2
      all_goals (
        obtain ⟨p, hp, hcs⟩ := map_ok h
        obtain ⟨hl, hr⟩ := accum2_ok hp
        obtain ⟨cl, cr⟩ := p
        subst hcs
        exact FragOk_append (FragOk_append (genExpr_fragOk l cl hl) (genExpr_fragOk r cr hr))
          (FragOk_single_plain rfl))
termination_by structural e => e

/-- Code emitted for call arguments is a jump-wellformed fragment. -/
theorem genArgs_fragOk : ∀ (l : List Expr) (cs : List Code), genArgs l = .ok cs → FragOk cs := by
  intro l cs h
  cases l with
  | nil =>
      have h2 : GenRes.ok ([] : List Code) = .ok cs := h
      injection h2 with h3
      subst h3
      exact FragOk_nil
  | cons e rest =>
      obtain ⟨p, hp, hcs⟩ := map_ok h
      obtain ⟨hl, hr⟩ := accum2_ok hp
      obtain ⟨c, cs2⟩ := p
      subst hcs
      exact FragOk_append (genExpr_fragOk e c hl) (genArgs_fragOk rest cs2 hr)
termination_by structural l => l

/-- Code emitted for list-literal elements is a jump-wellformed fragment. -/
theorem genListItems_fragOk : ∀ (l : List Expr) (i : ℕ) (cs : List Code),
    genListItems l i = .ok cs → FragOk cs := by
  intro l i cs h
  cases l with
  | nil =>
      have h2 : GenRes.ok ([] : List Code) = .ok cs := h
      injection h2 with h3
      subst h3
      exact FragOk_nil
  | cons e rest =>
      obtain ⟨p, hp, hcs⟩ := map_ok h
      obtain ⟨hl, hr⟩ := accum2_ok hp
      obtain ⟨c, cs2⟩ := p
      subst hcs
      refine FragOk_append ?_ (genListItems_fragOk rest (i + 1) cs2 hr)
      refine FragOk_append ?_ (FragOk_single_plain rfl)
      refine FragOk_append ?_ (genExpr_fragOk e c hl)
      exact FragOk_append (FragOk_single_plain rfl) (FragOk_of_plain (pushIntegerOp_plain i))
termination_by structural l => l

/-- Code emitted for bendy-literal entries is a jump-wellformed fragment. -/
theorem genBendyItems_fragOk : ∀ (l : List (String × Expr)) (cs : List Code),
    genBendyItems l = .ok cs → FragOk cs := by
  intro l cs h
  cases l with
  | nil =>
      have h2 : GenRes.ok ([] : List Code) = .ok cs := h
      injection h2 with h3
      subst h3
      exact FragOk_nil
  | cons kv rest =>
      obtain ⟨k, e⟩ := kv
      obtain ⟨p, hp, hcs⟩ := map_ok h
      obtain ⟨hl, hr⟩ := accum2_ok hp
      obtain ⟨c, cs2⟩ := p
      subst hcs
      refine FragOk_append ?_ (genBendyItems_fragOk rest cs2 hr)
      refine FragOk_append ?_ (FragOk_single_plain rfl)
      exact FragOk_append (FragOk_cons_plain rfl (FragOk_single_plain rfl))
        (genExpr_fragOk e c hl)
termination_by structural l => l

/-- Code emitted for an assignment target is a jump-wellformed fragment. -/
theorem genExprLhs_fragOk : ∀ (e : Expr) (cs : List Code),
    genExprLhs e = .ok cs → FragOk cs := by
  intro e cs h
  cases e with
  | var name =>
      have h2 : GenRes.ok ([] : List Code) = .ok cs := h
      injection h2 with h3
      subst h3
      exact FragOk_nil
  | index e2 i =>
      obtain ⟨p, hp, hcs⟩ := map_ok h
      obtain ⟨hl, hr⟩ := accum2_ok hp
      obtain ⟨ce, ci⟩ := p
      subst hcs
      exact FragOk_append (genExpr_fragOk e2 ce hl) (genExpr_fragOk i ci hr)
  | binary l r operator =>
      cases operator
      case access =>
        have h2 : (match genExpr l, r with
          | .crash, _ => GenRes.crash
          | .fail e1, .var _ => .fail e1
          | .fail e1, _ => .fail (e1 ++ [CErr.access])
          | .ok _, .var name => (genExpr l).map fun cl => cl ++ [Code.pushString name]
          | .ok _, _ => .fail [CErr.access]) = .ok cs := h
        cases hgl : genExpr l with
        | crash => rw [hgl] at h2; cases r <;> cases h2
        | fail e1 => rw [hgl] at h2; cases r <;> cases h2
        | ok cl0 =>
            rw [hgl] at h2
            cases r
            case var name =>
              obtain ⟨a, ha2, hcs⟩ := map_ok h2
              injection ha2 with ha3
              subst ha3
              subst hcs
              exact FragOk_append (genExpr_fragOk l cl0 hgl) (FragOk_single_plain rfl)
            all_goals cases h2
      all_goals cases h
  | list elements => cases h
  | bendy elements => cases h
  | integer v => cases h
  | float v => cases h
  | string s => cases h
  | boolean b => cases h
  | noneE => cases h
  | unary e2 operator => cases h
  | callE f args => cases h
  | function parameters block => cases h
termination_by structural e => e

/-- Code emitted for a statement is a jump-wellformed fragment. -/
theorem genStmt_fragOk : ∀ (s : Stmt) (cs : List Code) (bps : List ℕ),
    genStmt s = .ok (cs, bps) → FragOk cs := by
  intro s cs bps h
  cases s with
  | ret value =>
      obtain ⟨a, ha, hcs⟩ := map_ok h
      injection hcs with hc1 hc2
      subst hc1
      exact FragOk_append (genExpr_fragOk value a ha) (FragOk_single_plain rfl)
  | breakS =>
      have h2 : GenRes.ok ([Code.goto 0], [(0 : ℕ)]) = .ok (cs, bps) := h
      injection h2 with h3
      injection h3 with hc1 hc2
      subst hc1
      refine AOk_single ?_
      show (0 : ℤ) ≤ ((0 : ℕ) : ℤ) + 0 ∧ ((0 : ℕ) : ℤ) + 0 ≤ (([Code.goto 0].length : ℕ) : ℤ)
      norm_num
  | continueS =>
      have h2 : GenRes.ok ([Code.goto 1], [(0 : ℕ)]) = .ok (cs, bps) := h
      injection h2 with h3
      injection h3 with hc1 hc2
      subst hc1
      refine AOk_single ?_
      show (0 : ℤ) ≤ ((0 : ℕ) : ℤ) + 1 ∧ ((0 : ℕ) : ℤ) + 1 ≤ (([Code.goto 1].length : ℕ) : ℤ)
      norm_num
  | block statements => exact genBlock_fragOk statements cs bps h
  | callS expression args =>
      obtain ⟨p, hp, hcs⟩ := map_ok h
      obtain ⟨hl, hr⟩ := accum2_ok hp
      obtain ⟨ca, cf⟩ := p
      injection hcs with hc1 hc2
      subst hc1
      exact FragOk_append (FragOk_append (genArgs_fragOk args ca hl)
        (genExpr_fragOk expression cf hr))
        (FragOk_cons_plain rfl (FragOk_single_plain rfl))
  | assign left right =>
      cases left
      case var name =>
        obtain ⟨p, hp, hcs⟩ := map_ok h
        obtain ⟨hl, hr⟩ := accum2_ok hp
        obtain ⟨cl, cr⟩ := p
        injection hcs with hc1 hc2
        subst hc1
        exact FragOk_append (FragOk_append (genExprLhs_fragOk (.var name) cl hl)
          (genExpr_fragOk right cr hr)) (FragOk_single_plain rfl)
      all_goals (
        obtain ⟨p, hp, hcs⟩ := map_ok h
        obtain ⟨hl, hr⟩ := accum2_ok hp
        obtain ⟨cl, cr⟩ := p
        injection hcs with hc1 hc2
        subst hc1
        refine FragOk_append (FragOk_append (genExprLhs_fragOk _ cl hl)
          (genExpr_fragOk right cr hr)) (FragOk_single_plain rfl))
  | ifS condition body elseblock =>
      cases elseblock with
      | none =>
          obtain ⟨p, hp, hcs⟩ := map_ok h
          obtain ⟨hl, hr⟩ := accum2_ok hp
          obtain ⟨cc, q⟩ := p
          obtain ⟨cb, bps0⟩ := q
          injection hcs with hc1 hc2
          subst hc1
          exact FragOk_ifNoElse (genExpr_fragOk condition cc hl)
            (genBlock_fragOk body cb bps0 hr)
      | some els =>
          obtain ⟨p, hp, hcs⟩ := map_ok h
          obtain ⟨pq, ce⟩ := p
          obtain ⟨cc, q⟩ := pq
          obtain ⟨cb, bps0⟩ := q
          obtain ⟨hp1, hre⟩ := accum2_ok hp
          obtain ⟨hl, hr⟩ := accum2_ok hp1
          injection hcs with hc1 hc2
          subst hc1
          exact FragOk_ifElse (genExpr_fragOk condition cc hl)
            (genBlock_fragOk body cb bps0 hr) (genBlock_fragOk els ce.1 ce.2 hre)
  | whileS condition body =>
      have h2 : (match accum2 (genExpr condition) (genBlock body) with
        | .crash => GenRes.crash
        | .fail e => .fail e
        | .ok (cc, (cb, bps0)) =>
          match patchBreaks cb.length cc.length cb bps0 with
          | none => .crash
          | some cb2 =>
              .ok (cc ++ [Code.jumpNot ((cb.length : ℤ) + 2)] ++ cb2
                    ++ [Code.goto (-((cb.length : ℤ) + (cc.length : ℤ) + 1))], [])) 
          = .ok (cs, bps) := h
      cases hacc : accum2 (genExpr condition) (genBlock body) with
      | crash => rw [hacc] at h2; cases h2
      | fail e => rw [hacc] at h2; cases h2
      | ok val =>
          obtain ⟨cc, q⟩ := val
          obtain ⟨cb, bps0⟩ := q
          obtain ⟨hl, hr⟩ := accum2_ok hacc
          rw [hacc] at h2
          have h3 : (match patchBreaks cb.length cc.length cb bps0 with
            | none => GenRes.crash
            | some cb2 =>
                GenRes.ok (cc ++ [Code.jumpNot ((cb.length : ℤ) + 2)] ++ cb2
                      ++ [Code.goto (-((cb.length : ℤ) + (cc.length : ℤ) + 1))],
                  ([] : List ℕ))) = .ok (cs, bps) := h2
          cases hpt : patchBreaks cb.length cc.length cb bps0 with
          | none => rw [hpt] at h3; cases h3
          | some cb2 =>
              rw [hpt] at h3
              injection h3 with h4
              injection h4 with hc1 hc2
              subst hc1
              exact FragOk_while (genExpr_fragOk condition cc hl)
                (genBlock_fragOk body cb bps0 hr) hpt
termination_by structural s => s

/-- Code emitted for a block is a jump-wellformed fragment. -/
theorem genBlock_fragOk : ∀ (l : List Stmt) (cs : List Code) (bps : List ℕ),
    genBlock l = .ok (cs, bps) → FragOk cs := by
  intro l cs bps h
  cases l with
  | nil =>
      have h2 : GenRes.ok (([] : List Code), ([] : List ℕ)) = .ok (cs, bps) := h
      injection h2 with h3
      injection h3 with hc1 hc2
      subst hc1
      exact FragOk_nil
  | cons st rest =>
      obtain ⟨p, hp, hcs⟩ := map_ok h
      obtain ⟨hl, hr⟩ := accum2_ok hp
      obtain ⟨q1, q2⟩ := p
      obtain ⟨c, bps1⟩ := q1
      obtain ⟨cs2, bps2⟩ := q2
      injection hcs with hc1 hc2
      subst hc1
      exact FragOk_append (genStmt_fragOk st c bps1 hl) (genBlock_fragOk rest cs2 bps2 hr)
termination_by structural l => l

end


/-- Code generation succeeding makes the emitted sequence jump-wellformed. -/
theorem genCodes_wfJumps {tree : List Stmt} {codes : List Code}
    (h : genCodes tree = .ok codes) : wfJumps codes = true := by
  unfold genCodes at h
  cases hgb : genBlock tree with
  | crash => rw [hgb] at h; cases h
  | fail e => rw [hgb] at h; cases h
  | ok val =>
      obtain ⟨cs, bps⟩ := val
      rw [hgb] at h
      have h3 : (if bps.isEmpty then GenRes.ok (cs ++ [Code.pushNone, Code.ret])
          else GenRes.fail (bps.map fun _ => CErr.breakOutsideWhile)) = .ok codes := h
      by_cases hbe : bps.isEmpty
      · rw [if_pos hbe] at h3
        injection h3 with h4
        subst h4
        exact wfJumps_of_FragOk (genBlock_fragOk tree cs bps hgb)
      · rw [if_neg hbe] at h3
        cases h3

mutual

/-- A `break`/`continue` occurs in the statement outside any enclosing
`while` (the placeholder positions such a statement emits are exactly the
ones that escape it). -/
def openBrS : Stmt → Bool
  | .breakS => true
  | .continueS => true
  | .block l => openBrL l
  | .ifS _ b e =>
      openBrL b || (match e with | some l => openBrL l | none => false)
  | _ => false

/-- Some statement of the block has an unenclosed `break`/`continue`. -/
def openBrL : List Stmt → Bool
  | [] => false
  | s :: rest => openBrS s || openBrL rest

end

mutual

/-- The break positions a statement's generation carries out are empty
exactly when no `break`/`continue` escapes the statement. -/
theorem genStmt_openBr : ∀ (s : Stmt) (cs : List Code) (bps : List ℕ),
    genStmt s = .ok (cs, bps) → (bps = [] ↔ openBrS s = false) := by
  intro s cs bps h
  cases s with
  | breakS =>
      have h2 : GenRes.ok ([Code.goto 0], [(0 : ℕ)]) = .ok (cs, bps) := h
      injection h2 with h3
      injection h3 with hc1 hc2
      subst hc2
      simp [openBrS]
  | continueS =>
      have h2 : GenRes.ok ([Code.goto 1], [(0 : ℕ)]) = .ok (cs, bps) := h
      injection h2 with h3
      injection h3 with hc1 hc2
      subst hc2
      simp [openBrS]
  | ret value =>
      obtain ⟨a, ha, hcs⟩ := map_ok h
      injection hcs with hc1 hc2
      subst hc2
      simp [openBrS]
  | block statements =>
      have h2 := genBlock_openBr statements cs bps h
      rw [h2]
      show openBrL statements = false ↔ _
      rfl
  | callS expression args =>
      obtain ⟨p, hp, hcs⟩ := map_ok h
      obtain ⟨ca, cf⟩ := p
      injection hcs with hc1 hc2
      subst hc2
      simp [openBrS]
  | assign left right =>
      cases left <;> (
        obtain ⟨p, hp, hcs⟩ := map_ok h
        obtain ⟨cl, cr⟩ := p
        injection hcs with hc1 hc2
        subst hc2
        simp [openBrS])
  | whileS condition body =>
      have h2 : (match accum2 (genExpr condition) (genBlock body) with
        | .crash => GenRes.crash
        | .fail e => .fail e
        | .ok (cc, (cb, bps0)) =>
          match patchBreaks cb.length cc.length cb bps0 with
          | none => .crash
          | some cb2 =>
              .ok (cc ++ [Code.jumpNot ((cb.length : ℤ) + 2)] ++ cb2
                    ++ [Code.goto (-((cb.length : ℤ) + (cc.length : ℤ) + 1))], []))
          = .ok (cs, bps) := h
      cases hacc : accum2 (genExpr condition) (genBlock body) with
      | crash => rw [hacc] at h2; cases h2
      | fail e => rw [hacc] at h2; cases h2
      | ok val =>
          obtain ⟨cc, q⟩ := val
          obtain ⟨cb, bps0⟩ := q
          rw [hacc] at h2
          have h3 : (match patchBreaks cb.length cc.length cb bps0 with
            | none => GenRes.crash
            | some cb2 =>
                GenRes.ok (cc ++ [Code.jumpNot ((cb.length : ℤ) + 2)] ++ cb2
                      ++ [Code.goto (-((cb.length : ℤ) + (cc.length : ℤ) + 1))],
                  ([] : List ℕ))) = .ok (cs, bps) := h2
          cases hpt : patchBreaks cb.length cc.length cb bps0 with
          | none => rw [hpt] at h3; cases h3
          | some cb2 =>
              rw [hpt] at h3
              injection h3 with h4
              injection h4 with hc1 hc2
              subst hc2
              simp [openBrS]
  | ifS condition body elseblock =>
      cases elseblock with
      | none =>
          obtain ⟨p, hp, hcs⟩ := map_ok h
          obtain ⟨hl, hr⟩ := accum2_ok hp
          obtain ⟨cc, q⟩ := p
          obtain ⟨cb, bps0⟩ := q
          injection hcs with hc1 hc2
          subst hc2
          have ih := genBlock_openBr body cb bps0 hr
          show bps0.map _ = [] ↔ (openBrL body || false) = false
          rw [List.map_eq_nil, ih, Bool.or_false]
      | some els =>
          obtain ⟨p, hp, hcs⟩ := map_ok h
          obtain ⟨pq, ce⟩ := p
          obtain ⟨cc, q⟩ := pq
          obtain ⟨cb, bps0⟩ := q
          obtain ⟨hp1, hre⟩ := accum2_ok hp
          obtain ⟨hl, hr⟩ := accum2_ok hp1
          injection hcs with hc1 hc2
          subst hc2
          have ih1 := genBlock_openBr body cb bps0 hr
          have ih2 := genBlock_openBr els ce.1 ce.2 hre
          show ce.2.map _ ++ bps0.map _ = [] ↔ (openBrL body || openBrL els) = false
          rw [List.append_eq_nil, List.map_eq_nil, List.map_eq_nil, ih1, ih2,
            Bool.or_eq_false_iff]
          exact and_comm
termination_by structural s => s

/-- The break positions a block's generation carries out are empty exactly
when no statement of the block has an unenclosed `break`/`continue`. -/
theorem genBlock_openBr : ∀ (l : List Stmt) (cs : List Code) (bps : List ℕ),
    genBlock l = .ok (cs, bps) → (bps = [] ↔ openBrL l = false) := by
  intro l cs bps h
  cases l with
  | nil =>
      have h2 : GenRes.ok (([] : List Code), ([] : List ℕ)) = .ok (cs, bps) := h
      injection h2 with h3
      injection h3 with hc1 hc2
      subst hc2
      simp [openBrL]
  | cons st rest =>
      obtain ⟨p, hp, hcs⟩ := map_ok h
      obtain ⟨hl, hr⟩ := accum2_ok hp
      obtain ⟨q1, q2⟩ := p
      obtain ⟨c, bps1⟩ := q1
      obtain ⟨cs2, bps2⟩ := q2
      injection hcs with hc1 hc2
      subst hc2
      have ih1 := genStmt_openBr st c bps1 hl
      have ih2 := genBlock_openBr rest cs2 bps2 hr
      show bps1 ++ bps2.map _ = [] ↔ (openBrS st || openBrL rest) = false
      rw [List.append_eq_nil, List.map_eq_nil, ih1, ih2, Bool.or_eq_false_iff]
termination_by structural l => l

end

/-- A block whose generation succeeds but carries an unenclosed
`break`/`continue` makes `generate_codes` fail with `BreakOutsideWhile`. -/
theorem genCodes_fails_on_open_break {tree : List Stmt} {cs : List Code} {bps : List ℕ}
    (h : genBlock tree = .ok (cs, bps)) (hbr : openBrL tree = true) :
    ∃ errs, genCodes tree = .fail errs ∧ CErr.breakOutsideWhile ∈ errs := by
  have hne : bps ≠ [] := by
    intro h0
    have := (genBlock_openBr tree cs bps h).mp h0
    rw [hbr] at this
    cases this
  have hbe : bps.isEmpty = false := by
    cases bps with
    | nil => exact absurd rfl hne
    | cons p rest => rfl
  refine ⟨bps.map fun _ => CErr.breakOutsideWhile, ?_, ?_⟩
  · unfold genCodes
    rw [h]
    show (if bps.isEmpty then GenRes.ok (cs ++ [Code.pushNone, Code.ret])
        else GenRes.fail (bps.map fun _ => CErr.breakOutsideWhile)) = _
    rw [hbe]
    rfl
  · cases bps with
    | nil => exact absurd rfl hne
    | cons p rest => exact List.mem_cons_self _ _


/-- C6 (confirmed): after code generation succeeds, every
`Goto`/`Jump`/`JumpNot` of the emitted sequence — at top level and inside
every nested function body — has a target `t` with `0 ≤ t < length` of
its enclosing sequence (conjunct 1, `wfJumps`); the carried break
placeholder positions are empty exactly when no `break`/`continue`
stands outside a `while` (conjunct 2); and a block that generates but has
such an escaped `break`/`continue` makes compilation fail with a
`BreakOutsideWhile` error (conjunct 3). -/
theorem c6_codegen_jump_targets_in_bounds :
    (∀ (tree : List Stmt) (codes : List Code),
        genCodes tree = .ok codes → wfJumps codes = true) ∧
    (∀ (tree : List Stmt) (cs : List Code) (bps : List ℕ),
        genBlock tree = .ok (cs, bps) → (bps = [] ↔ openBrL tree = false)) ∧
    (∀ (tree : List Stmt) (cs : List Code) (bps : List ℕ),
        genBlock tree = .ok (cs, bps) → openBrL tree = true →
        ∃ errs, genCodes tree = .fail errs ∧ CErr.breakOutsideWhile ∈ errs) :=
  ⟨fun _ _ => genCodes_wfJumps, genBlock_openBr,
   fun _ _ _ h hbr => genCodes_fails_on_open_break h hbr⟩

/-- Witness for `c6_codegen_jump_targets_in_bounds`: the compiled
`while true { break; continue; }` (all four jumps patched and in bounds)
and a top-level `break` (compilation fails with `BreakOutsideWhile`). -/
theorem c6_codegen_witness :
    wfJumps [Code.pushBoolean true, Code.jumpNot 4, Code.goto 3, Code.goto (-3),
      Code.goto (-4), Code.pushNone, Code.ret] = true ∧
    (∃ errs, genCodes [Stmt.breakS] = .fail errs ∧ CErr.breakOutsideWhile ∈ errs) :=
  ⟨c6_codegen_jump_targets_in_bounds.1
      [Stmt.whileS (.boolean true) [.breakS, .continueS]]
      [Code.pushBoolean true, Code.jumpNot 4, Code.goto 3, Code.goto (-3),
        Code.goto (-4), Code.pushNone, Code.ret] rfl,
   c6_codegen_jump_targets_in_bounds.2.2 [Stmt.breakS] [Code.goto 0] [0] rfl rfl⟩

end Olive
